import Mathlib

/-!
elemc/maps: a string-keyed map of dynamically typed values with coercing getters.

A shallow embedding of `maps.go`.  A Go `map[string]interface{}` is an
association list of entries (`none` is the nil map); an `interface{}` value is
the tagged sum `Value` over the dynamic types the getters inspect.  A Go string
is a `String`, that is a Go string that is valid UTF-8 (a Go string holding
other bytes is outside this model).  A Go panic is the `Except.error` carrying
the panic message.  The `*sync.RWMutex` is not
part of the state: every definition below is the sequential behaviour of one
call, which is what the lock makes each call look like.
-/

namespace maps

/-! ## Machine integers -/

/-- Two's complement wrap of an integer to `w` bits. -/
def wrapBits (w : Nat) (x : Int) : Int :=
  (x + 2 ^ (w - 1)) % 2 ^ w - 2 ^ (w - 1)

/-- An `int64` result of Go arithmetic. -/
def wrap64 (x : Int) : Int := wrapBits 64 x

/-- The range of the Go type `int64`. -/
def isInt64 (x : Int) : Prop := -2 ^ 63 ≤ x ∧ x < 2 ^ 63

instance (x : Int) : Decidable (isInt64 x) := by
  unfold isInt64; exact inferInstance

/-! ## float64 -/

/-- An IEEE 754 binary64 value, given by its bit pattern (`math.Float64bits`). -/
structure Float64 where
  bits : Nat
deriving DecidableEq, Repr

namespace Float64

/-- Sign bit. -/
def neg (f : Float64) : Bool := f.bits / 2 ^ 63 % 2 = 1

/-- Biased exponent field. -/
def expo (f : Float64) : Nat := f.bits / 2 ^ 52 % 2048

/-- Fraction field. -/
def frac (f : Float64) : Nat := f.bits % 2 ^ 52

/-- NaN or an infinity. -/
def isNaNOrInf (f : Float64) : Bool := f.expo = 2047

/-- The Go comparison `v == 0`: true for both zeros, false for NaN. -/
def isZero (f : Float64) : Bool := f.expo = 0 ∧ f.frac = 0

/-- Integer part of the magnitude of a finite value (the fraction is discarded). -/
def truncMag (f : Float64) : Nat :=
  if f.expo = 0 then 0
  else if 1075 ≤ f.expo then (2 ^ 52 + f.frac) * 2 ^ (f.expo - 1075)
  else (2 ^ 52 + f.frac) / 2 ^ (1075 - f.expo)

/-- The value with its fraction discarded (truncation towards zero); `none` for NaN and infinities. -/
def trunc (f : Float64) : Option Int :=
  if f.isNaNOrInf then none
  else some (if f.neg then -(f.truncMag : Int) else (f.truncMag : Int))

/-- The exact rational value of a finite float64; `none` for NaN and infinities. -/
def toRat (f : Float64) : Option ℚ :=
  if f.isNaNOrInf then none
  else
    let mag : ℚ :=
      if f.expo = 0 then (f.frac : ℚ) / 2 ^ 1074
      else ((2 ^ 52 + f.frac : Nat) : ℚ) * 2 ^ ((f.expo : Int) - 1075)
    some (if f.neg then -mag else mag)

/-- Positive zero, the Go constant `0` as a float64. -/
def zero : Float64 := ⟨0⟩

/-- Bit length of a natural number, by repeated halving (`fuel` bounds the loop). -/
def bitLen : Nat → Nat → Nat
  | 0, _ => 0
  | fuel + 1, n => if n = 0 then 0 else bitLen fuel (n / 2) + 1

/-- The conversion `float64(n)` of an integer: round to nearest, ties to even. -/
def ofInt (n : Int) : Float64 :=
  let a := n.natAbs
  if a = 0 then zero
  else
    let len := bitLen (a + 1) a
    let sign := if n < 0 then 2 ^ 63 else 0
    if len ≤ 53 then
      ⟨sign + (len - 1 + 1023) * 2 ^ 52 + (a * 2 ^ (53 - len) - 2 ^ 52)⟩
    else
      let sh := len - 53
      let q := a / 2 ^ sh
      let r := a % 2 ^ sh
      let half := 2 ^ (sh - 1)
      let q1 := if r > half ∨ (r = half ∧ q % 2 = 1) then q + 1 else q
      -- a carry out of the 53-bit significand lands in the exponent field
      ⟨sign + (len - 1 + 1023) * 2 ^ 52 + (q1 - 2 ^ 52)⟩

end Float64

/-! ## Platform -/

/-- What the Go implementation leaves open: the width of `int`, and the result of
converting a float64 that the integer type cannot represent (the language
specification says the conversion succeeds with an implementation-dependent value). -/
structure Platform where
  intBits : Nat
  floatToInt64 : Float64 → Int
  floatToInt : Float64 → Int

/-- The 64-bit x86 port: an unrepresentable conversion gives the minimum integer. -/
def amd64 : Platform :=
  { intBits := 64, floatToInt64 := fun _ => -2 ^ 63, floatToInt := fun _ => -2 ^ 63 }

/-- The 32-bit x86 port with SSE2: `int` has 32 bits, and the conversion instruction
gives 0x80000000 for a float64 that int32 cannot represent.  The conversion to int64
is a library routine there, whose result for a float64 that int64 cannot represent is
the parameter. -/
def i386 (floatToInt64 : Float64 → Int) : Platform :=
  { intBits := 32, floatToInt64 := floatToInt64, floatToInt := fun _ => -2 ^ 31 }

/-- The conversion `int64(v)` of a float64. -/
def Float64.toInt64 (P : Platform) (f : Float64) : Int :=
  match f.trunc with
  | some i => if isInt64 i then i else P.floatToInt64 f
  | none => P.floatToInt64 f

/-- The conversion `int(v)` of a float64. -/
def Float64.toInt (P : Platform) (f : Float64) : Int :=
  match f.trunc with
  | some i => if -2 ^ (P.intBits - 1) ≤ i ∧ i < 2 ^ (P.intBits - 1) then i else P.floatToInt f
  | none => P.floatToInt f

/-! ## package time -/

/-- The location of a `time.Time`. -/
inductive Location where
  | UTC
  | Local
  | fixed (name : String) (offset : Int)
deriving DecidableEq, Repr

/-- A `time.Time` without a monotonic reading: `sec` is the int64 count of seconds
since January 1 of year 1 (the field `ext`), `nsec` the nanoseconds within the second. -/
structure Time where
  sec : Int
  nsec : Nat
  loc : Location
deriving DecidableEq, Repr

/-- Seconds from January 1, year 1 to the Unix epoch:
`(1969*365 + 1969/4 - 1969/100 + 1969/400) * 86400`. -/
def unixToInternal : Int := (1969 * 365 + 1969 / 4 - 1969 / 100 + 1969 / 400) * 86400

/-- The constant `internalToUnix = -unixToInternal`. -/
def internalToUnix : Int := -unixToInternal

/-- The function `time.Unix(sec, nsec)`. -/
def timeUnix (sec nsec : Int) : Time :=
  if nsec < 0 ∨ nsec ≥ 1000000000 then
    let n := Int.tdiv nsec 1000000000
    let sec1 := wrap64 (sec + n)
    let nsec1 := wrap64 (nsec - wrap64 (n * 1000000000))
    if nsec1 < 0 then
      ⟨wrap64 (wrap64 (sec1 - 1) + unixToInternal), (wrap64 (nsec1 + 1000000000)).toNat, .Local⟩
    else
      ⟨wrap64 (sec1 + unixToInternal), nsec1.toNat, .Local⟩
  else
    ⟨wrap64 (sec + unixToInternal), nsec.toNat, .Local⟩

/-- The method `Time.Unix()`: seconds since the Unix epoch. -/
def Time.Unix (t : Time) : Int := wrap64 (t.sec + internalToUnix)

/-! ## Dynamic values -/

/-- An `interface{}` value, by dynamic type.  `mapping` is a `map[string]interface{}`
(`none` is the nil map of that type), `slice` a `[]interface{}` that is not nil, `error` a value
implementing `error` whose `Error()` returns `msg` (of a type without exported fields,
as `errors.New` and `fmt.Errorf` give), and `other` any further type. -/
inductive Value where
  | nil
  | bool (b : Bool)
  | int (n : Int)
  | int64 (n : Int)
  | float64 (f : Float64)
  | string (s : String)
  | time (t : Time)
  | duration (d : Int)
  | error (msg : String)
  | mapping (d : Option (List (String × Value)))
  | slice (xs : List Value)
  | other (typeName : String)

/-- The entries of an allocated Go map. -/
abbrev Entries := List (String × Value)

/-- A Go `map[string]interface{}`: `none` is the nil map. -/
abbrev GoMap := Option Entries

/-- The keys of a Go map are pairwise distinct. -/
def Entries.Valid (d : Entries) : Prop := (d.map Prod.fst).Nodup

instance (d : Entries) : Decidable d.Valid := by
  unfold Entries.Valid; exact inferInstance

/-- The comma-ok read `v, ok := d[key]` on the entries. -/
def Entries.find : Entries → String → Option Value
  | [], _ => none
  | (k0, v0) :: rest, key => if k0 = key then some v0 else Entries.find rest key

/-- The assignment `d[key] = value` on the entries of an allocated map. -/
def Entries.assign : Entries → String → Value → Entries
  | [], key, value => [(key, value)]
  | (k0, v0) :: rest, key, value =>
    if k0 = key then (key, value) :: rest else (k0, v0) :: Entries.assign rest key value

/-- The builtin `delete(d, key)` on the entries. -/
def Entries.erase (d : Entries) (key : String) : Entries :=
  d.filter (fun kv => kv.1 ≠ key)

/-- The comma-ok read `v, ok := d[key]`; a nil map reads as empty. -/
def GoMap.find (d : GoMap) (key : String) : Option Value :=
  match d with
  | none => none
  | some es => es.find key

/-- The assignment `d[key] = value`; it panics on a nil map. -/
def GoMap.assign (d : GoMap) (key : String) (value : Value) : Except String GoMap :=
  match d with
  | none => .error "assignment to entry in nil map"
  | some es => .ok (some (es.assign key value))

/-- The builtin `delete(d, key)`; a no-op on a nil map. -/
def GoMap.erase (d : GoMap) (key : String) : GoMap :=
  match d with
  | none => none
  | some es => some (es.erase key)

/-- The builtin `len(d)`. -/
def GoMap.len (d : GoMap) : Nat :=
  match d with
  | none => 0
  | some es => es.length

/-! ## package strconv -/

/-- The error kinds of `strconv.NumError`. -/
inductive NumError where
  | ErrSyntax
  | ErrRange
deriving DecidableEq, Repr

/-- The digit loop of `strconv.ParseUint(s, 10, 64)`: decimal digits only,
`ErrRange` as soon as the value leaves the uint64 range. -/
def parseUintLoop : List Char → Nat → Except NumError Nat
  | [], n => .ok n
  | c :: cs, n =>
    if '0' ≤ c ∧ c ≤ '9' then
      let n1 := n * 10 + (c.toNat - '0'.toNat)
      if n1 ≥ 2 ^ 64 then .error .ErrRange else parseUintLoop cs n1
    else .error .ErrSyntax

/-- The call `strconv.ParseUint(s, 10, 64)` on the characters of `s`. -/
def ParseUint (cs : List Char) : Except NumError Nat :=
  match cs with
  | [] => .error .ErrSyntax
  | _ => parseUintLoop cs 0

/-- The call `strconv.ParseInt(s, 10, 64)`: an optional sign, decimal digits,
and the int64 range check. -/
def ParseInt (s : String) : Except NumError Int :=
  match s.toList with
  | [] => .error .ErrSyntax
  | c :: cs =>
    let neg := c = '-'
    let rest := if c = '+' ∨ c = '-' then cs else c :: cs
    match ParseUint rest with
    | .error e => .error e
    | .ok un =>
      if ¬ neg ∧ un ≥ 2 ^ 63 then .error .ErrRange
      else if neg ∧ un > 2 ^ 63 then .error .ErrRange
      else .ok (if neg then -(un : Int) else (un : Int))

/-- The call `strconv.ParseBool(s)`; `none` is the syntax error. -/
def ParseBool (s : String) : Option Bool :=
  if s = "1" ∨ s = "t" ∨ s = "T" ∨ s = "true" ∨ s = "TRUE" ∨ s = "True" then some true
  else if s = "0" ∨ s = "f" ∨ s = "F" ∨ s = "false" ∨ s = "FALSE" ∨ s = "False" then some false
  else none

/-- The digit table of `strconv`: `0`..`9`, `a`..`z`. -/
def digitChar (d : Nat) : Char :=
  if d < 10 then Char.ofNat ('0'.toNat + d) else Char.ofNat ('a'.toNat + (d - 10))

/-- The digit loop of `formatBits`: most significant digit first (`fuel` bounds the loop). -/
def formatLoop (base : Nat) : Nat → Nat → List Char → List Char
  | 0, _, acc => acc
  | fuel + 1, u, acc =>
    if u < base then digitChar u :: acc
    else formatLoop base fuel (u / base) (digitChar (u % base) :: acc)

/-- The function `strconv.FormatInt(i, base)`: it panics unless `2 ≤ base ≤ 36`. -/
def FormatInt (i : Int) (base : Nat) : Except String String :=
  if base < 2 ∨ base > 36 then .error "strconv: illegal AppendInt/FormatInt base"
  else
    let ds := formatLoop base (i.natAbs + 1) i.natAbs []
    .ok (String.mk (if i < 0 then '-' :: ds else ds))

/-- The function `strconv.Itoa(i)`, which is `FormatInt(int64(i), 10)`. -/
def Itoa (i : Int) : Except String String := FormatInt i 10

/-- What is taken as given from the standard library and the machine: the text
functions `strconv.ParseFloat(s, 64)` (`none` on error),
`strconv.FormatFloat(v, 'f', -1, 64)`, `t.Format(time.RFC3339)`, `Duration.String()`
and `Time.MarshalJSON()` (the text inside the quotes; `none` is its error, for a year
outside 0..9999), and `LocalOffset`, the offset in seconds east of UTC that the zone
`time.Local` has at a Unix time.  None of the functions panics. -/
structure Lib where
  ParseFloat : String → Option Float64
  FormatFloat : Float64 → String
  TimeFormat : Time → String
  DurationString : Int → String
  TimeMarshalJSON : Time → Option String
  LocalOffset : Int → Int

/-! ## package encoding/json -/

/-- A JSON text, by the value it denotes; `num` carries the float64 the decoder
stores for the number.  A number whose text is outside the float64 range, for which
the decoder reports an `UnmarshalTypeError`, is not a value of this type. -/
inductive JSON where
  | null
  | bool (b : Bool)
  | num (f : Float64)
  | str (s : String)
  | arr (xs : List JSON)
  | obj (members : List (String × JSON))

/-- The errors of `json.Unmarshal`: the bytes are not a JSON text, or the JSON value
does not fit the Go value it is decoded into. -/
inductive JSONError where
  | SyntaxError
  | UnmarshalTypeError
deriving DecidableEq, Repr

mutual
/-- What `json.Unmarshal` stores into an `interface{}` for a JSON value. -/
def decodeValue : JSON → Value
  | .null => .nil
  | .bool b => .bool b
  | .num f => .float64 f
  | .str s => .string s
  | .arr xs => .slice (decodeElems xs)
  | .obj members => .mapping (some (decodeMembers members []))
/-- The elements of a JSON array, in order. -/
def decodeElems : List JSON → List Value
  | [] => []
  | x :: xs => decodeValue x :: decodeElems xs
/-- The members of a JSON object stored one after the other into the entries `acc`. -/
def decodeMembers : List (String × JSON) → Entries → Entries
  | [], acc => acc
  | (k, j) :: rest, acc => decodeMembers rest (acc.assign k (decodeValue j))
end

/-! ## package time: parsing the layout RFC3339 -/

/-- Leap years of the proleptic Gregorian calendar. -/
def isLeap (year : Int) : Bool := year % 4 = 0 ∧ (year % 100 ≠ 0 ∨ year % 400 = 0)

/-- The table `daysBefore`: days of a non-leap year before the month (1 = January). -/
def daysBefore (month : Nat) : Nat :=
  [0, 31, 59, 90, 120, 151, 181, 212, 243, 273, 304, 334, 365].getD (month - 1) 0

/-- The function `daysIn(month, year)`. -/
def daysIn (month : Nat) (year : Int) : Nat :=
  if month = 2 ∧ isLeap year then 29 else daysBefore (month + 1) - daysBefore month

/-- The function `time.Date` for fields that are in range, followed by
`addSec(-offset)` for a zone `offset` seconds east of UTC: the seconds since January 1
of year 1, UTC. -/
def timeDate (year : Int) (month day hour min sec nsec : Nat) (offset : Int)
    (loc : Location) : Time :=
  let y := year - 1
  let days : Int := 365 * y + y / 4 - y / 100 + y / 400 + daysBefore month
    + (if isLeap year ∧ month ≥ 3 then 1 else 0) + (day - 1 : Nat)
  ⟨wrap64 (days * 86400 + hour * 3600 + min * 60 + sec - offset), nsec, loc⟩

/-- The location given to a time parsed with a zone offset: `Local` when the local zone
has that offset at that time, else a fixed zone without a name. -/
def zoneLocation (localOffset : Int → Int) (t : Time) (offset : Int) : Location :=
  if localOffset t.Unix = offset then Location.Local else Location.fixed "" offset

/-- The time of the parsed fields: in UTC for `Z` (`zone = none`), else moved by the
offset and placed by `zoneLocation`. -/
def timeOfFields (localOffset : Int → Int) (year : Int) (month day hour min sec nsec : Nat)
    (zone : Option Int) : Time :=
  match zone with
  | none => timeDate year month day hour min sec nsec 0 Location.UTC
  | some offset =>
    timeDate year month day hour min sec nsec offset
      (zoneLocation localOffset (timeDate year month day hour min sec nsec offset Location.UTC)
        offset)

/-- Exactly `n` decimal digits at the head of the input: their value and the rest. -/
def takeNum : Nat → Nat → List Char → Option (Nat × List Char)
  | 0, acc, cs => some (acc, cs)
  | n + 1, acc, c :: cs =>
    if '0' ≤ c ∧ c ≤ '9' then takeNum n (acc * 10 + (c.toNat - '0'.toNat)) cs else none
  | _ + 1, _, [] => none

/-- The function `getnum(s, fixed)`: two digits, or one digit when the next character
is not a digit and `fixed` is false. -/
def getnum (fixed : Bool) : List Char → Option (Nat × List Char)
  | [] => none
  | c1 :: rest =>
    if '0' ≤ c1 ∧ c1 ≤ '9' then
      match rest with
      | c2 :: rest2 =>
        if '0' ≤ c2 ∧ c2 ≤ '9' then
          some ((c1.toNat - '0'.toNat) * 10 + (c2.toNat - '0'.toNat), rest2)
        else if fixed then none
        else some (c1.toNat - '0'.toNat, rest)
      | [] => if fixed then none else some (c1.toNat - '0'.toNat, [])
    else none

/-- The given character at the head of the input: the rest. -/
def expectChar (c : Char) : List Char → Option (List Char)
  | x :: cs => if x = c then some cs else none
  | [] => none

/-- The digits of a fractional second, as nanoseconds (`parseNanoseconds`): at most
nine digits count, the further digits are skipped. -/
def fracNanos : Nat → Nat → List Char → Nat × List Char
  | 0, acc, cs => (acc, cs.dropWhile (fun c => '0' ≤ c ∧ c ≤ '9'))
  | n + 1, acc, c :: cs =>
    if '0' ≤ c ∧ c ≤ '9' then fracNanos n (acc + (c.toNat - '0'.toNat) * 10 ^ n) cs
    else (acc, c :: cs)
  | _ + 1, acc, [] => (acc, [])

/-- The zone in `parseRFC3339`: `Z` alone (`some none`), or a sign, two digits up to
23, a colon and two digits up to 59, and nothing after; `none` is the rejection. -/
def strictZone (cs : List Char) : Option (Option Int) :=
  match cs with
  | ['Z'] => some none
  | [sign, h1, h2, colon, m1, m2] =>
    match takeNum 2 0 [h1, h2], takeNum 2 0 [m1, m2] with
    | some (hh, _), some (mm, _) =>
      if hh ≤ 23 ∧ mm ≤ 59 ∧ (sign = '-' ∨ sign = '+') ∧ colon = ':' then
        some (some (if sign = '-' then -(((hh * 60 + mm) * 60 : Nat) : Int)
                    else (((hh * 60 + mm) * 60 : Nat) : Int)))
      else none
    | _, _ => none
  | _ => none

/-- The function `parseRFC3339` of package time, the strict reader that `time.Parse`
tries first for the layout RFC3339: `yyyy-mm-ddThh:mm:ss[.fraction](Z|±hh:mm)` by
position, with upper-case `T` and `Z`, month 01..12, a day of that month, hour up to
23, minute and second up to 59; `none` is its `false`. -/
def parseRFC3339 (localOffset : Int → Int) (s : String) : Option Time :=
  match takeNum 4 0 s.toList with
  | none => none
  | some (year, r1) =>
  match expectChar '-' r1 with
  | none => none
  | some r2 =>
  match takeNum 2 0 r2 with
  | none => none
  | some (month, r3) =>
  match expectChar '-' r3 with
  | none => none
  | some r4 =>
  match takeNum 2 0 r4 with
  | none => none
  | some (day, r5) =>
  match expectChar 'T' r5 with
  | none => none
  | some r6 =>
  match takeNum 2 0 r6 with
  | none => none
  | some (hour, r7) =>
  match expectChar ':' r7 with
  | none => none
  | some r8 =>
  match takeNum 2 0 r8 with
  | none => none
  | some (min, r9) =>
  match expectChar ':' r9 with
  | none => none
  | some r10 =>
  match takeNum 2 0 r10 with
  | none => none
  | some (sec, r11) =>
    let fr : Nat × List Char :=
      match r11 with
      | '.' :: c :: cs => if '0' ≤ c ∧ c ≤ '9' then fracNanos 9 0 (c :: cs) else (0, r11)
      | _ => (0, r11)
    match strictZone fr.2 with
    | none => none
    | some zone =>
      if month < 1 ∨ month > 12 ∨ day < 1 ∨ day > daysIn month year
          ∨ hour > 23 ∨ min > 59 ∨ sec > 59 then none
      else some (timeOfFields localOffset year month day hour min sec fr.1 zone)

/-- The zone `Z07:00` in the layout reader: `Z`, or a sign, two digits, a colon and two
digits, with the hours up to 24 and the minutes up to 60; the rest of the input is
returned. -/
def layoutZone (cs : List Char) : Option (Option Int × List Char) :=
  match cs with
  | 'Z' :: rest => some (none, rest)
  | sign :: h1 :: h2 :: colon :: m1 :: m2 :: rest =>
    if colon = ':' then
      match getnum true [h1, h2], getnum true [m1, m2] with
      | some (hh, _), some (mm, _) =>
        if hh > 24 ∨ mm > 60 then none
        else if sign = '+' then some (some (((hh * 60 + mm) * 60 : Nat) : Int), rest)
        else if sign = '-' then some (some (-(((hh * 60 + mm) * 60 : Nat) : Int)), rest)
        else none
      | _, _ => none
    else none
  | _ => none

/-- The function `parse` of package time on the layout RFC3339
(`2006-01-02T15:04:05Z07:00`), the reader that `time.Parse` falls back to: a year of
four digits, month, day, minute and second of two digits, an hour of one or two
digits, after the seconds a fraction behind a period or a comma although the layout
has none, the zone, and no text after it. -/
def parseLayout (localOffset : Int → Int) (s : String) : Option Time :=
  match takeNum 4 0 s.toList with
  | none => none
  | some (year, r1) =>
  match expectChar '-' r1 with
  | none => none
  | some r2 =>
  match getnum true r2 with
  | none => none
  | some (month, r3) =>
  match expectChar '-' r3 with
  | none => none
  | some r4 =>
  match getnum true r4 with
  | none => none
  | some (day, r5) =>
  match expectChar 'T' r5 with
  | none => none
  | some r6 =>
  match getnum false r6 with
  | none => none
  | some (hour, r7) =>
  match expectChar ':' r7 with
  | none => none
  | some r8 =>
  match getnum true r8 with
  | none => none
  | some (min, r9) =>
  match expectChar ':' r9 with
  | none => none
  | some r10 =>
  match getnum true r10 with
  | none => none
  | some (sec, r11) =>
    let fr : Nat × List Char :=
      match r11 with
      | sep :: c :: cs =>
        if (sep = '.' ∨ sep = ',') ∧ '0' ≤ c ∧ c ≤ '9' then fracNanos 9 0 (c :: cs) else (0, r11)
      | _ => (0, r11)
    match layoutZone fr.2 with
    | some (zone, []) =>
      if month < 1 ∨ month > 12 ∨ day < 1 ∨ day > daysIn month year
          ∨ hour ≥ 24 ∨ min ≥ 60 ∨ sec ≥ 60 then none
      else some (timeOfFields localOffset year month day hour min sec fr.1 zone)
    | _ => none

/-- The call `time.Parse(time.RFC3339, s)`: `parseRFC3339` first, and `parse` on the
layout when that fails; `none` is the parse error. -/
def timeParse (localOffset : Int → Int) (s : String) : Option Time :=
  match parseRFC3339 localOffset s with
  | some t => some t
  | none => parseLayout localOffset s

/-! ## maps.go -/

/-- The type `Map`: the field `data`.  (The embedded `*sync.RWMutex` is left out.) -/
structure Map where
  data : GoMap

/-- The function `New`: an allocated, empty mapping. -/
def New : Map := ⟨some []⟩

/-- The method `Set`: `m.data[key] = value`. -/
def Map.Set (m : Map) (key : String) (value : Value) : Except String Map :=
  match m.data.assign key value with
  | .error e => .error e
  | .ok d => .ok ⟨d⟩

/-- The loop of `AddMap`: one assignment per entry of the argument. -/
def Map.addEntries (m : Map) : Entries → Except String Map
  | [] => .ok m
  | (k, v) :: rest =>
    match m.Set k v with
    | .error e => .error e
    | .ok m1 => m1.addEntries rest

/-- The method `AddMap`: nothing for a nil argument, else the loop. -/
def Map.AddMap (m : Map) (data : GoMap) : Except String Map :=
  match data with
  | none => .ok m
  | some es => m.addEntries es

/-- The function `Copy`: `New()` followed by `AddMap(data)`. -/
def Copy (data : GoMap) : Except String Map := New.AddMap data

/-- The method `Get`: the stored value, or nil when the key is absent. -/
def Map.Get (m : Map) (key : String) : Value :=
  match m.data.find key with
  | none => .nil
  | some value => value

/-- The method `Del`: `delete(m.data, key)`. -/
def Map.Del (m : Map) (key : String) : Map := ⟨m.data.erase key⟩

/-- The method `GetMap`: a copy of the nested mapping, or a new map. -/
def Map.GetMap (m : Map) (key : String) : Except String Map :=
  match m.data.find key with
  | none => .ok New
  | some (.mapping mapValue) => Copy mapValue
  | some _ => .ok New

/-- The method `GetGoMap`: a fresh mapping filled entry by entry. -/
def Map.GetGoMap (m : Map) : GoMap :=
  match m.data with
  | none => some []
  | some es => some (es.foldl (fun result kv => result.assign kv.1 kv.2) [])

/-- The method `UnmarshalJSON`, on the value that the bytes denote (`none` for bytes
that are not a JSON text): the new state and the returned error.  `json.Unmarshal`
into the existing mapping sets it to nil for `null`, and for an object allocates it
when it is nil and otherwise reuses it, then stores the members one by one. -/
def Map.UnmarshalJSON (m : Map) (data : Option JSON) : Map × Option JSONError :=
  match data with
  | none => (m, some .SyntaxError)
  | some .null => (⟨none⟩, none)
  | some (.obj members) => (⟨some (decodeMembers members (m.data.getD []))⟩, none)
  | some _ => (m, some .UnmarshalTypeError)

/-- The method `GetFloat64`. -/
def Map.GetFloat64 (L : Lib) (m : Map) (key : String) : Float64 :=
  match m.Get key with
  | .nil => Float64.zero
  | .float64 v => v
  | .int v => Float64.ofInt v
  | .int64 v => Float64.ofInt v
  | .string v =>
    match L.ParseFloat v with
    | none => Float64.zero
    | some i => i
  | _ => Float64.zero

/-- The method `GetInt64`. -/
def Map.GetInt64 (P : Platform) (m : Map) (key : String) : Int :=
  match m.Get key with
  | .nil => 0
  | .int v => v
  | .int64 v => v
  | .float64 v => v.toInt64 P
  | .string v =>
    match ParseInt v with
    | .ok i => i
    | .error _ =>
      match ParseBool v with
      | some true => 1
      | _ => 0
  | .bool v => if v then 1 else 0
  | _ => 0

/-- The method `GetInt`: the result is a platform `int`. -/
def Map.GetInt (P : Platform) (m : Map) (key : String) : Int :=
  match m.Get key with
  | .nil => 0
  | .int v => v
  | .int64 v => wrapBits P.intBits v
  | .float64 v => v.toInt P
  | .string v =>
    match ParseInt v with
    | .ok i => wrapBits P.intBits i
    | .error _ =>
      match ParseBool v with
      | some true => 1
      | _ => 0
  | .bool v => if v then 1 else 0
  | _ => 0

/-- The method `GetString`: the int64 case calls `strconv.FormatInt(v, 64)`. -/
def Map.GetString (L : Lib) (m : Map) (key : String) : Except String String :=
  match m.Get key with
  | .nil => .ok ""
  | .string v => .ok v
  | .int64 v => FormatInt v 64
  | .float64 v => .ok (L.FormatFloat v)
  | .int v => Itoa v
  | .time v => .ok (L.TimeFormat v)
  | .duration v => .ok (L.DurationString v)
  | .error v => .ok v
  | _ => .ok ""

/-- The method `GetTime`. -/
def Map.GetTime (P : Platform) (L : Lib) (m : Map) (key : String) : Time :=
  match m.Get key with
  | .nil => timeUnix 0 0
  | .time v => v
  | .string v =>
    match timeParse L.LocalOffset v with
    | none => timeUnix 0 0
    | some t => t
  | .int64 v => timeUnix v 0
  | .float64 v => timeUnix (v.toInt64 P) 0
  | .int v => timeUnix v 0
  | _ => timeUnix 0 0

/-- The method `GetJSTime`: `t.Unix() * 1000` in int64 arithmetic. -/
def Map.GetJSTime (P : Platform) (L : Lib) (m : Map) (key : String) : Int :=
  wrap64 ((m.GetTime P L key).Unix * 1000)

/-- The method `SetJSTime`: `value/1000` is Go integer division, which truncates towards zero. -/
def Map.SetJSTime (m : Map) (key : String) (value : Int) : Except String Map :=
  m.Set key (.time (timeUnix (Int.tdiv value 1000) 0))

/-- The method `GetBool`. -/
def Map.GetBool (m : Map) (key : String) : Bool :=
  match m.Get key with
  | .nil => false
  | .bool v => v
  | .int v => if v = 0 then false else true
  | .int64 v => if v = 0 then false else true
  | .float64 v => if v.isZero then false else true
  | .string v =>
    match ParseBool v with
    | none => false
    | some b => b
  | _ => false

/-- The method `Length`: `len(m.data)`. -/
def Map.Length (m : Map) : Nat := m.data.len

/-! ## Reference notions used to state the properties -/

/-- Truncation of a rational number towards zero. -/
def truncTowardZero (q : ℚ) : Int := if 0 ≤ q then ⌊q⌋ else ⌈q⌉

/-- The member that a JSON object has under the name `k`; of several members with
one name the last one counts. -/
def objMember : List (String × JSON) → String → Option JSON
  | [], _ => none
  | (k0, j0) :: rest, k =>
    match objMember rest k with
    | some j => some j
    | none => if k0 = k then some j0 else none

/-- The keys of a Go map. -/
def GoMap.keys (d : GoMap) : List String :=
  match d with
  | none => []
  | some es => es.map Prod.fst

/-! ## maps.go with Go maps as references

A `map[string]interface{}` is a reference: two variables may name one map, and an
assignment through one is seen through the other.  Here the allocated maps are the
cells of a heap, a map value is the address of its cell, and every operation that
writes takes the heap and returns the new one. -/

namespace heap

/-- A value held in a map: a `map[string]interface{}` is the address of its cell
(`none` is the nil map), a value of any other type is carried as it is. -/
inductive HValue where
  | plain (v : Value)
  | mapRef (a : Option Nat)

/-- The entries of one allocated map. -/
abbrev Cell := List (String × HValue)

/-- The comma-ok read `v, ok := d[key]` on the entries. -/
def Cell.find : Cell → String → Option HValue
  | [], _ => none
  | (k0, v0) :: rest, key => if k0 = key then some v0 else Cell.find rest key

/-- The assignment `d[key] = value` on the entries. -/
def Cell.assign : Cell → String → HValue → Cell
  | [], key, value => [(key, value)]
  | (k0, v0) :: rest, key, value =>
    if k0 = key then (key, value) :: rest else (k0, v0) :: Cell.assign rest key value

/-- The builtin `delete(d, key)` on the entries. -/
def Cell.erase : Cell → String → Cell
  | [], _ => []
  | (k0, v0) :: rest, key =>
    if k0 = key then Cell.erase rest key else (k0, v0) :: Cell.erase rest key

/-- The heap: the cells of the allocated maps; the address of a map is its index. -/
structure Heap where
  cells : List Cell

/-- The entries of the map at address `a`. -/
def Heap.cell (h : Heap) (a : Nat) : Cell := h.cells.getD a []

/-- The heap with the entries of the map at address `a` replaced. -/
def Heap.write (h : Heap) (a : Nat) (c : Cell) : Heap := ⟨h.cells.set a c⟩

/-- The builtin `make(map[string]interface{})`: a new empty map at a new address. -/
def Heap.make (h : Heap) : Nat × Heap := (h.cells.length, ⟨h.cells ++ [[]]⟩)

/-- The comma-ok read `v, ok := d[key]` through a reference; a nil map reads as empty. -/
def mapFind (h : Heap) (d : Option Nat) (key : String) : Option HValue :=
  match d with
  | none => none
  | some a => (h.cell a).find key

/-- The assignment `d[key] = value` through a reference; it panics on a nil map. -/
def mapAssign (h : Heap) (d : Option Nat) (key : String) (value : HValue) : Except String Heap :=
  match d with
  | none => .error "assignment to entry in nil map"
  | some a => .ok (h.write a ((h.cell a).assign key value))

/-- The builtin `delete(d, key)` through a reference; a no-op on a nil map. -/
def mapDelete (h : Heap) (d : Option Nat) (key : String) : Heap :=
  match d with
  | none => h
  | some a => h.write a ((h.cell a).erase key)

/-- The type `Map`: the field `data` is a reference to a map. -/
structure Map where
  data : Option Nat

/-- The function `New`. -/
def New (h : Heap) : Map × Heap := (⟨some h.make.1⟩, h.make.2)

/-- The method `Set`. -/
def Map.Set (m : Map) (h : Heap) (key : String) (value : HValue) : Except String Heap :=
  mapAssign h m.data key value

/-- The loop of `AddMap` over the entries of the argument. -/
def Map.addEntries (m : Map) : Heap → Cell → Except String Heap
  | h, [] => .ok h
  | h, (k, v) :: rest =>
    match m.Set h k v with
    | .error e => .error e
    | .ok h1 => m.addEntries h1 rest

/-- The method `AddMap`. -/
def Map.AddMap (m : Map) (h : Heap) (data : Option Nat) : Except String Heap :=
  match data with
  | none => .ok h
  | some a => m.addEntries h (h.cell a)

/-- The function `Copy`. -/
def Copy (h : Heap) (data : Option Nat) : Except String (Map × Heap) :=
  match (New h).1.AddMap (New h).2 data with
  | .error e => .error e
  | .ok h1 => .ok ((New h).1, h1)

/-- The method `Get`. -/
def Map.Get (m : Map) (h : Heap) (key : String) : HValue :=
  match mapFind h m.data key with
  | none => .plain .nil
  | some value => value

/-- The method `Del`. -/
def Map.Del (m : Map) (h : Heap) (key : String) : Heap := mapDelete h m.data key

/-- The method `GetMap`. -/
def Map.GetMap (m : Map) (h : Heap) (key : String) : Except String (Map × Heap) :=
  match mapFind h m.data key with
  | none => .ok (New h)
  | some (.mapRef mapValue) => Copy h mapValue
  | some _ => .ok (New h)

/-- The loop of `GetGoMap`: `result[k] = v` for each entry. -/
def fillFrom (result : Nat) : Heap → Cell → Heap
  | h, [] => h
  | h, (k, v) :: rest => fillFrom result (h.write result ((h.cell result).assign k v)) rest

/-- The method `GetGoMap`: the reference to the new map, and the heap. -/
def Map.GetGoMap (m : Map) (h : Heap) : Option Nat × Heap :=
  match m.data with
  | none => (some h.make.1, h.make.2)
  | some a => (some h.make.1, fillFrom h.make.1 h.make.2 (h.make.2.cell a))

/-- The method `Length`. -/
def Map.Length (m : Map) (h : Heap) : Nat :=
  match m.data with
  | none => 0
  | some a => (h.cell a).length

/-- One mutating call on a map. -/
inductive Call where
  | Set (key : String) (value : HValue)
  | Del (key : String)
  | AddMap (data : Option Nat)

/-- A sequence of mutating calls on one map, in order. -/
def Map.run (m : Map) : Heap → List Call → Except String Heap
  | h, [] => .ok h
  | h, .Set key value :: rest =>
    match m.Set h key value with
    | .error e => .error e
    | .ok h1 => m.run h1 rest
  | h, .Del key :: rest => m.run (m.Del h key) rest
  | h, .AddMap data :: rest =>
    match m.AddMap h data with
    | .error e => .error e
    | .ok h1 => m.run h1 rest

end heap

/-! ## package encoding/json: encoding -/

/-- The table `hex` of the encoder. -/
def hexDigit (n : Nat) : Char := "0123456789abcdef".toList.getD n '0'

/-- What the encoder (`appendString`, escaping HTML as `json.Marshal` does) writes for
one character of a string that is valid UTF-8: a backslash escape for the backslash,
the double quote and the control characters, a `u` escape for the other characters
below the space, for the ampersand and the angle brackets, and for U+2028 and U+2029,
and the character itself otherwise. -/
def quoteChar (c : Char) : List Char :=
  let n := c.toNat
  if n = 92 ∨ n = 34 then [Char.ofNat 92, c]
  else if n = 8 then [Char.ofNat 92, 'b']
  else if n = 12 then [Char.ofNat 92, 'f']
  else if n = 10 then [Char.ofNat 92, 'n']
  else if n = 13 then [Char.ofNat 92, 'r']
  else if n = 9 then [Char.ofNat 92, 't']
  else if n < 32 ∨ n = 60 ∨ n = 62 ∨ n = 38 then
    [Char.ofNat 92, 'u', '0', '0', hexDigit (n / 16), hexDigit (n % 16)]
  else if n = 8232 ∨ n = 8233 then
    [Char.ofNat 92, 'u', '2', '0', '2', hexDigit (n % 16)]
  else [c]

/-- The text that the encoder writes between the quotes for a string. -/
def quoteString (s : String) : List Char := s.toList.flatMap quoteChar

/-- The value of a hexadecimal digit. -/
def hexVal (c : Char) : Option Nat :=
  let n := c.toNat
  if 48 ≤ n ∧ n ≤ 57 then some (n - 48)
  else if 97 ≤ n ∧ n ≤ 102 then some (n - 97 + 10)
  else if 65 ≤ n ∧ n ≤ 70 then some (n - 65 + 10)
  else none

/-- The function `getu4`: the number of a `u` escape at the head of the text. -/
def getu4 : List Char → Option Nat
  | c0 :: c1 :: a :: b :: c :: d :: _ =>
    if c0.toNat = 92 ∧ c1 = 'u' then
      match hexVal a, hexVal b, hexVal c, hexVal d with
      | some a, some b, some c, some d => some (((a * 16 + b) * 16 + c) * 16 + d)
      | _, _, _, _ => none
    else none
  | _ => none

/-- The function `utf16.DecodeRune` on a surrogate and what follows it. -/
def decodeSurrogates (r1 : Nat) (r2 : Option Nat) : Option Nat :=
  match r2 with
  | some r2 =>
    if 55296 ≤ r1 ∧ r1 < 56320 ∧ 56320 ≤ r2 ∧ r2 < 57344 then
      some ((r1 - 55296) * 1024 + (r2 - 56320) + 65536)
    else none
  | none => none

/-- The decoder on the text between the quotes of a string (the scanner and
`unquote`): the characters read so far are in `acc`, last first; `fuel` bounds the
loop.  A control character, a double quote, and a backslash not followed by one of the
escapes are errors; a surrogate escape without its pair reads as U+FFFD. -/
def unquoteLoop : Nat → List Char → List Char → Option (List Char)
  | 0, _, _ => none
  | _ + 1, [], acc => some acc.reverse
  | fuel + 1, c :: rest, acc =>
    if c.toNat = 92 then
      match rest with
      | [] => none
      | e :: rest1 =>
        if e.toNat = 34 ∨ e.toNat = 92 ∨ e = '/' then unquoteLoop fuel rest1 (e :: acc)
        else if e = 'b' then unquoteLoop fuel rest1 (Char.ofNat 8 :: acc)
        else if e = 'f' then unquoteLoop fuel rest1 (Char.ofNat 12 :: acc)
        else if e = 'n' then unquoteLoop fuel rest1 (Char.ofNat 10 :: acc)
        else if e = 'r' then unquoteLoop fuel rest1 (Char.ofNat 13 :: acc)
        else if e = 't' then unquoteLoop fuel rest1 (Char.ofNat 9 :: acc)
        else if e = 'u' then
          match getu4 (c :: rest) with
          | none => none
          | some rr =>
            if 55296 ≤ rr ∧ rr < 57344 then
              match decodeSurrogates rr (getu4 (rest.drop 5)) with
              | some dec => unquoteLoop fuel (rest.drop 11) (Char.ofNat dec :: acc)
              | none => unquoteLoop fuel (rest.drop 5) (Char.ofNat 65533 :: acc)
            else unquoteLoop fuel (rest.drop 5) (Char.ofNat rr :: acc)
        else none
    else if c.toNat = 34 ∨ c.toNat < 32 then none
    else unquoteLoop fuel rest (c :: acc)

/-- The string that the decoder reads from the text between the quotes. -/
def unquoteString (t : List Char) : Option String :=
  match unquoteLoop (t.length + 1) t [] with
  | some cs => some (String.mk cs)
  | none => none

/-- The string that the decoder reads from what the encoder writes for a string. -/
def readBack (s : String) : Option String := unquoteString (quoteString s)

/-- The order of Go strings, on their characters: the first difference decides, and
a proper prefix comes first. -/
def keyLess : List Char → List Char → Bool
  | _, [] => false
  | [], _ :: _ => true
  | a :: as, b :: bs =>
    if a.toNat < b.toNat then true
    else if a.toNat = b.toNat then keyLess as bs
    else false

/-- One step of the sort of the members of an object by name. -/
def insertMember (k : String) (j : JSON) : List (String × JSON) → List (String × JSON)
  | [] => [(k, j)]
  | (k0, j0) :: rest =>
    if keyLess k0.toList k.toList then (k0, j0) :: insertMember k j rest
    else (k, j) :: (k0, j0) :: rest

/-- The members of an object in the order `json.Marshal` writes a map: sorted by key. -/
def sortMembers : List (String × JSON) → List (String × JSON)
  | [] => []
  | (k, j) :: rest => insertMember k j (sortMembers rest)

mutual
/-- The JSON value that `json.Marshal` writes for a value.  A number is given by the
float64 that reading its text back gives: for an integer that is the float64 nearest
to it, and the text of a finite float64 reads back as the same float64.  A string,
and likewise a key, is given by the string that reading its text back gives
(`readBack`); a string of this model is valid UTF-8 (bytes that are not, which a Go
string may hold and a string here cannot, would be written as U+FFFD).  A
`time.Time` is written by its `MarshalJSON`, an error value
(of a type without exported fields, as `errors.New` gives) as the empty object.  The
result is `none` where `json.Marshal` returns an error (NaN, the infinities, a failing
`MarshalJSON`) and for the further types, whose encoding this model does not give. -/
def encodeValue (L : Lib) : Value → Option JSON
  | .nil => some .null
  | .bool b => some (.bool b)
  | .int n => some (.num (Float64.ofInt n))
  | .int64 n => some (.num (Float64.ofInt n))
  | .float64 f => if f.isNaNOrInf then none else some (.num f)
  | .string s =>
    match readBack s with
    | none => none
    | some s1 => some (.str s1)
  | .duration d => some (.num (Float64.ofInt d))
  | .mapping none => some .null
  | .mapping (some es) =>
    match encodeEntries L es with
    | none => none
    | some ms => some (.obj (sortMembers ms))
  | .slice xs =>
    match encodeElems L xs with
    | none => none
    | some js => some (.arr js)
  | .time t =>
    match L.TimeMarshalJSON t with
    | none => none
    | some s => some (.str s)
  | .error _ => some (.obj [])
  | .other _ => none
/-- The elements of a slice, in order. -/
def encodeElems (L : Lib) : List Value → Option (List JSON)
  | [] => some []
  | x :: xs =>
    match encodeValue L x, encodeElems L xs with
    | some j, some js => some (j :: js)
    | _, _ => none
/-- The entries of a map, each key and value encoded. -/
def encodeEntries (L : Lib) : List (String × Value) → Option (List (String × JSON))
  | [] => some []
  | (k, v) :: rest =>
    match readBack k, encodeValue L v, encodeEntries L rest with
    | some k1, some j, some ms => some ((k1, j) :: ms)
    | _, _, _ => none
end

/-- The method `MarshalJSON`: `json.Marshal(m.data)`. -/
def Map.MarshalJSON (L : Lib) (m : Map) : Option JSON := encodeValue L (.mapping m.data)

/-- Equality up to the JSON representation: the same nil, bool, float64 or string; an
integer against the float64 of the same numeric value; a nil mapping against nil (both
are the JSON null); a mapping against a mapping with the same keys and, key by key,
related values. -/
inductive JSONEquiv : Value → Value → Prop where
  | nil : JSONEquiv .nil .nil
  | bool (b : Bool) : JSONEquiv (.bool b) (.bool b)
  | int (n : Int) (f : Float64) : f.toRat = some (n : ℚ) → JSONEquiv (.int n) (.float64 f)
  | int64 (n : Int) (f : Float64) : f.toRat = some (n : ℚ) → JSONEquiv (.int64 n) (.float64 f)
  | float64 (f : Float64) : JSONEquiv (.float64 f) (.float64 f)
  | string (s : String) : JSONEquiv (.string s) (.string s)
  | nilMapping : JSONEquiv (.mapping none) .nil
  | mapping (es es1 : Entries) :
      (∀ k, (Entries.find es k).isSome = (Entries.find es1 k).isSome) →
      (∀ k v v1, Entries.find es k = some v → Entries.find es1 k = some v1 → JSONEquiv v v1) →
      JSONEquiv (.mapping (some es)) (.mapping (some es1))

/-- The values with a JSON representation that reads back as the same value: nil,
bool, the integers that a float64 holds exactly, finite float64, strings (valid UTF-8
in this model), and mappings, nil or with pairwise distinct keys, whose values are of
the same kind. -/
inductive Representable : Value → Prop where
  | nil : Representable .nil
  | bool (b : Bool) : Representable (.bool b)
  | int (n : Int) : (∃ f : Float64, f.toRat = some (n : ℚ)) → Representable (.int n)
  | int64 (n : Int) : (∃ f : Float64, f.toRat = some (n : ℚ)) → Representable (.int64 n)
  | float64 (f : Float64) : f.isNaNOrInf = false → Representable (.float64 f)
  | string (s : String) : Representable (.string s)
  | nilMapping : Representable (.mapping none)
  | mapping (es : Entries) :
      Entries.Valid es → (∀ k v, (k, v) ∈ es → Representable v) →
      Representable (.mapping (some es))

/-! ## RFC 3339 date-times -/

/-- The fields of an RFC 3339 date-time: the date, the time of day, the digits of the
fraction of a second (none when empty), and the offset (`none` for `Z`, else whether
it is west of UTC, its hours and its minutes). -/
structure DateTime where
  year : Nat
  month : Nat
  day : Nat
  hour : Nat
  min : Nat
  sec : Nat
  frac : List Nat
  zone : Option (Bool × Nat × Nat)

/-- The length of a month of the Gregorian calendar. -/
def monthLength (year month : Nat) : Nat :=
  if month = 2 then (if isLeap year then 29 else 28)
  else if month = 4 ∨ month = 6 ∨ month = 9 ∨ month = 11 then 30
  else 31

/-- The ranges of the fields (section 5.6 of RFC 3339, without the leap second). -/
def DateTime.Valid (d : DateTime) : Prop :=
  d.year ≤ 9999 ∧ 1 ≤ d.month ∧ d.month ≤ 12 ∧ 1 ≤ d.day ∧ d.day ≤ monthLength d.year d.month
  ∧ d.hour ≤ 23 ∧ d.min ≤ 59 ∧ d.sec ≤ 59 ∧ (∀ x, x ∈ d.frac → x ≤ 9)
  ∧ (∀ z, d.zone = some z → z.2.1 ≤ 23 ∧ z.2.2 ≤ 59)

/-- A number below 100 in two digits. -/
def twoDigits (n : Nat) : List Char := [digitChar (n / 10), digitChar (n % 10)]

/-- A number below 10000 in four digits. -/
def fourDigits (n : Nat) : List Char :=
  [digitChar (n / 1000), digitChar (n / 100 % 10), digitChar (n / 10 % 10), digitChar (n % 10)]

/-- The text of the offset: `Z`, or sign, hours, colon, minutes. -/
def zoneText (zone : Option (Bool × Nat × Nat)) : List Char :=
  match zone with
  | none => ['Z']
  | some (west, hh, mm) => (if west then '-' else '+') :: (twoDigits hh ++ ':' :: twoDigits mm)

/-- The text of the fraction: nothing, or a period and the digits. -/
def fracText (frac : List Nat) : List Char :=
  match frac with
  | [] => []
  | x :: xs => '.' :: (x :: xs).map digitChar

/-- The RFC 3339 text of a date-time: `yyyy-mm-ddThh:mm:ss[.fraction](Z|±hh:mm)`. -/
def DateTime.text (d : DateTime) : String :=
  String.mk (fourDigits d.year ++ '-' :: (twoDigits d.month ++ '-' :: (twoDigits d.day
    ++ 'T' :: (twoDigits d.hour ++ ':' :: (twoDigits d.min ++ ':' :: (twoDigits d.sec
    ++ (fracText d.frac ++ zoneText d.zone)))))))

/-- The offset in seconds east of UTC. -/
def zoneSeconds (zone : Option (Bool × Nat × Nat)) : Option Int :=
  match zone with
  | none => none
  | some (west, hh, mm) =>
    some (if west then -(((hh * 60 + mm) * 60 : Nat) : Int) else (((hh * 60 + mm) * 60 : Nat) : Int))

/-- The first `n` digits of a fraction as a number of `n` digits. -/
def nanosOf : Nat → List Nat → Nat
  | 0, _ => 0
  | _ + 1, [] => 0
  | n + 1, x :: xs => x * 10 ^ n + nanosOf n xs

/-- The timestamp an RFC 3339 date-time denotes (to the nanosecond). -/
def DateTime.time (localOffset : Int → Int) (d : DateTime) : Time :=
  timeOfFields localOffset d.year d.month d.day d.hour d.min d.sec (nanosOf 9 d.frac)
    (zoneSeconds d.zone)

/-- Days from January 1 of the year 0 to January 1 of the year, counted year by year. -/
def daysToYear : Nat → Nat
  | 0 => 0
  | y + 1 => daysToYear y + (if isLeap y then 366 else 365)

/-- Days in the first `n` months of the year, counted month by month. -/
def daysToMonth (year : Nat) : Nat → Nat
  | 0 => 0
  | n + 1 => daysToMonth year n + monthLength year (n + 1)

/-- The instant an RFC 3339 date-time denotes, in seconds since 1970-01-01T00:00:00Z:
the days elapsed since that date, counted in the calendar, the time of day, and the
offset taken off. -/
def DateTime.unixSeconds (d : DateTime) : Int :=
  (((daysToYear d.year + daysToMonth d.year (d.month - 1) + (d.day - 1) : Nat) : Int)
      - (daysToYear 1970 : Nat)) * 86400
    + ((d.hour * 3600 + d.min * 60 + d.sec : Nat) : Int)
    - (zoneSeconds d.zone).getD 0

end maps

namespace maps

/-! ## Lemmas on machine integers and time -/

theorem unixToInternal_eq : unixToInternal = 62135596800 := by decide

theorem wrap64_of_isInt64 {x : Int} (h : isInt64 x) : wrap64 x = x := by
  unfold isInt64 at h
  unfold wrap64 wrapBits
  norm_num at h ⊢
  omega

/-- The seconds given to `time.Unix` come back from `Unix()`, although the internal
count of seconds may wrap. -/
theorem Unix_timeUnix (sec : Int) (h : isInt64 sec) : (timeUnix sec 0).Unix = sec := by
  unfold isInt64 at h
  simp only [timeUnix, Time.Unix, internalToUnix, unixToInternal_eq, wrap64, wrapBits]
  norm_num at h ⊢
  omega

theorem tdiv_1000_isInt64 (ms : Int) (h : isInt64 ms) : isInt64 (Int.tdiv ms 1000) := by
  unfold isInt64 at h ⊢
  norm_num at h ⊢
  rcases Int.le_total 0 ms with h0 | h0
  · rw [Int.tdiv_eq_ediv h0 (by norm_num)]
    omega
  · obtain ⟨n, rfl⟩ : ∃ n : Int, ms = -n := ⟨-ms, by omega⟩
    rw [Int.neg_tdiv, Int.tdiv_eq_ediv (by omega) (by norm_num)]
    omega

/-! ## Lemmas on float64 truncation -/

theorem Float64.truncMag_eq_floor (f : Float64) (he : f.expo ≠ 0) :
    (f.truncMag : Int) = ⌊((2 ^ 52 + f.frac : Nat) : ℚ) * 2 ^ ((f.expo : Int) - 1075)⌋ := by
  unfold Float64.truncMag
  rw [if_neg he]
  by_cases h : 1075 ≤ f.expo
  · rw [if_pos h]
    have : ((f.expo : Int) - 1075) = ((f.expo - 1075 : Nat) : Int) := by omega
    rw [this, zpow_natCast]
    have h2 : (((2 ^ 52 + f.frac : Nat) : ℚ) * 2 ^ (f.expo - 1075)) = (((2 ^ 52 + f.frac) * 2 ^ (f.expo - 1075) : Nat) : ℚ) := by
      push_cast; ring
    rw [h2, Int.floor_natCast]
  · rw [if_neg h]
    have : ((f.expo : Int) - 1075) = -((1075 - f.expo : Nat) : Int) := by omega
    rw [this, zpow_neg, zpow_natCast]
    have h2 : (((2 ^ 52 + f.frac : Nat) : ℚ) * ((2 : ℚ) ^ (1075 - f.expo))⁻¹)
        = (((2 ^ 52 + f.frac : Nat) : ℚ) / ((2 ^ (1075 - f.expo) : Nat) : ℚ)) := by
      push_cast; ring
    rw [h2, Rat.floor_natCast_div_natCast]
    norm_cast

theorem truncTowardZero_of_nonneg (q : ℚ) (h : 0 ≤ q) : truncTowardZero q = ⌊q⌋ := by
  simp [truncTowardZero, h]

theorem truncTowardZero_neg_of_nonneg (q : ℚ) (h : 0 ≤ q) : truncTowardZero (-q) = -⌊q⌋ := by
  unfold truncTowardZero
  by_cases h0 : 0 ≤ -q
  · have hq : q = 0 := le_antisymm (by linarith) h
    simp [hq]
  · rw [if_neg h0, Int.ceil_neg]

theorem Float64.subnormal_floor (f : Float64) : ⌊(f.frac : ℚ) / 2 ^ 1074⌋ = 0 := by
  rw [Int.floor_eq_zero_iff]
  have hlt : f.frac < 2 ^ 52 := Nat.mod_lt _ (by norm_num)
  have hlt2 : (f.frac : ℚ) < 2 ^ 52 := by exact_mod_cast hlt
  constructor
  · positivity
  · rw [div_lt_one (by positivity)]
    calc (f.frac : ℚ) < 2 ^ 52 := hlt2
      _ ≤ 2 ^ 1074 := by norm_num

/-- The integer that the bit-level `trunc` computes is the rational value of the
float64 truncated towards zero. -/
theorem Float64.trunc_eq_truncTowardZero (f : Float64) (q : ℚ) (h : f.toRat = some q) :
    f.trunc = some (truncTowardZero q) := by
  unfold Float64.toRat at h
  unfold Float64.trunc
  by_cases hn : f.isNaNOrInf = true
  · simp [hn] at h
  · simp only [hn, Bool.false_eq_true, if_false, Option.some.injEq] at h ⊢
    by_cases he : f.expo = 0
    · have hm : f.truncMag = 0 := by simp [Float64.truncMag, he]
      have hnn : (0 : ℚ) ≤ (f.frac : ℚ) / 2 ^ 1074 := by positivity
      simp only [he, if_true] at h
      by_cases hs : f.neg = true
      · simp only [hs, if_true] at h ⊢
        rw [← h, truncTowardZero_neg_of_nonneg _ hnn, Float64.subnormal_floor, hm]
        simp
      · simp only [hs, Bool.false_eq_true, if_false] at h ⊢
        rw [← h, truncTowardZero_of_nonneg _ hnn, Float64.subnormal_floor, hm]
        simp
    · have hnn : (0 : ℚ) ≤ ((2 ^ 52 + f.frac : Nat) : ℚ) * 2 ^ ((f.expo : Int) - 1075) := by
        positivity
      simp only [he, if_false] at h
      by_cases hs : f.neg = true
      · simp only [hs, if_true] at h ⊢
        rw [← h, truncTowardZero_neg_of_nonneg _ hnn, Float64.truncMag_eq_floor f he]
      · simp only [hs, Bool.false_eq_true, if_false] at h ⊢
        rw [← h, truncTowardZero_of_nonneg _ hnn, Float64.truncMag_eq_floor f he]

/-- The bit patterns used for the decimal literals 1.2345 and -1.9 are the float64
values nearest to them: the exact value is within half a unit in the last place. -/
theorem Float64.literal_values :
    (∃ q : ℚ, (Float64.mk 0x3FF3C083126E978D).toRat = some q ∧ |q - 12345 / 10000| ≤ 1 / 2 ^ 53)
    ∧ (∃ q : ℚ, (Float64.mk 0xBFFE666666666666).toRat = some q ∧ |q - (-19 / 10)| ≤ 1 / 2 ^ 53) := by
  constructor
  · refine ⟨5559693739988877 / 2 ^ 52, ?_, ?_⟩
    · have hn : (Float64.mk 0x3FF3C083126E978D).isNaNOrInf = false := by decide
      have he : (Float64.mk 0x3FF3C083126E978D).expo = 1023 := by decide
      have hf : (Float64.mk 0x3FF3C083126E978D).frac = 1056094112618381 := by decide
      have hs : (Float64.mk 0x3FF3C083126E978D).neg = false := by decide
      simp only [Float64.toRat, hn, he, hf, hs]
      norm_num
    · rw [abs_le]; constructor <;> norm_num
  · refine ⟨-(8556839292003942 / 2 ^ 52), ?_, ?_⟩
    · have hn : (Float64.mk 0xBFFE666666666666).isNaNOrInf = false := by decide
      have he : (Float64.mk 0xBFFE666666666666).expo = 1023 := by decide
      have hf : (Float64.mk 0xBFFE666666666666).frac = 4053239664633446 := by decide
      have hs : (Float64.mk 0xBFFE666666666666).neg = true := by decide
      simp only [Float64.toRat, hn, he, hf, hs]
      norm_num
    · rw [abs_le]; constructor <;> norm_num

/-! ## Lemmas on Go maps -/

theorem Entries.find_assign_self (d : Entries) (k : String) (v : Value) :
    (d.assign k v).find k = some v := by
  induction d with
  | nil => simp [Entries.assign, Entries.find]
  | cons e rest ih =>
    obtain ⟨k0, v0⟩ := e
    by_cases h : k0 = k
    · simp [Entries.assign, Entries.find, h]
    · simp [Entries.assign, Entries.find, h, ih]

theorem Entries.find_assign_other (d : Entries) (k k1 : String) (v : Value) (hne : k1 ≠ k) :
    (d.assign k v).find k1 = d.find k1 := by
  induction d with
  | nil => simp [Entries.assign, Entries.find, Ne.symm hne]
  | cons e rest ih =>
    obtain ⟨k0, v0⟩ := e
    by_cases h : k0 = k
    · subst h
      simp [Entries.assign, Entries.find, Ne.symm hne]
    · by_cases h1 : k0 = k1
      · subst h1
        simp [Entries.assign, Entries.find, h]
      · simp [Entries.assign, Entries.find, h, h1, ih]

theorem Entries.length_assign_absent (d : Entries) (k : String) (v : Value)
    (h : d.find k = none) : (d.assign k v).length = d.length + 1 := by
  induction d with
  | nil => simp [Entries.assign]
  | cons e rest ih =>
    obtain ⟨k0, v0⟩ := e
    by_cases h0 : k0 = k
    · simp [Entries.find, h0] at h
    · simp only [Entries.find, h0, if_false] at h
      simp [Entries.assign, h0, ih h]

theorem Entries.length_assign_present (d : Entries) (k : String) (v : Value)
    (h : d.find k ≠ none) : (d.assign k v).length = d.length := by
  induction d with
  | nil => simp [Entries.find] at h
  | cons e rest ih =>
    obtain ⟨k0, v0⟩ := e
    by_cases h0 : k0 = k
    · simp [Entries.assign, h0]
    · simp only [Entries.find, h0, if_false] at h
      simp [Entries.assign, h0, ih h]

theorem Entries.assign_absent (d : Entries) (k : String) (v : Value)
    (h : d.find k = none) : d.assign k v = d ++ [(k, v)] := by
  induction d with
  | nil => simp [Entries.assign]
  | cons e rest ih =>
    obtain ⟨k0, v0⟩ := e
    by_cases h0 : k0 = k
    · simp [Entries.find, h0] at h
    · simp only [Entries.find, h0, if_false] at h
      simp [Entries.assign, h0, ih h]

theorem Entries.find_eq_none_iff (d : Entries) (k : String) :
    d.find k = none ↔ k ∉ d.map Prod.fst := by
  induction d with
  | nil => simp [Entries.find]
  | cons e rest ih =>
    obtain ⟨k0, v0⟩ := e
    by_cases h0 : k0 = k
    · simp [Entries.find, h0]
    · simp [Entries.find, h0, ih, Ne.symm h0]

theorem Entries.keys_assign (d : Entries) (k : String) (v : Value) (k1 : String) :
    k1 ∈ (d.assign k v).map Prod.fst ↔ k1 = k ∨ k1 ∈ d.map Prod.fst := by
  induction d with
  | nil => simp [Entries.assign]
  | cons e rest ih =>
    obtain ⟨k0, v0⟩ := e
    by_cases h0 : k0 = k
    · subst h0
      simp [Entries.assign]
    · simp only [Entries.assign, h0, if_false, List.map_cons, List.mem_cons, ih]
      tauto

theorem Entries.valid_assign (d : Entries) (k : String) (v : Value) (h : d.Valid) :
    (d.assign k v).Valid := by
  unfold Entries.Valid at h ⊢
  induction d with
  | nil => simp [Entries.assign]
  | cons e rest ih =>
    obtain ⟨k0, v0⟩ := e
    simp only [List.map_cons, List.nodup_cons] at h
    by_cases h0 : k0 = k
    · subst h0
      simpa [Entries.assign] using h
    · simp only [Entries.assign, h0, if_false, List.map_cons, List.nodup_cons]
      refine ⟨?_, ih h.2⟩
      intro hmem
      rcases (Entries.keys_assign rest k v k0).1 hmem with h1 | h1
      · exact h0 h1
      · exact h.1 h1

/-! ## Lemmas on the map operations -/

theorem Map.Set_allocated (m : Map) (d : Entries) (k : String) (v : Value)
    (h : m.data = some d) : m.Set k v = .ok ⟨some (d.assign k v)⟩ := by
  simp [Map.Set, GoMap.assign, h]

theorem Map.Get_allocated (d : Entries) (k : String) :
    (Map.mk (some d)).Get k = (match d.find k with | none => Value.nil | some v => v) := by
  simp [Map.Get, GoMap.find]

/-! ## GetString -/

theorem digitChar_eq_natDigitChar (d : Nat) (h : d < 10) : digitChar d = Nat.digitChar d := by
  interval_cases d <;> rfl

theorem formatLoop_eq_toDigitsCore (fuel u : Nat) (acc : List Char) :
    formatLoop 10 fuel u acc = Nat.toDigitsCore 10 fuel u acc := by
  induction fuel generalizing u acc with
  | zero => rfl
  | succ fuel ih =>
    unfold formatLoop Nat.toDigitsCore
    by_cases h : u < 10
    · have h1 : u / 10 = 0 := by omega
      have h2 : u % 10 = u := by omega
      simp [h, h1, h2, digitChar_eq_natDigitChar u h]
    · have h1 : u / 10 ≠ 0 := by omega
      have h2 : u % 10 < 10 := by omega
      simp [h, h1, ih, digitChar_eq_natDigitChar _ h2]

/-- In base 10 the model of `strconv.FormatInt` writes the usual decimal text. -/
theorem Itoa_eq_toString (n : Int) : Itoa n = Except.ok (toString n) := by
  unfold Itoa FormatInt
  simp only [show ¬ ((10 : Nat) < 2 ∨ 10 > 36) by decide, if_false]
  congr 1
  cases n with
  | ofNat m =>
    have : ¬ (Int.ofNat m < 0) := by simp
    simp only [this, if_false, Int.natAbs_ofNat, formatLoop_eq_toDigitsCore]
    rfl
  | negSucc m =>
    have : (Int.negSucc m < 0) := Int.negSucc_lt_zero m
    simp only [this, if_true, Int.natAbs_negSucc, formatLoop_eq_toDigitsCore]
    rfl

/-- A stored int reads back from `GetString` as its decimal text. -/
theorem GetString_int (L : Lib) (m : Map) (k : String) (n : Int)
    (h : m.Get k = Value.int n) : m.GetString L k = Except.ok (toString n) := by
  simp [Map.GetString, h, Itoa_eq_toString]


/-- C1: an int64 12345 stored under a key does not read back as the text "12345":
`GetString` calls `strconv.FormatInt(v, 64)`, whose base 64 is outside 2..36, and
panics; the same number stored as an int reads back as "12345". -/
theorem GetString_int64_12345_panics :
    ∀ L : Lib,
      (Map.mk (some [("n", Value.int64 12345)])).GetString L "n"
          = Except.error "strconv: illegal AppendInt/FormatInt base"
      ∧ (Map.mk (some [("n", Value.int 12345)])).GetString L "n" = Except.ok "12345" :=
  fun _ => ⟨rfl, rfl⟩

/-- C2: `GetString` is not total: for every map and key under which an int64 is
stored, whatever its value, the call panics instead of returning a string. -/
theorem GetString_panics_on_int64 (L : Lib) (m : Map) (k : String) (n : Int)
    (h : m.Get k = Value.int64 n) :
    m.GetString L k = Except.error "strconv: illegal AppendInt/FormatInt base" := by
  simp [Map.GetString, h, FormatInt]

theorem GetString_panics_on_int64_witness :
    (Map.mk (some [("id", Value.int64 (-7))])).Get "id" = Value.int64 (-7)
    ∧ ∀ L : Lib, (Map.mk (some [("id", Value.int64 (-7))])).GetString L "id"
        = Except.error "strconv: illegal AppendInt/FormatInt base" :=
  ⟨rfl, fun L => GetString_panics_on_int64 L _ "id" (-7) rfl⟩

/-! ## SetJSTime -/

/-- C3, as stated, fails at ms = -1: floor(-1/1000) is -1, and on no platform and
with no library behaviour is the `Unix()` of `GetTime` after `SetJSTime("t", -1)`
equal to it (it is 0). -/
theorem SetJSTime_neg_one_not_floor :
    ¬ ∃ (P : Platform) (L : Lib),
        (New.SetJSTime "t" (-1)).map (fun m1 => (m1.GetTime P L "t").Unix)
          = Except.ok (Int.fdiv (-1) 1000) := by
  rintro ⟨P, L, h⟩
  have h0 : (New.SetJSTime "t" (-1)).map (fun m1 => (m1.GetTime P L "t").Unix)
      = Except.ok 0 := rfl
  rw [h0] at h
  have h1 : (0 : Int) = Int.fdiv (-1) 1000 := by injection h
  exact absurd h1 (by decide)

/-- C3, amended: on a map whose mapping is allocated, for every key and every int64
ms, `SetJSTime(k, ms)` succeeds and `GetTime(k).Unix()` is then ms/1000 rounded
towards zero (Go integer division); it is floor(ms/1000) whenever ms is not
negative or is a multiple of 1000. -/
theorem SetJSTime_GetTime_Unix (m : Map) (d : Entries) (k : String) (ms : Int)
    (hd : m.data = some d) (hms : isInt64 ms) :
    ∃ m1, m.SetJSTime k ms = Except.ok m1
      ∧ ∀ (P : Platform) (L : Lib),
          (m1.GetTime P L k).Unix = Int.tdiv ms 1000
          ∧ (0 ≤ ms ∨ 1000 ∣ ms → (m1.GetTime P L k).Unix = Int.fdiv ms 1000) := by
  have hq : isInt64 (Int.tdiv ms 1000) := tdiv_1000_isInt64 ms hms
  have hget : ∀ (P : Platform) (L : Lib),
      (Map.mk (some (d.assign k (Value.time (timeUnix (Int.tdiv ms 1000) 0))))).GetTime P L k
        = timeUnix (Int.tdiv ms 1000) 0 := by
    intro P L
    simp [Map.GetTime, Map.Get, GoMap.find, Entries.find_assign_self]
  refine ⟨_, Map.Set_allocated m d k _ hd, fun P L => ⟨?_, ?_⟩⟩
  · rw [hget]; exact Unix_timeUnix _ hq
  · intro h
    rw [hget, Unix_timeUnix _ hq]
    rcases h with h | h
    · rw [Int.fdiv_eq_ediv ms (by norm_num), Int.tdiv_eq_ediv h (by norm_num)]
    · rw [Int.fdiv_eq_ediv_of_dvd h, Int.tdiv_eq_ediv_of_dvd h]

theorem SetJSTime_GetTime_Unix_witness :
    ∃ m1, New.SetJSTime "t" (-3000) = Except.ok m1
      ∧ ∀ (P : Platform) (L : Lib),
          (m1.GetTime P L "t").Unix = Int.tdiv (-3000) 1000
          ∧ (0 ≤ (-3000 : Int) ∨ (1000 : Int) ∣ -3000 →
              (m1.GetTime P L "t").Unix = Int.fdiv (-3000) 1000) :=
  SetJSTime_GetTime_Unix New [] "t" (-3000) rfl (by decide)

/-! ## UnmarshalJSON -/

theorem decodeMembers_find (members : List (String × JSON)) (acc : Entries) (k : String) :
    (decodeMembers members acc).find k
      = (match objMember members k with
         | some j => some (decodeValue j)
         | none => acc.find k) := by
  induction members generalizing acc with
  | nil => simp [decodeMembers, objMember]
  | cons e rest ih =>
    obtain ⟨k0, j0⟩ := e
    rw [decodeMembers, ih, objMember]
    cases hr : objMember rest k with
    | some j => simp
    | none =>
      by_cases h0 : k0 = k
      · subst h0
        simp [Entries.find_assign_self]
      · simp [h0, Entries.find_assign_other _ _ _ _ (Ne.symm h0)]

theorem decodeMembers_valid (members : List (String × JSON)) (acc : Entries)
    (h : acc.Valid) : (decodeMembers members acc).Valid := by
  induction members generalizing acc with
  | nil => simpa [decodeMembers] using h
  | cons e rest ih =>
    obtain ⟨k0, j0⟩ := e
    rw [decodeMembers]
    exact ih _ (Entries.valid_assign acc k0 _ h)

theorem decodeMembers_keys (members : List (String × JSON)) (acc : Entries) (k : String) :
    k ∈ (decodeMembers members acc).map Prod.fst
      ↔ k ∈ acc.map Prod.fst ∨ k ∈ members.map Prod.fst := by
  induction members generalizing acc with
  | nil => simp [decodeMembers]
  | cons e rest ih =>
    obtain ⟨k0, j0⟩ := e
    rw [decodeMembers, ih, Entries.keys_assign]
    simp only [List.map_cons, List.mem_cons]
    tauto

theorem decodeMembers_length (members : List (String × JSON)) (acc : Entries)
    (h : acc.Valid) :
    (decodeMembers members acc).length
      = (acc.map Prod.fst ++ members.map Prod.fst).dedup.length := by
  have hv := decodeMembers_valid members acc h
  unfold Entries.Valid at hv
  rw [← List.card_toFinset, ← List.length_map (decodeMembers members acc) Prod.fst,
    ← List.toFinset_card_of_nodup hv]
  congr 1
  ext k
  simp only [List.mem_toFinset, List.mem_append]
  exact decodeMembers_keys members acc k

/-- C4, as stated, fails: a map holding the key "old" and decoding the object with
the one member "new" still holds "old" afterwards, and its length is 2, not 1. -/
theorem UnmarshalJSON_keeps_old_key :
    ((Map.mk (some [("old", Value.int 1)])).UnmarshalJSON
        (some (JSON.obj [("new", JSON.bool true)]))).2 = none
    ∧ ((Map.mk (some [("old", Value.int 1)])).UnmarshalJSON
        (some (JSON.obj [("new", JSON.bool true)]))).1.Get "old" = Value.int 1
    ∧ ((Map.mk (some [("old", Value.int 1)])).UnmarshalJSON
        (some (JSON.obj [("new", JSON.bool true)]))).1.Length = 2 :=
  ⟨rfl, rfl, rfl⟩

/-- C4, amended: `UnmarshalJSON` of a JSON object succeeds and merges the object into
the map: a key that is a member of the object holds the decoded member (the last one
of that name), every other key is as it was before the call (a key that was present
stays present with its value, a key that was absent stays absent), and `Length` is
the number of distinct keys among the previous entries and the members. -/
theorem UnmarshalJSON_object_merges (m : Map) (members : List (String × JSON))
    (hv : ∀ es, m.data = some es → es.Valid) :
    (m.UnmarshalJSON (some (JSON.obj members))).2 = none
    ∧ (∀ k, (m.UnmarshalJSON (some (JSON.obj members))).1.data.find k
          = (match objMember members k with
             | some j => some (decodeValue j)
             | none => m.data.find k))
    ∧ (∀ k, (m.UnmarshalJSON (some (JSON.obj members))).1.Get k
          = (match objMember members k with
             | some j => decodeValue j
             | none => m.Get k))
    ∧ (m.UnmarshalJSON (some (JSON.obj members))).1.Length
          = (m.data.keys ++ members.map Prod.fst).dedup.length := by
  have hfind : ∀ k, (decodeMembers members (m.data.getD [])).find k
      = (match objMember members k with
         | some j => some (decodeValue j)
         | none => m.data.find k) := by
    intro k
    rw [decodeMembers_find]
    cases hd : m.data <;> simp [GoMap.find, Entries.find]
  refine ⟨rfl, ?_, ?_, ?_⟩
  · intro k
    simpa [Map.UnmarshalJSON, GoMap.find] using hfind k
  · intro k
    have h1 := hfind k
    simp only [Map.UnmarshalJSON, Map.Get, GoMap.find]
    rw [h1]
    cases objMember members k <;> rfl
  · simp only [Map.UnmarshalJSON, Map.Length, GoMap.len]
    cases hd : m.data with
    | none =>
      rw [decodeMembers_length _ _ (by simp [Entries.Valid])]
      simp [GoMap.keys]
    | some es =>
      rw [Option.getD_some, decodeMembers_length _ _ (hv es hd)]
      simp [GoMap.keys]

theorem UnmarshalJSON_object_merges_witness :
    (∀ es, (Map.mk (some [("a", Value.int 1), ("b", Value.string "x")])).data = some es → es.Valid)
    ∧ (((Map.mk (some [("a", Value.int 1), ("b", Value.string "x")])).UnmarshalJSON
          (some (JSON.obj [("b", JSON.null), ("c", JSON.str "y")]))).2 = none
      ∧ (∀ k, ((Map.mk (some [("a", Value.int 1), ("b", Value.string "x")])).UnmarshalJSON
            (some (JSON.obj [("b", JSON.null), ("c", JSON.str "y")]))).1.data.find k
            = (match objMember [("b", JSON.null), ("c", JSON.str "y")] k with
               | some j => some (decodeValue j)
               | none => (Map.mk (some [("a", Value.int 1), ("b", Value.string "x")])).data.find k))
      ∧ (∀ k, ((Map.mk (some [("a", Value.int 1), ("b", Value.string "x")])).UnmarshalJSON
            (some (JSON.obj [("b", JSON.null), ("c", JSON.str "y")]))).1.Get k
            = (match objMember [("b", JSON.null), ("c", JSON.str "y")] k with
               | some j => decodeValue j
               | none => (Map.mk (some [("a", Value.int 1), ("b", Value.string "x")])).Get k))
      ∧ ((Map.mk (some [("a", Value.int 1), ("b", Value.string "x")])).UnmarshalJSON
            (some (JSON.obj [("b", JSON.null), ("c", JSON.str "y")]))).1.Length
            = ((Map.mk (some [("a", Value.int 1), ("b", Value.string "x")])).data.keys
                ++ [("b", JSON.null), ("c", JSON.str "y")].map Prod.fst).dedup.length) :=
  ⟨by intro es h; cases h; decide,
   UnmarshalJSON_object_merges _ _ (by intro es h; cases h; decide)⟩

/-! ## GetInt64 -/

/-- C5: the dispatch of `GetInt64`: a stored int or int64 is returned unchanged; a
stored float64 whose value truncated towards zero is in the int64 range gives that
truncation (1.2345, bits 0x3FF3C083126E978D, gives 1 and -1.9, bits
0xBFFE666666666666, gives -1); a stored string gives the integer `strconv.ParseInt`
reads in base 10 with 64 bits, else 1 or 0 for the boolean `strconv.ParseBool`
reads, else 0; a stored bool gives 1 or 0; every other stored value gives 0. -/
theorem GetInt64_dispatch (P : Platform) (m : Map) (k : String) :
    (∀ n, m.Get k = Value.int n → m.GetInt64 P k = n)
    ∧ (∀ n, m.Get k = Value.int64 n → m.GetInt64 P k = n)
    ∧ (∀ f q, m.Get k = Value.float64 f → f.toRat = some q → isInt64 (truncTowardZero q) →
          m.GetInt64 P k = truncTowardZero q)
    ∧ (m.Get k = Value.float64 ⟨0x3FF3C083126E978D⟩ → m.GetInt64 P k = 1)
    ∧ (m.Get k = Value.float64 ⟨0xBFFE666666666666⟩ → m.GetInt64 P k = -1)
    ∧ (∀ s i, m.Get k = Value.string s → ParseInt s = Except.ok i → m.GetInt64 P k = i)
    ∧ (m.Get k = Value.string "12345" → m.GetInt64 P k = 12345)
    ∧ (∀ s e b, m.Get k = Value.string s → ParseInt s = Except.error e → ParseBool s = some b →
          m.GetInt64 P k = if b then 1 else 0)
    ∧ (∀ s e, m.Get k = Value.string s → ParseInt s = Except.error e → ParseBool s = none →
          m.GetInt64 P k = 0)
    ∧ (∀ b, m.Get k = Value.bool b → m.GetInt64 P k = if b then 1 else 0)
    ∧ ((∀ n, m.Get k ≠ Value.int n) → (∀ n, m.Get k ≠ Value.int64 n) →
        (∀ f, m.Get k ≠ Value.float64 f) → (∀ s, m.Get k ≠ Value.string s) →
        (∀ b, m.Get k ≠ Value.bool b) → m.GetInt64 P k = 0) := by
  refine ⟨?_, ?_, ?_, ?_, ?_, ?_, ?_, ?_, ?_, ?_, ?_⟩
  · intro n h; simp [Map.GetInt64, h]
  · intro n h; simp [Map.GetInt64, h]
  · intro f q h hq hr
    have ht := Float64.trunc_eq_truncTowardZero f q hq
    simp [Map.GetInt64, h, Float64.toInt64, ht, hr]
  · intro h
    have ht : (Float64.mk 0x3FF3C083126E978D).trunc = some 1 := by decide
    have hr : isInt64 1 := by decide
    simp [Map.GetInt64, h, Float64.toInt64, ht, hr]
  · intro h
    have ht : (Float64.mk 0xBFFE666666666666).trunc = some (-1) := by decide
    have hr : isInt64 (-1) := by decide
    simp [Map.GetInt64, h, Float64.toInt64, ht, hr]
  · intro s i h hp; simp [Map.GetInt64, h, hp]
  · intro h
    have hp : ParseInt "12345" = Except.ok 12345 := rfl
    simp [Map.GetInt64, h, hp]
  · intro s e b h hp hb
    cases b <;> simp [Map.GetInt64, h, hp, hb]
  · intro s e h hp hb; simp [Map.GetInt64, h, hp, hb]
  · intro b h; simp [Map.GetInt64, h]
  · intro h1 h2 h3 h4 h5
    unfold Map.GetInt64
    cases hv : m.Get k with
    | int n => exact absurd hv (h1 n)
    | int64 n => exact absurd hv (h2 n)
    | float64 f => exact absurd hv (h3 f)
    | string s => exact absurd hv (h4 s)
    | bool b => exact absurd hv (h5 b)
    | _ => rfl

theorem GetInt64_dispatch_witness :
    (Map.mk (some [("test_float", Value.float64 ⟨0x3FF3C083126E978D⟩)])).GetInt64 amd64 "test_float" = 1 :=
  (GetInt64_dispatch amd64 (Map.mk (some [("test_float", Value.float64 ⟨0x3FF3C083126E978D⟩)]))
    "test_float").2.2.2.1 rfl

/-! ## Missing keys -/

/-- C6: for a key that is absent, and for a key under which nil is stored, `Get`
returns nil and every coercing getter returns its zero value: 0 for `GetFloat64`,
`GetInt64`, `GetInt` and `GetJSTime`, the empty string for `GetString`, false for
`GetBool`, and for `GetTime` the timestamp `time.Unix(0, 0)`, whose `Unix()` is 0. -/
theorem getters_zero_of_missing (m : Map) (k : String)
    (h : m.data.find k = none ∨ m.data.find k = some Value.nil) :
    m.Get k = Value.nil
    ∧ ∀ (P : Platform) (L : Lib),
        m.GetFloat64 L k = Float64.zero
        ∧ m.GetInt64 P k = 0
        ∧ m.GetInt P k = 0
        ∧ m.GetString L k = Except.ok ""
        ∧ m.GetBool k = false
        ∧ m.GetTime P L k = timeUnix 0 0
        ∧ (m.GetTime P L k).Unix = 0
        ∧ m.GetJSTime P L k = 0 := by
  have hg : m.Get k = Value.nil := by
    rcases h with h | h <;> simp [Map.Get, h]
  refine ⟨hg, fun P L => ?_⟩
  have ht : m.GetTime P L k = timeUnix 0 0 := by simp [Map.GetTime, hg]
  have hu : (timeUnix 0 0).Unix = 0 := Unix_timeUnix 0 (by decide)
  refine ⟨?_, ?_, ?_, ?_, ?_, ht, ?_, ?_⟩
  · simp [Map.GetFloat64, hg]
  · simp [Map.GetInt64, hg]
  · simp [Map.GetInt, hg]
  · simp [Map.GetString, hg]
  · simp [Map.GetBool, hg]
  · rw [ht, hu]
  · simp only [Map.GetJSTime, ht, hu]
    decide

theorem getters_zero_of_missing_witness :
    ((Map.mk (some [("a", Value.int 5)])).data.find "b" = none
      ∨ (Map.mk (some [("a", Value.int 5)])).data.find "b" = some Value.nil)
    ∧ ((Map.mk (some [("a", Value.int 5)])).Get "b" = Value.nil
      ∧ ∀ (P : Platform) (L : Lib),
          (Map.mk (some [("a", Value.int 5)])).GetFloat64 L "b" = Float64.zero
          ∧ (Map.mk (some [("a", Value.int 5)])).GetInt64 P "b" = 0
          ∧ (Map.mk (some [("a", Value.int 5)])).GetInt P "b" = 0
          ∧ (Map.mk (some [("a", Value.int 5)])).GetString L "b" = Except.ok ""
          ∧ (Map.mk (some [("a", Value.int 5)])).GetBool "b" = false
          ∧ (Map.mk (some [("a", Value.int 5)])).GetTime P L "b" = timeUnix 0 0
          ∧ ((Map.mk (some [("a", Value.int 5)])).GetTime P L "b").Unix = 0
          ∧ (Map.mk (some [("a", Value.int 5)])).GetJSTime P L "b" = 0) :=
  ⟨Or.inl rfl, getters_zero_of_missing _ "b" (Or.inl rfl)⟩

/-! ## GetBool -/

theorem Float64.isZero_iff_toRat (f : Float64) (q : ℚ) (h : f.toRat = some q) :
    f.isZero = true ↔ q = 0 := by
  unfold Float64.toRat at h
  by_cases hn : f.isNaNOrInf = true
  · simp [hn] at h
  · simp only [hn, Bool.false_eq_true, if_false, Option.some.injEq] at h
    by_cases he : f.expo = 0
    · simp only [he, if_true] at h
      have h2 : ((f.frac : ℚ) / 2 ^ 1074 = 0) ↔ f.frac = 0 := by
        rw [div_eq_zero_iff]
        constructor
        · rintro (h3 | h3)
          · exact_mod_cast h3
          · norm_num at h3
        · intro h3; left; exact_mod_cast h3
      by_cases hs : f.neg = true
      · simp only [hs, if_true] at h
        rw [← h, neg_eq_zero, h2]
        simp [Float64.isZero, he]
      · simp only [hs, Bool.false_eq_true, if_false] at h
        rw [← h, h2]
        simp [Float64.isZero, he]
    · simp only [he, if_false] at h
      have hpos : (0 : ℚ) < ((2 ^ 52 + f.frac : Nat) : ℚ) * 2 ^ ((f.expo : Int) - 1075) := by
        positivity
      have hq : q ≠ 0 := by
        by_cases hs : f.neg = true
        · simp only [hs, if_true] at h
          rw [← h]; exact neg_ne_zero.mpr (ne_of_gt hpos)
        · simp only [hs, Bool.false_eq_true, if_false] at h
          rw [← h]; exact ne_of_gt hpos
      simp [Float64.isZero, he, hq]

/-- C7: the dispatch of `GetBool`: a stored bool is returned unchanged; a stored int,
int64 or float64 gives true exactly when it is not zero (a NaN or an infinity gives
true); a stored string gives the boolean `strconv.ParseBool` reads ("true" gives
true) and false when it reads none; every other stored value gives false. -/
theorem GetBool_dispatch (m : Map) (k : String) :
    (∀ b, m.Get k = Value.bool b → m.GetBool k = b)
    ∧ (∀ n, m.Get k = Value.int n → (m.GetBool k = true ↔ n ≠ 0))
    ∧ (∀ n, m.Get k = Value.int64 n → (m.GetBool k = true ↔ n ≠ 0))
    ∧ (∀ f q, m.Get k = Value.float64 f → f.toRat = some q → (m.GetBool k = true ↔ q ≠ 0))
    ∧ (∀ f, m.Get k = Value.float64 f → f.toRat = none → m.GetBool k = true)
    ∧ (∀ s b, m.Get k = Value.string s → ParseBool s = some b → m.GetBool k = b)
    ∧ (m.Get k = Value.string "true" → m.GetBool k = true)
    ∧ (∀ s, m.Get k = Value.string s → ParseBool s = none → m.GetBool k = false)
    ∧ ((∀ b, m.Get k ≠ Value.bool b) → (∀ n, m.Get k ≠ Value.int n) →
        (∀ n, m.Get k ≠ Value.int64 n) → (∀ f, m.Get k ≠ Value.float64 f) →
        (∀ s, m.Get k ≠ Value.string s) → m.GetBool k = false) := by
  refine ⟨?_, ?_, ?_, ?_, ?_, ?_, ?_, ?_, ?_⟩
  · intro b h; simp [Map.GetBool, h]
  · intro n h; simp [Map.GetBool, h]
  · intro n h; simp [Map.GetBool, h]
  · intro f q h hq
    have hz := Float64.isZero_iff_toRat f q hq
    by_cases h0 : f.isZero = true
    · simp [Map.GetBool, h, h0, hz.1 h0]
    · have : q ≠ 0 := fun hq0 => h0 (hz.2 hq0)
      simp [Map.GetBool, h, h0, this]
  · intro f h hq
    have hn : f.expo = 2047 := by
      unfold Float64.toRat at hq
      by_cases hn : f.isNaNOrInf = true
      · simpa [Float64.isNaNOrInf] using hn
      · simp [hn] at hq
    simp [Map.GetBool, h, Float64.isZero, hn]
  · intro s b h hb; simp [Map.GetBool, h, hb]
  · intro h
    have hb : ParseBool "true" = some true := by decide
    simp [Map.GetBool, h, hb]
  · intro s h hb; simp [Map.GetBool, h, hb]
  · intro h1 h2 h3 h4 h5
    unfold Map.GetBool
    cases hv : m.Get k with
    | bool b => exact absurd hv (h1 b)
    | int n => exact absurd hv (h2 n)
    | int64 n => exact absurd hv (h3 n)
    | float64 f => exact absurd hv (h4 f)
    | string s => exact absurd hv (h5 s)
    | _ => rfl

theorem GetBool_dispatch_witness :
    (Map.mk (some [("test_bool", Value.string "true")])).GetBool "test_bool" = true :=
  (GetBool_dispatch (Map.mk (some [("test_bool", Value.string "true")])) "test_bool").2.2.2.2.2.2.1 rfl

/-! ## Set and Get -/

/-- `Set` on a map whose mapping is allocated: `Set(k, v)` succeeds; afterwards `Get(k)`
returns v, `Get` of every other key returns what it returned before, and `Length`
has grown by one when k was absent and is unchanged when k was present. -/
theorem Set_Get_frame (m : Map) (d : Entries) (k : String) (v : Value)
    (hd : m.data = some d) :
    ∃ m1, m.Set k v = Except.ok m1
      ∧ m1.Get k = v
      ∧ (∀ k1, k1 ≠ k → m1.Get k1 = m.Get k1)
      ∧ (m.data.find k = none → m1.Length = m.Length + 1)
      ∧ (m.data.find k ≠ none → m1.Length = m.Length) := by
  refine ⟨_, Map.Set_allocated m d k v hd, ?_, ?_, ?_, ?_⟩
  · simp [Map.Get, GoMap.find, Entries.find_assign_self]
  · intro k1 hne
    simp [Map.Get, GoMap.find, hd, Entries.find_assign_other d k k1 v hne]
  · intro h
    simp only [hd, GoMap.find] at h
    simp [Map.Length, GoMap.len, hd, Entries.length_assign_absent d k v h]
  · intro h
    simp only [hd, GoMap.find] at h
    simp [Map.Length, GoMap.len, hd, Entries.length_assign_present d k v h]

theorem Set_Get_frame_witness :
    (Map.mk (some [("a", Value.int 1)])).data = some [("a", Value.int 1)]
    ∧ ∃ m1, (Map.mk (some [("a", Value.int 1)])).Set "b" (Value.string "x") = Except.ok m1
      ∧ m1.Get "b" = Value.string "x"
      ∧ (∀ k1, k1 ≠ "b" → m1.Get k1 = (Map.mk (some [("a", Value.int 1)])).Get k1)
      ∧ ((Map.mk (some [("a", Value.int 1)])).data.find "b" = none →
          m1.Length = (Map.mk (some [("a", Value.int 1)])).Length + 1)
      ∧ ((Map.mk (some [("a", Value.int 1)])).data.find "b" ≠ none →
          m1.Length = (Map.mk (some [("a", Value.int 1)])).Length) :=
  ⟨rfl, Set_Get_frame _ [("a", Value.int 1)] "b" (Value.string "x") rfl⟩

/-- C8: the claim fails on a map that the package itself produces: after a successful
`UnmarshalJSON` of the JSON literal null the mapping is nil, and `Set(k, v)` panics
with "assignment to entry in nil map" for every key and value, so that no `Get(k)`
follows.  (On every map whose mapping is allocated the claim holds: `Set_Get_frame`.) -/
theorem Set_after_null_panics :
    (New.UnmarshalJSON (some JSON.null)).2 = none
    ∧ ∀ (k : String) (v : Value),
        (New.UnmarshalJSON (some JSON.null)).1.Set k v
          = Except.error "assignment to entry in nil map" :=
  ⟨rfl, fun _ _ => rfl⟩

/-! ## AddMap and Copy -/

theorem Entries.find_append_singleton_ne (d : Entries) (k k1 : String) (v : Value)
    (hne : k1 ≠ k) : (d ++ [(k, v)]).find k1 = d.find k1 := by
  induction d with
  | nil => simp [Entries.find, Ne.symm hne]
  | cons e rest ih =>
    obtain ⟨k0, v0⟩ := e
    by_cases h0 : k0 = k1
    · simp [Entries.find, h0]
    · simp [Entries.find, h0, ih]

/-- The loop of `AddMap` on an allocated mapping never panics; for an argument with
pairwise distinct keys the result reads the argument first and the old entries
otherwise, and it is the old entries followed by the argument when no key of the
argument was present. -/
theorem Map.addEntries_allocated (es : Entries) (d : Entries) :
    ∃ d1, (Map.mk (some d)).addEntries es = Except.ok ⟨some d1⟩
      ∧ (es.Valid → ∀ k, d1.find k = (match es.find k with
                                       | some v => some v
                                       | none => d.find k))
      ∧ (es.Valid → (∀ k, k ∈ es.map Prod.fst → d.find k = none) → d1 = d ++ es) := by
  induction es generalizing d with
  | nil =>
    refine ⟨d, rfl, ?_, ?_⟩
    · intro _ k; simp [Entries.find]
    · intro _ _; simp
  | cons e rest ih =>
    obtain ⟨k0, v0⟩ := e
    obtain ⟨d1, hrun, hfind, happ⟩ := ih (d.assign k0 v0)
    refine ⟨d1, ?_, ?_, ?_⟩
    · simp only [Map.addEntries, Map.Set, GoMap.assign]
      exact hrun
    · intro hv k
      have hv2 : (k0 :: rest.map Prod.fst).Nodup := by simpa [Entries.Valid] using hv
      rw [List.nodup_cons] at hv2
      rw [hfind hv2.2 k]
      by_cases h0 : k0 = k
      · subst h0
        have hnone : Entries.find rest k0 = none := (Entries.find_eq_none_iff rest k0).2 hv2.1
        simp [hnone, Entries.find, Entries.find_assign_self]
      · simp only [Entries.find, h0, if_false]
        rw [Entries.find_assign_other d k0 k v0 (Ne.symm h0)]
    · intro hv hdis
      have hv2 : (k0 :: rest.map Prod.fst).Nodup := by simpa [Entries.Valid] using hv
      rw [List.nodup_cons] at hv2
      have hk0 : d.find k0 = none := hdis k0 (by simp)
      have hd0 : d.assign k0 v0 = d ++ [(k0, v0)] := Entries.assign_absent d k0 v0 hk0
      rw [happ hv2.2 ?_, hd0]
      · simp
      · intro k hk
        have hne : k ≠ k0 := fun h => hv2.1 (h ▸ hk)
        rw [hd0, Entries.find_append_singleton_ne d k0 k v0 hne]
        exact hdis k (by simp [List.mem_map] at hk ⊢; right; exact hk)

/-- `AddMap` on a map whose mapping is allocated, and with a nil argument on every map:
`AddMap(other)` with a nil `other` leaves the map exactly as it was; on a map
whose mapping is allocated, `AddMap(other)` succeeds and afterwards each key k reads
`other[k]` when k is a key of `other`, and what it read before otherwise. -/
theorem AddMap_Get (m : Map) (other : GoMap) (hv : ∀ es, other = some es → es.Valid) :
    (other = none → m.AddMap other = Except.ok m)
    ∧ (∀ d, m.data = some d →
        ∃ m1, m.AddMap other = Except.ok m1
          ∧ ∀ k, m1.Get k = (match other.find k with
                              | some v => v
                              | none => m.Get k)) := by
  constructor
  · intro h; subst h; rfl
  · intro d hd
    obtain ⟨data⟩ := m
    simp only at hd
    subst hd
    cases other with
    | none => exact ⟨_, rfl, fun k => by simp [GoMap.find]⟩
    | some es =>
      obtain ⟨d1, hrun, hfind, _⟩ := Map.addEntries_allocated es d
      refine ⟨⟨some d1⟩, hrun, fun k => ?_⟩
      simp only [Map.Get, GoMap.find]
      rw [hfind (hv es rfl) k]
      cases es.find k <;> rfl

theorem AddMap_Get_witness :
    (∀ es, some [("b", Value.bool true), ("c", Value.nil)] = some es → Entries.Valid es)
    ∧ ((some [("b", Value.bool true), ("c", Value.nil)] = (none : GoMap) →
          (Map.mk (some [("a", Value.int 1), ("b", Value.int 2)])).AddMap
            (some [("b", Value.bool true), ("c", Value.nil)])
            = Except.ok (Map.mk (some [("a", Value.int 1), ("b", Value.int 2)])))
      ∧ (∀ d, (Map.mk (some [("a", Value.int 1), ("b", Value.int 2)])).data = some d →
          ∃ m1, (Map.mk (some [("a", Value.int 1), ("b", Value.int 2)])).AddMap
                  (some [("b", Value.bool true), ("c", Value.nil)]) = Except.ok m1
            ∧ ∀ k, m1.Get k
                = (match GoMap.find (some [("b", Value.bool true), ("c", Value.nil)]) k with
                   | some v => v
                   | none => (Map.mk (some [("a", Value.int 1), ("b", Value.int 2)])).Get k))) :=
  ⟨by intro es h; cases h; decide,
   AddMap_Get _ _ (by intro es h; cases h; decide)⟩

/-- C9: the claim fails on a map that the package itself produces: after a successful
`UnmarshalJSON` of the JSON literal null the mapping is nil, and `AddMap(other)`
panics with "assignment to entry in nil map" for every `other` that has an entry.
(On every map whose mapping is allocated the claim holds: `AddMap_Get`.) -/
theorem AddMap_after_null_panics :
    (New.UnmarshalJSON (some JSON.null)).2 = none
    ∧ ∀ (k : String) (v : Value) (rest : Entries),
        (New.UnmarshalJSON (some JSON.null)).1.AddMap (some ((k, v) :: rest))
          = Except.error "assignment to entry in nil map" :=
  ⟨rfl, fun _ _ _ => rfl⟩

/-- C10: for a mapping d, `Copy(d)` succeeds with a map that has exactly the entries
of d: its `Length` is the number of keys of d, and each key reads `d[k]` when it is a
key of d and nil otherwise; for a nil d the `Length` is 0; `New()` followed by
`AddMap(d)` gives the same map. -/
theorem Copy_entries (d : GoMap) (hv : ∀ es, d = some es → es.Valid) :
    ∃ m1, Copy d = Except.ok m1
      ∧ New.AddMap d = Except.ok m1
      ∧ m1.Length = d.len
      ∧ (∀ k, m1.data.find k = d.find k)
      ∧ (∀ k, m1.Get k = (match d.find k with
                          | some v => v
                          | none => Value.nil))
      ∧ (d = none → m1.Length = 0) := by
  cases d with
  | none =>
    refine ⟨New, rfl, rfl, rfl, fun k => rfl, fun k => rfl, fun _ => rfl⟩
  | some es =>
    obtain ⟨d1, hrun, _, happ⟩ := Map.addEntries_allocated es []
    have hd1 : d1 = es := by
      rw [happ (hv es rfl) (fun k _ => rfl)]
      simp
    subst hd1
    refine ⟨⟨some d1⟩, hrun, hrun, rfl, fun k => rfl, fun k => ?_, fun h => by cases h⟩
    simp only [Map.Get, GoMap.find]
    cases d1.find k <;> rfl

theorem Copy_entries_witness :
    (∀ es, some [("x", Value.int64 3), ("y", Value.mapping none)] = some es → Entries.Valid es)
    ∧ ∃ m1, Copy (some [("x", Value.int64 3), ("y", Value.mapping none)]) = Except.ok m1
      ∧ New.AddMap (some [("x", Value.int64 3), ("y", Value.mapping none)]) = Except.ok m1
      ∧ m1.Length = GoMap.len (some [("x", Value.int64 3), ("y", Value.mapping none)])
      ∧ (∀ k, m1.data.find k = GoMap.find (some [("x", Value.int64 3), ("y", Value.mapping none)]) k)
      ∧ (∀ k, m1.Get k
            = (match GoMap.find (some [("x", Value.int64 3), ("y", Value.mapping none)]) k with
               | some v => v
               | none => Value.nil))
      ∧ (some [("x", Value.int64 3), ("y", Value.mapping none)] = (none : GoMap) → m1.Length = 0) :=
  ⟨by intro es h; cases h; decide,
   Copy_entries _ (by intro es h; cases h; decide)⟩

/-! ## Del -/

theorem Entries.erase_nil (k : String) : Entries.erase [] k = [] := rfl

theorem Entries.erase_cons (k0 : String) (v0 : Value) (rest : Entries) (k : String) :
    Entries.erase ((k0, v0) :: rest) k
      = if k0 = k then Entries.erase rest k else (k0, v0) :: Entries.erase rest k := by
  unfold Entries.erase
  by_cases h : k0 = k <;> simp [List.filter_cons, h]

theorem Entries.find_erase_self (d : Entries) (k : String) : (d.erase k).find k = none := by
  induction d with
  | nil => rfl
  | cons e rest ih =>
    obtain ⟨k0, v0⟩ := e
    rw [Entries.erase_cons]
    by_cases h0 : k0 = k
    · rw [if_pos h0]; exact ih
    · rw [if_neg h0]
      simp only [Entries.find, h0, if_false]
      exact ih

theorem Entries.find_erase_other (d : Entries) (k k1 : String) (hne : k1 ≠ k) :
    (d.erase k).find k1 = d.find k1 := by
  induction d with
  | nil => rfl
  | cons e rest ih =>
    obtain ⟨k0, v0⟩ := e
    rw [Entries.erase_cons]
    by_cases h0 : k0 = k
    · have h1 : ¬ k0 = k1 := fun h => hne (h ▸ h0)
      rw [if_pos h0]
      simp only [Entries.find, h1, if_false]
      exact ih
    · rw [if_neg h0]
      by_cases h1 : k0 = k1
      · simp only [Entries.find, h1, if_true]
      · simp only [Entries.find, h1, if_false]
        exact ih

theorem Entries.erase_absent (d : Entries) (k : String) (h : d.find k = none) :
    d.erase k = d := by
  induction d with
  | nil => rfl
  | cons e rest ih =>
    obtain ⟨k0, v0⟩ := e
    rw [Entries.erase_cons]
    by_cases h0 : k0 = k
    · simp [Entries.find, h0] at h
    · simp only [Entries.find, h0, if_false] at h
      rw [if_neg h0, ih h]

/-- C11: `Del(k)` removes k: afterwards k is absent and `Get(k)` returns nil, every
other key is as it was; when k was absent the map is exactly as it was, with the same
`Length`. -/
theorem Del_frame (m : Map) (k : String) :
    (m.Del k).Get k = Value.nil
    ∧ (m.Del k).data.find k = none
    ∧ (∀ k1, k1 ≠ k → (m.Del k).data.find k1 = m.data.find k1)
    ∧ (∀ k1, k1 ≠ k → (m.Del k).Get k1 = m.Get k1)
    ∧ (m.data.find k = none → m.Del k = m ∧ (m.Del k).Length = m.Length) := by
  obtain ⟨data⟩ := m
  cases data with
  | none =>
    refine ⟨rfl, rfl, fun _ _ => rfl, fun _ _ => rfl, fun _ => ⟨rfl, rfl⟩⟩
  | some d =>
    have hself : (Map.Del ⟨some d⟩ k).data.find k = none := by
      simp [Map.Del, GoMap.erase, GoMap.find, Entries.find_erase_self]
    have hother : ∀ k1, k1 ≠ k → (Map.Del ⟨some d⟩ k).data.find k1 = (Map.mk (some d)).data.find k1 := by
      intro k1 hne
      simp [Map.Del, GoMap.erase, GoMap.find, Entries.find_erase_other d k k1 hne]
    refine ⟨?_, hself, hother, ?_, ?_⟩
    · simp only [Map.Get, hself]
    · intro k1 hne
      simp only [Map.Get, hother k1 hne]
    · intro h
      have he : d.erase k = d := Entries.erase_absent d k (by simpa [GoMap.find] using h)
      simp [Map.Del, GoMap.erase, he]

theorem Del_frame_witness :
    (Map.Del ⟨some [("a", Value.int 1), ("b", Value.bool true)]⟩ "a").Get "a" = Value.nil
    ∧ (Map.Del ⟨some [("a", Value.int 1), ("b", Value.bool true)]⟩ "a").Get "b" = Value.bool true :=
  ⟨(Del_frame ⟨some [("a", Value.int 1), ("b", Value.bool true)]⟩ "a").1,
   ((Del_frame ⟨some [("a", Value.int 1), ("b", Value.bool true)]⟩ "a").2.2.2.1 "b"
      (by decide)).trans rfl⟩

/-! ## GetMap -/

/-- C12: when k is absent or holds a value that is not a `map[string]interface{}`,
`GetMap(k)` returns the map of `New()`, whose mapping is allocated and empty, so that
`Length` is 0 and a `Set` followed by a `Get` returns the value set; when k holds a
mapping d, `GetMap(k)` succeeds with an allocated map that has exactly the entries
of d. -/
theorem GetMap_usable (m : Map) (k : String) :
    ((m.data.find k = none ∨ ∃ v, m.data.find k = some v ∧ ∀ d, v ≠ Value.mapping d) →
        m.GetMap k = Except.ok New)
    ∧ New.data ≠ none
    ∧ New.Length = 0
    ∧ (∀ k1 v1, ∃ m2, New.Set k1 v1 = Except.ok m2 ∧ m2.Get k1 = v1)
    ∧ (∀ d : GoMap, m.data.find k = some (Value.mapping d) →
        (∀ es, d = some es → Entries.Valid es) →
        ∃ m1, m.GetMap k = Except.ok m1
          ∧ m1.data ≠ none
          ∧ (∀ k1, m1.data.find k1 = d.find k1)
          ∧ m1.Length = d.len) := by
  refine ⟨?_, by simp [New], rfl, ?_, ?_⟩
  · rintro (h | ⟨v, h, hv⟩)
    · simp [Map.GetMap, h]
    · unfold Map.GetMap
      rw [h]
      cases v with
      | mapping d => exact absurd rfl (hv d)
      | _ => rfl
  · intro k1 v1
    exact ⟨_, Map.Set_allocated New [] k1 v1 rfl, by
      simp [Map.Get, GoMap.find, Entries.find_assign_self]⟩
  · intro d h hv
    obtain ⟨data⟩ := m
    cases d with
    | none =>
      refine ⟨New, ?_, by simp [New], fun k1 => rfl, rfl⟩
      simp only [Map.GetMap, h]
      rfl
    | some es =>
      obtain ⟨d1, hrun, _, happ⟩ := Map.addEntries_allocated es []
      have hd1 : d1 = es := by
        rw [happ (hv es rfl) (fun k _ => rfl)]
        simp
      subst hd1
      refine ⟨⟨some d1⟩, ?_, by simp, fun k1 => rfl, rfl⟩
      simp only [Map.GetMap, h]
      exact hrun

theorem GetMap_usable_witness :
    ∃ m1, (Map.mk (some [("sub", Value.mapping (some [("x", Value.int 1)]))])).GetMap "sub"
        = Except.ok m1
      ∧ m1.data ≠ none
      ∧ (∀ k1, m1.data.find k1 = GoMap.find (some [("x", Value.int 1)]) k1)
      ∧ m1.Length = GoMap.len (some [("x", Value.int 1)]) :=
  (GetMap_usable (Map.mk (some [("sub", Value.mapping (some [("x", Value.int 1)]))])) "sub").2.2.2.2
    (some [("x", Value.int 1)]) rfl (by intro es h; cases h; decide)

/-! ## GetJSTime -/

/-- `SetJSTime` and `GetJSTime` on a map whose mapping is allocated: for every int64 ms
that is a multiple of
1000, `SetJSTime(k, ms)` followed by `GetJSTime(k)` returns ms; and for every
timestamp t stored with `Set`, `GetJSTime(k)` is the int64 product `t.Unix() * 1000`,
which is the exact product whenever that fits in an int64. -/
theorem JSTime_roundtrip (m : Map) (d : Entries) (k : String) (hd : m.data = some d) :
    (∀ ms, isInt64 ms → 1000 ∣ ms →
        ∃ m1, m.SetJSTime k ms = Except.ok m1
          ∧ ∀ (P : Platform) (L : Lib), m1.GetJSTime P L k = ms)
    ∧ (∀ t : Time,
        ∃ m1, m.Set k (Value.time t) = Except.ok m1
          ∧ ∀ (P : Platform) (L : Lib),
              m1.GetJSTime P L k = wrap64 (t.Unix * 1000)
              ∧ (isInt64 (t.Unix * 1000) → m1.GetJSTime P L k = t.Unix * 1000)) := by
  have hget : ∀ (t : Time) (P : Platform) (L : Lib),
      (Map.mk (some (d.assign k (Value.time t)))).GetTime P L k = t := by
    intro t P L
    simp [Map.GetTime, Map.Get, GoMap.find, Entries.find_assign_self]
  constructor
  · intro ms hms hmul
    refine ⟨_, Map.Set_allocated m d k _ hd, fun P L => ?_⟩
    have hq := tdiv_1000_isInt64 ms hms
    simp only [Map.GetJSTime, hget, Unix_timeUnix _ hq]
    rw [Int.tdiv_mul_cancel hmul]
    exact wrap64_of_isInt64 hms
  · intro t
    refine ⟨_, Map.Set_allocated m d k _ hd, fun P L => ⟨?_, fun hfit => ?_⟩⟩
    · simp only [Map.GetJSTime, hget]
    · simp only [Map.GetJSTime, hget]
      exact wrap64_of_isInt64 hfit

theorem JSTime_roundtrip_witness :
    (Map.mk (some [])).data = some []
    ∧ ∃ m1, (Map.mk (some [])).SetJSTime "t" 306999300000 = Except.ok m1
        ∧ ∀ (P : Platform) (L : Lib), m1.GetJSTime P L "t" = 306999300000 :=
  ⟨rfl, (JSTime_roundtrip (Map.mk (some [])) [] "t" rfl).1 306999300000 (by decide) (by decide)⟩

/-- C15: the claim fails on a map that the package itself produces: after a successful
`UnmarshalJSON` of the JSON literal null the mapping is nil, and `SetJSTime(k, ms)`
panics with "assignment to entry in nil map" for every key and ms, as does `Set` of a
timestamp, so that no `GetJSTime(k)` follows.  (On every map whose mapping is
allocated the claim holds, with the product taken in int64: `JSTime_roundtrip`.) -/
theorem SetJSTime_after_null_panics :
    (New.UnmarshalJSON (some JSON.null)).2 = none
    ∧ (∀ (k : String) (ms : Int),
        (New.UnmarshalJSON (some JSON.null)).1.SetJSTime k ms
          = Except.error "assignment to entry in nil map")
    ∧ (∀ (k : String) (t : Time),
        (New.UnmarshalJSON (some JSON.null)).1.Set k (Value.time t)
          = Except.error "assignment to entry in nil map") :=
  ⟨rfl, fun _ _ => rfl, fun _ _ => rfl⟩

/-! ## The mapping after UnmarshalJSON of null -/

/-- C20: the invariant fails: on the map of `New()`, `UnmarshalJSON` of the JSON
literal null succeeds and leaves the internal mapping nil, and the following
`Set("k", 1)` panics with "assignment to entry in nil map". -/
theorem UnmarshalJSON_null_then_Set_panics :
    (New.UnmarshalJSON (some JSON.null)).2 = none
    ∧ (New.UnmarshalJSON (some JSON.null)).1.data = none
    ∧ (New.UnmarshalJSON (some JSON.null)).1.Set "k" (Value.int 1)
        = Except.error "assignment to entry in nil map" :=
  ⟨rfl, rfl, rfl⟩

/-! ## Lemmas on the RFC 3339 readers -/


theorem digitChar_digit (d : Nat) (h : d < 10) :
    ('0' ≤ digitChar d ∧ digitChar d ≤ '9') ∧ (digitChar d).toNat - '0'.toNat = d := by
  interval_cases d <;> decide

theorem takeNum_twoDigits (n : Nat) (h : n < 100) (rest : List Char) :
    takeNum 2 0 (twoDigits n ++ rest) = some (n, rest) := by
  have h1 := digitChar_digit (n / 10) (by omega)
  have h2 := digitChar_digit (n % 10) (by omega)
  simp only [twoDigits, List.cons_append, List.nil_append, takeNum, h1.1, h2.1, h1.2, h2.2,
    and_self, if_true]
  congr 2
  omega

theorem takeNum_fourDigits (n : Nat) (h : n < 10000) (rest : List Char) :
    takeNum 4 0 (fourDigits n ++ rest) = some (n, rest) := by
  have h1 := digitChar_digit (n / 1000) (by omega)
  have h2 := digitChar_digit (n / 100 % 10) (by omega)
  have h3 := digitChar_digit (n / 10 % 10) (by omega)
  have h4 := digitChar_digit (n % 10) (by omega)
  simp only [fourDigits, List.cons_append, List.nil_append, takeNum, h1.1, h2.1, h3.1, h4.1,
    h1.2, h2.2, h3.2, h4.2, and_self, if_true]
  congr 2
  omega



theorem dropWhile_digits (xs : List Nat) (hx : ∀ x, x ∈ xs → x ≤ 9) (z : Char)
    (hz : ¬ ('0' ≤ z ∧ z ≤ '9')) (rest : List Char) :
    (xs.map digitChar ++ z :: rest).dropWhile (fun c => decide ('0' ≤ c ∧ c ≤ '9'))
      = z :: rest := by
  induction xs with
  | nil => simp [List.dropWhile, hz]
  | cons x xs ih =>
    have hd := (digitChar_digit x (by have := hx x (List.mem_cons_self _ _); omega)).1
    simp only [List.map_cons, List.cons_append, List.dropWhile, hd, and_self, decide_True]
    exact ih (fun y hy => hx y (List.mem_cons_of_mem _ hy))

theorem fracNanos_digits (xs : List Nat) (hx : ∀ x, x ∈ xs → x ≤ 9) (z : Char)
    (hz : ¬ ('0' ≤ z ∧ z ≤ '9')) (rest : List Char) (n acc : Nat) :
    fracNanos n acc (xs.map digitChar ++ z :: rest) = (acc + nanosOf n xs, z :: rest) := by
  induction n generalizing xs acc with
  | zero =>
    simp only [fracNanos, nanosOf, Nat.add_zero]
    rw [dropWhile_digits xs hx z hz rest]
  | succ n ih =>
    cases xs with
    | nil => simp [fracNanos, nanosOf, hz]
    | cons x xs =>
      have hd := digitChar_digit x (by have := hx x (List.mem_cons_self _ _); omega)
      simp only [List.map_cons, List.cons_append, fracNanos, hd.1, and_self, if_true, hd.2,
        nanosOf]
      have := ih xs (fun y hy => hx y (List.mem_cons_of_mem _ hy)) (acc + x * 10 ^ n)
      rw [Nat.add_assoc] at this
      exact this

theorem zoneText_head (zone : Option (Bool × Nat × Nat)) :
    ∃ z rest, zoneText zone = z :: rest ∧ ¬ ('0' ≤ z ∧ z ≤ '9') ∧ z ≠ '.' := by
  cases zone with
  | none => exact ⟨'Z', [], rfl, by decide, by decide⟩
  | some z =>
    obtain ⟨west, hh, mm⟩ := z
    cases west
    · exact ⟨'+', _, rfl, by decide, by decide⟩
    · exact ⟨'-', _, rfl, by decide, by decide⟩

theorem strictZone_zoneText (zone : Option (Bool × Nat × Nat))
    (h : ∀ z, zone = some z → z.2.1 ≤ 23 ∧ z.2.2 ≤ 59) :
    strictZone (zoneText zone) = some (zoneSeconds zone) := by
  cases zone with
  | none => rfl
  | some z =>
    obtain ⟨west, hh, mm⟩ := z
    have hb := h _ rfl
    simp only at hb
    have e1 : takeNum 2 0 [digitChar (hh / 10), digitChar (hh % 10)] = some (hh, []) := by
      simpa [twoDigits] using takeNum_twoDigits hh (by omega) []
    have e2 : takeNum 2 0 [digitChar (mm / 10), digitChar (mm % 10)] = some (mm, []) := by
      simpa [twoDigits] using takeNum_twoDigits mm (by omega) []
    cases west
    · simp [zoneText, twoDigits, strictZone, zoneSeconds, e1, e2, hb.1, hb.2]
    · simp [zoneText, twoDigits, strictZone, zoneSeconds, e1, e2, hb.1, hb.2]



/-- The table of the code and the calendar agree on the length of a month. -/
theorem daysIn_eq_monthLength (year month : Nat) (h1 : 1 ≤ month) (h2 : month ≤ 12) :
    daysIn month year = monthLength year month := by
  unfold daysIn daysBefore monthLength
  interval_cases month <;> simp

/-- The strict reader accepts the text of every RFC 3339 date-time whose fields are in
range, and returns the timestamp it denotes. -/
theorem parseRFC3339_text (localOffset : Int → Int) (d : DateTime) (hv : d.Valid) :
    parseRFC3339 localOffset d.text = some (d.time localOffset) := by
  obtain ⟨hy, hm1, hm2, hd1, hd2, hh, hmi, hs, hfr, hz⟩ := hv
  rw [← daysIn_eq_monthLength d.year d.month hm1 hm2] at hd2
  have hfrac : (match fracText d.frac ++ zoneText d.zone with
      | '.' :: c :: cs =>
        if '0' ≤ c ∧ c ≤ '9' then fracNanos 9 0 (c :: cs)
        else (0, fracText d.frac ++ zoneText d.zone)
      | _ => (0, fracText d.frac ++ zoneText d.zone))
      = (nanosOf 9 d.frac, zoneText d.zone) := by
    obtain ⟨z, rest, hzt, hnd, hndot⟩ := zoneText_head d.zone
    cases hf : d.frac with
    | nil =>
      rw [hzt]
      simp only [fracText, List.nil_append, nanosOf]
      split
      · rename_i c cs heq
        injection heq with h1 _
        exact absurd h1 hndot
      · rfl
    | cons x xs =>
      have hx : ∀ y, y ∈ x :: xs → y ≤ 9 := by rw [← hf]; exact hfr
      have hd := digitChar_digit x (by have := hx x (List.mem_cons_self _ _); omega)
      have hfn := fracNanos_digits (x :: xs) hx z hnd rest 9 0
      simp only [List.map_cons, List.cons_append, Nat.zero_add] at hfn
      rw [hzt]
      simp only [fracText, List.map_cons, List.cons_append, hd.1, and_self, if_true, hfn]
  unfold parseRFC3339
  simp only [DateTime.text, String.toList]
  simp only [takeNum_fourDigits d.year (by omega), takeNum_twoDigits d.month (by omega),
    takeNum_twoDigits d.day (by
      have : daysIn d.month d.year ≤ 31 := by
        unfold daysIn daysBefore
        split
        · omega
        · have hm : d.month ≤ 12 := hm2
          interval_cases d.month <;> simp
      omega),
    takeNum_twoDigits d.hour (by omega), takeNum_twoDigits d.min (by omega),
    takeNum_twoDigits d.sec (by omega), expectChar, if_true, hfrac,
    strictZone_zoneText d.zone hz]
  have hrange : ¬ (d.month < 1 ∨ d.month > 12 ∨ d.day < 1 ∨ d.day > daysIn d.month d.year
      ∨ d.hour > 23 ∨ d.min > 59 ∨ d.sec > 59) := by omega
  simp only [hrange, if_false]
  rfl

theorem timeParse_text (localOffset : Int → Int) (d : DateTime) (hv : d.Valid) :
    timeParse localOffset d.text = some (d.time localOffset) := by
  simp [timeParse, parseRFC3339_text localOffset d hv]

/-- The count of days year by year, in closed form. -/
theorem daysToYear_closed (y : Nat) :
    (daysToYear y : Int)
      = 365 * ((y : Int) - 1) + ((y : Int) - 1) / 4 - ((y : Int) - 1) / 100
        + ((y : Int) - 1) / 400 + 366 := by
  induction y with
  | zero => decide
  | succ y ih =>
    unfold daysToYear
    push_cast
    rw [ih]
    have e : ((y : Int) + 1 - 1) = (y : Int) := by ring
    rw [e]
    by_cases hl : isLeap (y : Int) = true
    · rw [if_pos hl]
      simp only [isLeap, decide_eq_true_eq] at hl
      omega
    · rw [if_neg hl]
      simp only [isLeap, decide_eq_true_eq] at hl
      omega

/-- The count of days month by month is the table of the code, with the leap day. -/
theorem daysToMonth_closed (year month : Nat) (h1 : 1 ≤ month) (h2 : month ≤ 12) :
    daysToMonth year (month - 1)
      = daysBefore month + (if isLeap year ∧ month ≥ 3 then 1 else 0) := by
  by_cases hl : isLeap (year : Int) = true <;>
    interval_cases month <;> simp [daysToMonth, monthLength, daysBefore, hl]

/-- The timestamp of an RFC 3339 date-time whose fields are in range is the instant it
denotes: its `Unix()` is the count of seconds in the calendar, its nanoseconds are the
first nine digits of the fraction. -/
theorem DateTime.Unix_time (localOffset : Int → Int) (d : DateTime) (hv : d.Valid) :
    (d.time localOffset).Unix = d.unixSeconds
    ∧ (d.time localOffset).nsec = nanosOf 9 d.frac := by
  obtain ⟨hy, hm1, hm2, hd1, hd2, hh, hmi, hs, hfr, hz⟩ := hv
  have hY := daysToYear_closed d.year
  have hM := daysToMonth_closed d.year d.month hm1 hm2
  have h1970 : ((daysToYear 1970 : Nat) : Int) = 719528 := by
    rw [daysToYear_closed]; norm_num
  have hML : monthLength d.year d.month ≤ 31 := by
    unfold monthLength; split_ifs <;> omega
  have hDB : daysBefore d.month ≤ 334 := by
    unfold daysBefore; interval_cases d.month <;> simp
  have hoff : -86400 < (zoneSeconds d.zone).getD 0 ∧ (zoneSeconds d.zone).getD 0 < 86400 := by
    cases hzz : d.zone with
    | none => simp [zoneSeconds]
    | some z =>
      obtain ⟨w, hh, mm⟩ := z
      have hb : hh ≤ 23 ∧ mm ≤ 59 := hz (w, hh, mm) hzz
      simp only [zoneSeconds, Option.getD_some]
      split <;> push_cast <;> omega
  have hleap : (if isLeap (d.year : Int) = true ∧ d.month ≥ 3 then (1 : Int) else 0)
      = ((if isLeap (d.year : Int) = true ∧ d.month ≥ 3 then 1 else 0 : Nat) : Int) := by
    split <;> simp
  have hsec : ∀ (loc : Location),
      (timeDate d.year d.month d.day d.hour d.min d.sec (nanosOf 9 d.frac)
        ((zoneSeconds d.zone).getD 0) loc).Unix = d.unixSeconds := by
    intro loc
    simp only [timeDate, Time.Unix, DateTime.unixSeconds, internalToUnix, unixToInternal_eq,
      wrap64, wrapBits, hleap]
    rw [h1970, hM]
    push_cast
    rw [hY]
    norm_num
    omega
  unfold DateTime.time timeOfFields
  cases hzz : zoneSeconds d.zone with
  | none =>
    have := hsec Location.UTC
    rw [hzz] at this
    exact ⟨this, rfl⟩
  | some off =>
    have := hsec (zoneLocation localOffset
      (timeDate d.year d.month d.day d.hour d.min d.sec (nanosOf 9 d.frac) off Location.UTC) off)
    rw [hzz] at this
    exact ⟨this, rfl⟩

/-- The date-time of the test, 1979-09-24T05:35:00Z, is 306999300 seconds after the
epoch by the count in the calendar. -/
theorem DateTime.unixSeconds_example :
    (DateTime.mk 1979 9 24 5 35 0 [] none).Valid
    ∧ (DateTime.mk 1979 9 24 5 35 0 [] none).text = "1979-09-24T05:35:00Z"
    ∧ (DateTime.mk 1979 9 24 5 35 0 [] none).unixSeconds = 306999300 := by
  refine ⟨?_, by decide, ?_⟩
  · refine ⟨by decide, by decide, by decide, by decide, by decide, by decide, by decide,
      by decide, ?_, ?_⟩
    · intro x hx; cases hx
    · intro z hz; cases hz
  · have h1 : ((daysToYear 1979 : Nat) : Int) = 722815 := by
      rw [daysToYear_closed]; norm_num
    have h2 : ((daysToYear 1970 : Nat) : Int) = 719528 := by
      rw [daysToYear_closed]; norm_num
    have h3 : daysToMonth 1979 8 = 243 := by decide
    simp only [DateTime.unixSeconds, zoneSeconds, Option.getD_none]
    rw [h2, h3]
    push_cast
    rw [h1]
    norm_num

theorem wrap64_lt (x : Int) : wrap64 x < 2 ^ 63 := by
  unfold wrap64 wrapBits
  norm_num
  omega

/-! ## GetTime -/

/-- C16, as stated, fails.  The string "1979-09-24T5:35:00Z" has an hour of one
digit: it is the text of no RFC 3339 date-time and the strict reader rejects it, yet
`time.Parse` with the layout RFC3339 accepts it, so `GetTime` gives the timestamp
with `Unix()` = 306999300 and not the epoch.  The float64 1e19 (bits
0x43E158E460913D00) is outside the int64 range, so `Unix()` is not 1e19 on any
platform.  In the other direction, the leap second "1990-12-31T23:59:60Z", an example
of RFC 3339 itself, and the lower-case "1979-09-24t05:35:00z", which RFC 3339 allows,
are rejected by `time.Parse`, so `GetTime` gives the epoch for them. -/
theorem GetTime_not_epoch_for_one_digit_hour :
    (¬ ∃ d : DateTime, d.Valid ∧ d.text = "1979-09-24T5:35:00Z")
    ∧ (¬ ∃ localOffset : Int → Int, parseRFC3339 localOffset "1979-09-24T5:35:00Z" ≠ none)
    ∧ (¬ ∃ (P : Platform) (L : Lib),
          ((Map.mk (some [("t", Value.string "1979-09-24T5:35:00Z")])).GetTime P L "t").Unix
            ≠ 306999300)
    ∧ (timeUnix 0 0).Unix = 0
    ∧ (Float64.mk 0x43E158E460913D00).toRat = some 10000000000000000000
    ∧ (¬ ∃ (P : Platform) (L : Lib),
          ((Map.mk (some [("f", Value.float64 ⟨0x43E158E460913D00⟩)])).GetTime P L "f").Unix
            = 10000000000000000000)
    ∧ (¬ ∃ (P : Platform) (L : Lib),
          (Map.mk (some [("t", Value.string "1990-12-31T23:59:60Z")])).GetTime P L "t"
            ≠ timeUnix 0 0)
    ∧ (¬ ∃ (P : Platform) (L : Lib),
          (Map.mk (some [("t", Value.string "1979-09-24t05:35:00z")])).GetTime P L "t"
            ≠ timeUnix 0 0) := by
  refine ⟨?_, ?_, ?_, by decide, ?_, ?_, ?_, ?_⟩
  · rintro ⟨d, hv, ht⟩
    have h := parseRFC3339_text (fun _ => 0) d hv
    rw [ht] at h
    have h0 : parseRFC3339 (fun _ => 0) "1979-09-24T5:35:00Z" = none := rfl
    rw [h0] at h
    cases h
  · rintro ⟨lo, h⟩
    exact h rfl
  · rintro ⟨P, L, h⟩
    exact h rfl
  · have hn1 : (Float64.mk 0x43E158E460913D00).isNaNOrInf = false := by decide
    have he : (Float64.mk 0x43E158E460913D00).expo = 1086 := by decide
    have hf : (Float64.mk 0x43E158E460913D00).frac = 379212872629504 := by decide
    have hs : (Float64.mk 0x43E158E460913D00).neg = false := by decide
    simp only [Float64.toRat, hn1, he, hf, hs]
    norm_num
  · rintro ⟨P, L, h⟩
    have hlt := wrap64_lt (((Map.mk (some [("f", Value.float64 ⟨0x43E158E460913D00⟩)])).GetTime
      P L "f").sec + internalToUnix)
    unfold Time.Unix at h
    rw [h] at hlt
    norm_num at hlt
  · rintro ⟨P, L, h⟩
    exact h rfl
  · rintro ⟨P, L, h⟩
    exact h rfl

/-- C16, amended: the dispatch of `GetTime`: a stored timestamp is returned unchanged;
a stored int or int64 n gives `time.Unix(n, 0)`, whose `Unix()` is n; a stored float64
whose truncation is in the int64 range gives the timestamp whose `Unix()` is that
truncation; a stored string that is the text of an RFC 3339 date-time (upper-case T
and Z, fields in range, no leap second) gives the timestamp it denotes
("1979-09-24T05:35:00Z" gives `Unix()` = 306999300 and `GetJSTime` = 306999300000);
every other string that `time.Parse` with the layout RFC3339 accepts gives the parsed
timestamp; a string that it rejects and every other stored value give
`time.Unix(0, 0)`, whose `Unix()` is 0; every stored float64 v gives
`time.Unix(int64(v), 0)`, where `int64(v)` is left to the platform for a v that int64
cannot represent. -/
theorem GetTime_dispatch (P : Platform) (L : Lib) (m : Map) (k : String) :
    (∀ t, m.Get k = Value.time t → m.GetTime P L k = t)
    ∧ (∀ n, m.Get k = Value.int n → isInt64 n →
          m.GetTime P L k = timeUnix n 0 ∧ (m.GetTime P L k).Unix = n)
    ∧ (∀ n, m.Get k = Value.int64 n → isInt64 n →
          m.GetTime P L k = timeUnix n 0 ∧ (m.GetTime P L k).Unix = n)
    ∧ (∀ f q, m.Get k = Value.float64 f → f.toRat = some q → isInt64 (truncTowardZero q) →
          m.GetTime P L k = timeUnix (truncTowardZero q) 0
          ∧ (m.GetTime P L k).Unix = truncTowardZero q)
    ∧ (∀ d : DateTime, d.Valid → m.Get k = Value.string d.text →
          m.GetTime P L k = d.time L.LocalOffset
          ∧ (m.GetTime P L k).Unix = d.unixSeconds
          ∧ (m.GetTime P L k).nsec = nanosOf 9 d.frac)
    ∧ (m.Get k = Value.string "1979-09-24T05:35:00Z" →
          (m.GetTime P L k).Unix = 306999300 ∧ m.GetJSTime P L k = 306999300000)
    ∧ (∀ s t, m.Get k = Value.string s → timeParse L.LocalOffset s = some t →
          m.GetTime P L k = t)
    ∧ (∀ s, m.Get k = Value.string s → timeParse L.LocalOffset s = none →
          m.GetTime P L k = timeUnix 0 0)
    ∧ ((∀ t, m.Get k ≠ Value.time t) → (∀ s, m.Get k ≠ Value.string s) →
        (∀ n, m.Get k ≠ Value.int64 n) → (∀ f, m.Get k ≠ Value.float64 f) →
        (∀ n, m.Get k ≠ Value.int n) → m.GetTime P L k = timeUnix 0 0)
    ∧ (∀ f, m.Get k = Value.float64 f → m.GetTime P L k = timeUnix (f.toInt64 P) 0)
    ∧ (timeUnix 0 0).Unix = 0 := by
  refine ⟨?_, ?_, ?_, ?_, ?_, ?_, ?_, ?_, ?_, ?_, Unix_timeUnix 0 (by decide)⟩
  · intro t h; simp [Map.GetTime, h]
  · intro n h hn
    have hg : m.GetTime P L k = timeUnix n 0 := by simp [Map.GetTime, h]
    exact ⟨hg, by rw [hg]; exact Unix_timeUnix n hn⟩
  · intro n h hn
    have hg : m.GetTime P L k = timeUnix n 0 := by simp [Map.GetTime, h]
    exact ⟨hg, by rw [hg]; exact Unix_timeUnix n hn⟩
  · intro f q h hq hr
    have ht := Float64.trunc_eq_truncTowardZero f q hq
    have hg : m.GetTime P L k = timeUnix (truncTowardZero q) 0 := by
      simp [Map.GetTime, h, Float64.toInt64, ht, hr]
    exact ⟨hg, by rw [hg]; exact Unix_timeUnix _ hr⟩
  · intro d hv h
    have hg : m.GetTime P L k = d.time L.LocalOffset := by
      simp [Map.GetTime, h, timeParse_text L.LocalOffset d hv]
    rw [hg]
    exact ⟨rfl, DateTime.Unix_time L.LocalOffset d hv⟩
  · intro h
    have hparse : timeParse L.LocalOffset "1979-09-24T05:35:00Z"
        = some ⟨306999300 + 62135596800, 0, Location.UTC⟩ := rfl
    have hg : m.GetTime P L k = ⟨306999300 + 62135596800, 0, Location.UTC⟩ := by
      simp [Map.GetTime, h, hparse]
    have hu : (m.GetTime P L k).Unix = 306999300 := by rw [hg]; decide
    refine ⟨hu, ?_⟩
    simp only [Map.GetJSTime, hu]
    decide
  · intro s t h hp; simp [Map.GetTime, h, hp]
  · intro s h hp; simp [Map.GetTime, h, hp]
  · intro h1 h2 h3 h4 h5
    unfold Map.GetTime
    cases hv : m.Get k with
    | time t => exact absurd hv (h1 t)
    | string s => exact absurd hv (h2 s)
    | int64 n => exact absurd hv (h3 n)
    | float64 f => exact absurd hv (h4 f)
    | int n => exact absurd hv (h5 n)
    | _ => rfl
  · intro f h; simp [Map.GetTime, h]

theorem GetTime_dispatch_witness :
    (Map.mk (some [("test_time", Value.string "1979-09-24T05:35:00Z")])).Get "test_time"
      = Value.string "1979-09-24T05:35:00Z"
    ∧ ∀ (P : Platform) (L : Lib),
        ((Map.mk (some [("test_time", Value.string "1979-09-24T05:35:00Z")])).GetTime P L
            "test_time").Unix = 306999300
        ∧ (Map.mk (some [("test_time", Value.string "1979-09-24T05:35:00Z")])).GetJSTime P L
            "test_time" = 306999300000 :=
  ⟨rfl, fun P L =>
    (GetTime_dispatch P L (Map.mk (some [("test_time", Value.string "1979-09-24T05:35:00Z")]))
      "test_time").2.2.2.2.2.1 rfl⟩

/-! ## GetInt -/

theorem ParseInt_isInt64 (s : String) (i : Int) (h : ParseInt s = Except.ok i) : isInt64 i := by
  unfold ParseInt at h
  split at h
  · cases h
  · rename_i c cs _
    simp only at h
    split at h
    · cases h
    · rename_i un _
      split at h
      · cases h
      · split at h
        · cases h
        · rename_i h1 h2
          injection h with h
          subst h
          unfold isInt64
          by_cases hneg : c = '-'
          · simp only [hneg, decide_True, if_true]
            simp only [hneg, decide_True, true_and, not_lt] at h2
            norm_num at h2 ⊢
            constructor <;> omega
          · simp only [hneg, decide_False, if_false]
            simp only [hneg, decide_False, not_false_eq_true, true_and, not_le] at h1
            norm_num at h1 ⊢
            constructor <;> omega

theorem wrapBits_of_range (w : Nat) (x : Int) (hw : w = 32 ∨ w = 64)
    (h : -2 ^ (w - 1) ≤ x ∧ x < 2 ^ (w - 1)) : wrapBits w x = x := by
  unfold wrapBits
  rcases hw with hw | hw <;> subst hw <;> norm_num at h ⊢ <;> omega

/-- C17, as stated, fails on a 32-bit platform: for the stored float64 3e9 (bits
0x41E65A0BC0000000) `GetInt64` is 3000000000, which narrowed to 32 bits is
-1294967296, while `GetInt` converts the float64 itself to `int`, which the 32-bit
x86 port makes -2147483648. -/
theorem GetInt_float_not_narrowed :
    (∀ g : Float64 → Int,
        (Map.mk (some [("f", Value.float64 ⟨0x41E65A0BC0000000⟩)])).GetInt64 (i386 g) "f"
          = 3000000000)
    ∧ (∀ g : Float64 → Int, wrapBits (i386 g).intBits 3000000000 = -1294967296)
    ∧ (∀ g : Float64 → Int,
        (Map.mk (some [("f", Value.float64 ⟨0x41E65A0BC0000000⟩)])).GetInt (i386 g) "f"
          = -2147483648) := by
  have ht : (Float64.mk 0x41E65A0BC0000000).trunc = some 3000000000 := by decide
  have hw : wrapBits 32 3000000000 = -1294967296 := by decide
  refine ⟨fun g => ?_, fun g => hw, fun g => ?_⟩
  · have hr : isInt64 3000000000 := by decide
    simp [Map.GetInt64, Map.Get, GoMap.find, Entries.find, Float64.toInt64, ht, hr]
  · simp [Map.GetInt, Map.Get, GoMap.find, Entries.find, Float64.toInt, ht, i386]

/-- C17, amended: on a platform whose `int` has 32 or 64 bits, with a stored int in
the range of `int` and a stored int64 in the range of int64: for every stored value
that is not a float64, `GetInt(k)` is `GetInt64(k)` narrowed to `int`, and the two are
equal whenever `GetInt64(k)` fits in an `int`; for a stored float64 whose truncation
fits in an `int` the two are equal; and on a 64-bit platform, where `int(v)` and
`int64(v)` are one conversion, the two are equal for every stored value. -/
theorem GetInt_GetInt64 (P : Platform) (m : Map) (k : String)
    (hbits : P.intBits = 32 ∨ P.intBits = 64)
    (hint : ∀ n, m.Get k = Value.int n → -2 ^ (P.intBits - 1) ≤ n ∧ n < 2 ^ (P.intBits - 1))
    (hint64 : ∀ n, m.Get k = Value.int64 n → isInt64 n) :
    ((∀ f, m.Get k ≠ Value.float64 f) →
        m.GetInt P k = wrapBits P.intBits (m.GetInt64 P k)
        ∧ (-2 ^ (P.intBits - 1) ≤ m.GetInt64 P k ∧ m.GetInt64 P k < 2 ^ (P.intBits - 1) →
            m.GetInt P k = m.GetInt64 P k))
    ∧ (∀ f i, m.Get k = Value.float64 f → f.trunc = some i →
          -2 ^ (P.intBits - 1) ≤ i ∧ i < 2 ^ (P.intBits - 1) →
          m.GetInt P k = i ∧ m.GetInt64 P k = i)
    ∧ (P.intBits = 64 → (∀ f, P.floatToInt f = P.floatToInt64 f) →
          m.GetInt P k = m.GetInt64 P k) := by
  have h0 : wrapBits P.intBits 0 = 0 :=
    wrapBits_of_range _ 0 hbits (by rcases hbits with h | h <;> rw [h] <;> norm_num)
  have h1 : wrapBits P.intBits 1 = 1 :=
    wrapBits_of_range _ 1 hbits (by rcases hbits with h | h <;> rw [h] <;> norm_num)
  have hnarrow : (∀ f, m.Get k ≠ Value.float64 f) →
      m.GetInt P k = wrapBits P.intBits (m.GetInt64 P k) := by
    intro hf
    unfold Map.GetInt Map.GetInt64
    cases hv : m.Get k with
    | float64 f => exact absurd hv (hf f)
    | int n => exact (wrapBits_of_range _ n hbits (hint n hv)).symm
    | int64 n => rfl
    | string s =>
      simp only
      cases hp : ParseInt s with
      | ok i => rfl
      | error e =>
        simp only
        cases hb : ParseBool s with
        | none => exact h0.symm
        | some b => cases b
                    · exact h0.symm
                    · exact h1.symm
    | bool b => cases b
                · exact h0.symm
                · exact h1.symm
    | nil => exact h0.symm
    | time t => exact h0.symm
    | duration d => exact h0.symm
    | error e => exact h0.symm
    | mapping d => exact h0.symm
    | slice xs => exact h0.symm
    | other t => exact h0.symm
  refine ⟨fun hf => ⟨hnarrow hf, fun hfit => ?_⟩, ?_, ?_⟩
  · rw [hnarrow hf]
    exact wrapBits_of_range _ _ hbits hfit
  · intro f i hv ht hfit
    have h64 : isInt64 i := by
      unfold isInt64
      rcases hbits with h | h <;> rw [h] at hfit <;> norm_num at hfit ⊢ <;> constructor <;> omega
    constructor
    · simp [Map.GetInt, hv, Float64.toInt, ht, hfit]
    · simp [Map.GetInt64, hv, Float64.toInt64, ht, h64]
  · intro h64 hco
    by_cases hf : ∃ f, m.Get k = Value.float64 f
    · obtain ⟨f, hv⟩ := hf
      simp only [Map.GetInt, Map.GetInt64, hv, Float64.toInt, Float64.toInt64, h64, hco, isInt64]
    · have hf2 : ∀ f, m.Get k ≠ Value.float64 f := fun f hv => hf ⟨f, hv⟩
      rw [hnarrow hf2]
      have z : isInt64 0 := by decide
      have o : isInt64 1 := by decide
      have hr : isInt64 (m.GetInt64 P k) := by
        unfold Map.GetInt64
        cases hv : m.Get k with
        | float64 f => exact absurd hv (hf2 f)
        | int n =>
          have := hint n hv
          rw [h64] at this
          exact this
        | int64 n => exact hint64 n hv
        | string s =>
          simp only
          cases hp : ParseInt s with
          | ok i => exact ParseInt_isInt64 s i hp
          | error e =>
            simp only
            cases hb : ParseBool s with
            | none => exact z
            | some b => cases b
                        · exact z
                        · exact o
        | bool b => cases b
                    · exact z
                    · exact o
        | nil => exact z
        | time t => exact z
        | duration d => exact z
        | error e => exact z
        | mapping d => exact z
        | slice xs => exact z
        | other t => exact z
      rw [h64]
      exact wrap64_of_isInt64 hr

theorem GetInt_GetInt64_witness :
    (Map.mk (some [("test_int", Value.string "12345")])).GetInt amd64 "test_int"
      = (Map.mk (some [("test_int", Value.string "12345")])).GetInt64 amd64 "test_int" :=
  (GetInt_GetInt64 amd64 (Map.mk (some [("test_int", Value.string "12345")])) "test_int"
    (Or.inr rfl) (fun n h => by cases h) (fun n h => by cases h)).2.2 rfl (fun _ => rfl)

/-! ## Nested maps and snapshots: maps as references -/

namespace heap


theorem Heap.cell_write_ne (h : Heap) (a b : Nat) (c : Cell) (hne : a ≠ b) :
    (h.write b c).cell a = h.cell a := by
  simp [Heap.cell, Heap.write, List.getD_eq_getElem?_getD, List.getElem?_set_ne (Ne.symm hne)]

theorem Heap.cell_write_self (h : Heap) (a : Nat) (c : Cell) (ha : a < h.cells.length) :
    (h.write a c).cell a = c := by
  simp [Heap.cell, Heap.write, List.getD_eq_getElem?_getD, List.getElem?_set_self ha]

theorem Heap.length_write (h : Heap) (a : Nat) (c : Cell) :
    (h.write a c).cells.length = h.cells.length := by
  simp [Heap.write]

theorem Heap.cell_make_old (h : Heap) (a : Nat) (ha : a < h.cells.length) :
    h.make.2.cell a = h.cell a := by
  simp [Heap.cell, Heap.make, List.getD_eq_getElem?_getD, List.getElem?_append_left ha]

theorem Heap.cell_make_new (h : Heap) : h.make.2.cell h.make.1 = [] := by
  simp [Heap.cell, Heap.make, List.getD_eq_getElem?_getD]

theorem Heap.length_make (h : Heap) : h.make.2.cells.length = h.cells.length + 1 := by
  simp [Heap.make]



theorem Cell.assign_of_absent (c : Cell) (k : String) (v : HValue) (h : c.find k = none) :
    c.assign k v = c ++ [(k, v)] := by
  induction c with
  | nil => simp [Cell.assign]
  | cons e rest ih =>
    obtain ⟨k0, v0⟩ := e
    by_cases h0 : k0 = k
    · simp [Cell.find, h0] at h
    · simp only [Cell.find, h0, if_false] at h
      simp [Cell.assign, h0, ih h]

theorem Cell.find_none_iff (c : Cell) (k : String) :
    c.find k = none ↔ k ∉ c.map Prod.fst := by
  induction c with
  | nil => simp [Cell.find]
  | cons e rest ih =>
    obtain ⟨k0, v0⟩ := e
    by_cases h0 : k0 = k
    · simp [Cell.find, h0]
    · simp [Cell.find, h0, ih, Ne.symm h0]

theorem Cell.find_snoc_ne (c : Cell) (k k1 : String) (v : HValue)
    (hne : k1 ≠ k) : Cell.find (c ++ [(k, v)]) k1 = c.find k1 := by
  induction c with
  | nil => simp [Cell.find, Ne.symm hne]
  | cons e rest ih =>
    obtain ⟨k0, v0⟩ := e
    by_cases h0 : k0 = k1
    · simp [Cell.find, h0]
    · simp [Cell.find, h0, ih]

/-- A `Set` on a map with an allocated mapping succeeds and writes that mapping only. -/
theorem Map.Set_writes (m : Map) (h : Heap) (b : Nat) (key : String) (value : HValue)
    (hm : m.data = some b) :
    ∃ h1, m.Set h key value = Except.ok h1
      ∧ (∀ a, a ≠ b → h1.cell a = h.cell a)
      ∧ h1.cells.length = h.cells.length := by
  refine ⟨h.write b ((h.cell b).assign key value), by simp [Map.Set, mapAssign, hm], ?_,
    Heap.length_write _ _ _⟩
  intro a hne
  exact Heap.cell_write_ne h a b _ hne

theorem Map.Del_writes (m : Map) (h : Heap) (key : String) :
    (∀ a, m.data ≠ some a → (m.Del h key).cell a = h.cell a)
    ∧ (m.Del h key).cells.length = h.cells.length := by
  cases hm : m.data with
  | none => simp [Map.Del, mapDelete, hm]
  | some b =>
    refine ⟨?_, by simp [Map.Del, mapDelete, hm, Heap.length_write]⟩
    intro a hne
    have : a ≠ b := fun h => hne (by rw [h])
    simp [Map.Del, mapDelete, hm, Heap.cell_write_ne h a b _ this]

/-- The loop of `AddMap` on a map with an allocated mapping succeeds and writes that
mapping only. -/
theorem Map.addEntries_writes (m : Map) (b : Nat) (hm : m.data = some b) (c : Cell) (h : Heap) :
    ∃ h1, m.addEntries h c = Except.ok h1
      ∧ (∀ a, a ≠ b → h1.cell a = h.cell a)
      ∧ h1.cells.length = h.cells.length := by
  induction c generalizing h with
  | nil => exact ⟨h, rfl, fun _ _ => rfl, rfl⟩
  | cons e rest ih =>
    obtain ⟨k0, v0⟩ := e
    obtain ⟨h1, hs, hf, hl⟩ := Map.Set_writes m h b k0 v0 hm
    obtain ⟨h2, hr, hf2, hl2⟩ := ih h1
    refine ⟨h2, ?_, ?_, ?_⟩
    · simp only [Map.addEntries, hs]
      exact hr
    · intro a hne
      rw [hf2 a hne, hf a hne]
    · rw [hl2, hl]

/-- Every sequence of `Set`, `Del` and `AddMap` calls on a map with an allocated
mapping succeeds and writes that mapping only. -/
theorem Map.run_writes (m : Map) (b : Nat) (hm : m.data = some b) (calls : List Call) (h : Heap) :
    ∃ h1, m.run h calls = Except.ok h1
      ∧ (∀ a, a ≠ b → h1.cell a = h.cell a)
      ∧ h1.cells.length = h.cells.length := by
  induction calls generalizing h with
  | nil => exact ⟨h, rfl, fun _ _ => rfl, rfl⟩
  | cons c rest ih =>
    cases c with
    | Set key value =>
      obtain ⟨h1, hs, hf, hl⟩ := Map.Set_writes m h b key value hm
      obtain ⟨h2, hr, hf2, hl2⟩ := ih h1
      refine ⟨h2, ?_, fun a hne => by rw [hf2 a hne, hf a hne], by rw [hl2, hl]⟩
      simp only [Map.run, hs]
      exact hr
    | Del key =>
      obtain ⟨hf, hl⟩ := Map.Del_writes m h key
      obtain ⟨h2, hr, hf2, hl2⟩ := ih (m.Del h key)
      refine ⟨h2, ?_, fun a hne => ?_, by rw [hl2, hl]⟩
      · simp only [Map.run]
        exact hr
      · rw [hf2 a hne, hf a (by rw [hm]; intro hx; exact hne (Option.some.inj hx).symm)]
    | AddMap data =>
      have hadd : ∃ h1, m.AddMap h data = Except.ok h1
          ∧ (∀ a, a ≠ b → h1.cell a = h.cell a) ∧ h1.cells.length = h.cells.length := by
        cases data with
        | none => exact ⟨h, rfl, fun _ _ => rfl, rfl⟩
        | some o => exact Map.addEntries_writes m b hm (h.cell o) h
      obtain ⟨h1, hs, hf, hl⟩ := hadd
      obtain ⟨h2, hr, hf2, hl2⟩ := ih h1
      refine ⟨h2, ?_, fun a hne => by rw [hf2 a hne, hf a hne], by rw [hl2, hl]⟩
      simp only [Map.run, hs]
      exact hr

theorem Map.Get_congr (m : Map) (a : Nat) (hm : m.data = some a) (h1 h2 : Heap)
    (hc : h2.cell a = h1.cell a) (k : String) : m.Get h2 k = m.Get h1 k := by
  simp [Map.Get, mapFind, hm, hc]

theorem Map.Length_congr (m : Map) (a : Nat) (hm : m.data = some a) (h1 h2 : Heap)
    (hc : h2.cell a = h1.cell a) : m.Length h2 = m.Length h1 := by
  simp [Map.Length, hm, hc]

/-- The loop of `GetGoMap` writes the result only, and for entries with pairwise
distinct keys that are absent from the result it appends them. -/
theorem fillFrom_frame (r : Nat) (c : Cell) (h : Heap) (hr : r < h.cells.length) :
    (∀ a, a ≠ r → (fillFrom r h c).cell a = h.cell a)
    ∧ (fillFrom r h c).cells.length = h.cells.length
    ∧ ((c.map Prod.fst).Nodup → (∀ k, k ∈ c.map Prod.fst → (h.cell r).find k = none) →
        (fillFrom r h c).cell r = h.cell r ++ c) := by
  induction c generalizing h with
  | nil => exact ⟨fun _ _ => rfl, rfl, fun _ _ => by simp [fillFrom]⟩
  | cons e rest ih =>
    obtain ⟨k0, v0⟩ := e
    have hl : (h.write r ((h.cell r).assign k0 v0)).cells.length = h.cells.length :=
      Heap.length_write _ _ _
    obtain ⟨hf, hlen, happ⟩ := ih (h.write r ((h.cell r).assign k0 v0)) (by rw [hl]; exact hr)
    refine ⟨?_, ?_, ?_⟩
    · intro a hne
      simp only [fillFrom]
      rw [hf a hne, Heap.cell_write_ne h a r _ hne]
    · simp only [fillFrom]
      rw [hlen, hl]
    · intro hnd hdis
      simp only [List.map_cons, List.nodup_cons] at hnd
      have hk0 : (h.cell r).find k0 = none := hdis k0 (by simp)
      have hw : (h.write r ((h.cell r).assign k0 v0)).cell r = h.cell r ++ [(k0, v0)] := by
        rw [Heap.cell_write_self h r _ hr, Cell.assign_of_absent _ _ _ hk0]
      simp only [fillFrom]
      rw [happ hnd.2 ?_, hw]
      · simp
      · intro k hk
        have hne : k ≠ k0 := fun hx => hnd.1 (hx ▸ hk)
        rw [hw, Cell.find_snoc_ne _ k0 k v0 hne]
        exact hdis k (by simp only [List.map_cons, List.mem_cons]; right; exact hk)



/-- C13: for a map m whose key k holds a nested mapping d, `GetMap(k)` succeeds with
a map of its own, and after every sequence of `Set`, `Del` and `AddMap` calls on that
map the parent is unchanged: every `Get` on m returns what it returned before
`GetMap`, and the mapping d has the entries it had. -/
theorem GetMap_independent (h : Heap) (m : Map) (a d : Nat) (k : String)
    (hm : m.data = some a) (ha : a < h.cells.length) (hd : d < h.cells.length)
    (hk : mapFind h m.data k = some (HValue.mapRef (some d))) :
    ∃ sub h1, m.GetMap h k = Except.ok (sub, h1)
      ∧ sub.data ≠ m.data
      ∧ ∀ calls : List Call, ∃ h2, sub.run h1 calls = Except.ok h2
          ∧ (∀ k1, m.Get h2 k1 = m.Get h k1)
          ∧ m.Get h2 k = HValue.mapRef (some d)
          ∧ h2.cell d = h.cell d := by
  have hsub : (New h).1.data = some h.cells.length := rfl
  obtain ⟨h1, hadd, hf1, _⟩ :=
    Map.addEntries_writes (New h).1 h.cells.length hsub ((New h).2.cell d) (New h).2
  have hold : ∀ b, b < h.cells.length → h1.cell b = h.cell b := by
    intro b hb
    rw [hf1 b (Nat.ne_of_lt hb)]
    exact Heap.cell_make_old h b hb
  refine ⟨(New h).1, h1, ?_, ?_, ?_⟩
  · simp only [Map.GetMap, hk, Copy, Map.AddMap, hadd]
  · rw [hsub, hm]
    intro hx
    exact absurd (Option.some.inj hx) (Nat.ne_of_gt ha)
  · intro calls
    obtain ⟨h2, hrun, hf2, _⟩ := Map.run_writes (New h).1 h.cells.length hsub calls h1
    have hca : h2.cell a = h.cell a := by rw [hf2 a (Nat.ne_of_lt ha), hold a ha]
    have hget : ∀ k1, m.Get h2 k1 = m.Get h k1 := Map.Get_congr m a hm h h2 hca
    refine ⟨h2, hrun, hget, ?_, ?_⟩
    · rw [hget k]
      simp [Map.Get, hk]
    · rw [hf2 d (Nat.ne_of_lt hd), hold d hd]

theorem GetMap_independent_witness :
    ∃ sub h1, (Map.mk (some 0)).GetMap
        ⟨[[("sub", HValue.mapRef (some 1))], [("x", HValue.plain (Value.int 1))]]⟩ "sub"
          = Except.ok (sub, h1)
      ∧ sub.data ≠ (Map.mk (some 0)).data
      ∧ ∀ calls : List Call, ∃ h2, sub.run h1 calls = Except.ok h2
          ∧ (∀ k1, (Map.mk (some 0)).Get h2 k1
                = (Map.mk (some 0)).Get
                    ⟨[[("sub", HValue.mapRef (some 1))], [("x", HValue.plain (Value.int 1))]]⟩ k1)
          ∧ (Map.mk (some 0)).Get h2 "sub" = HValue.mapRef (some 1)
          ∧ h2.cell 1
              = Heap.cell ⟨[[("sub", HValue.mapRef (some 1))], [("x", HValue.plain (Value.int 1))]]⟩ 1 :=
  GetMap_independent ⟨[[("sub", HValue.mapRef (some 1))], [("x", HValue.plain (Value.int 1))]]⟩
    (Map.mk (some 0)) 0 1 "sub" rfl (by decide) (by decide) rfl

/-- C14: `GetGoMap()` returns a new mapping with exactly the entries of m, and it is a
snapshot: no later sequence of `Set`, `Del` and `AddMap` calls on m changes the
returned mapping, and no sequence of assignments and deletions on the returned
mapping changes what `Get` and `Length` return on m. -/
theorem GetGoMap_snapshot (h : Heap) (m : Map) (a : Nat)
    (hm : m.data = some a) (ha : a < h.cells.length)
    (hv : ((h.cell a).map Prod.fst).Nodup) :
    ∃ r h1, m.GetGoMap h = (some r, h1)
      ∧ r ≠ a
      ∧ h1.cell r = h.cell a
      ∧ h1.cell a = h.cell a
      ∧ (∀ calls : List Call, ∃ h2, m.run h1 calls = Except.ok h2 ∧ h2.cell r = h1.cell r)
      ∧ (∀ calls : List Call, ∃ h2, (Map.mk (some r)).run h1 calls = Except.ok h2
            ∧ (∀ k, m.Get h2 k = m.Get h1 k)
            ∧ m.Length h2 = m.Length h1) := by
  have hr : h.make.1 < h.make.2.cells.length := by
    rw [Heap.length_make]; exact Nat.lt_succ_self _
  have hne : h.make.1 ≠ a := Nat.ne_of_gt ha
  obtain ⟨hf, _, happ⟩ := fillFrom_frame h.make.1 (h.make.2.cell a) h.make.2 hr
  have hca : h.make.2.cell a = h.cell a := Heap.cell_make_old h a ha
  refine ⟨h.make.1, fillFrom h.make.1 h.make.2 (h.make.2.cell a), ?_, hne, ?_, ?_, ?_, ?_⟩
  · simp [Map.GetGoMap, hm]
  · rw [happ (by rw [hca]; exact hv) (by
      intro k _
      rw [Heap.cell_make_new]
      rfl), Heap.cell_make_new, hca]
    simp
  · rw [hf a (Ne.symm hne), hca]
  · intro calls
    obtain ⟨h2, hrun, hf2, _⟩ := Map.run_writes m a hm calls
      (fillFrom h.make.1 h.make.2 (h.make.2.cell a))
    exact ⟨h2, hrun, hf2 _ hne⟩
  · intro calls
    obtain ⟨h2, hrun, hf2, _⟩ := Map.run_writes (Map.mk (some h.make.1)) h.make.1 rfl calls
      (fillFrom h.make.1 h.make.2 (h.make.2.cell a))
    have hc := hf2 a (Ne.symm hne)
    exact ⟨h2, hrun, Map.Get_congr m a hm _ h2 hc, Map.Length_congr m a hm _ h2 hc⟩

theorem GetGoMap_snapshot_witness :
    ∃ r h1, (Map.mk (some 0)).GetGoMap ⟨[[("a", HValue.plain (Value.int 1))]]⟩ = (some r, h1)
      ∧ r ≠ 0
      ∧ h1.cell r = Heap.cell ⟨[[("a", HValue.plain (Value.int 1))]]⟩ 0
      ∧ h1.cell 0 = Heap.cell ⟨[[("a", HValue.plain (Value.int 1))]]⟩ 0
      ∧ (∀ calls : List Call, ∃ h2, (Map.mk (some 0)).run h1 calls = Except.ok h2
            ∧ h2.cell r = h1.cell r)
      ∧ (∀ calls : List Call, ∃ h2, (Map.mk (some r)).run h1 calls = Except.ok h2
            ∧ (∀ k, (Map.mk (some 0)).Get h2 k = (Map.mk (some 0)).Get h1 k)
            ∧ (Map.mk (some 0)).Length h2 = (Map.mk (some 0)).Length h1) :=
  GetGoMap_snapshot ⟨[[("a", HValue.plain (Value.int 1))]]⟩ (Map.mk (some 0)) 0 rfl
    (by decide) (by decide)

end heap

/-! ## Lemmas on the conversion of integers to float64 -/


theorem Float64.bitLen_zero (fuel : Nat) : Float64.bitLen fuel 0 = 0 := by
  cases fuel <;> simp [Float64.bitLen]

theorem Float64.bitLen_spec (fuel n : Nat) (hn : n ≠ 0) (hf : n < 2 ^ fuel) :
    1 ≤ Float64.bitLen fuel n
    ∧ 2 ^ (Float64.bitLen fuel n - 1) ≤ n ∧ n < 2 ^ Float64.bitLen fuel n := by
  induction fuel generalizing n with
  | zero => simp at hf; exact absurd hf hn
  | succ fuel ih =>
    simp only [Float64.bitLen, hn, if_false]
    by_cases h2 : n / 2 = 0
    · have h1 : n = 1 := by omega
      subst h1
      simp [Float64.bitLen_zero]
    · have hlt : n / 2 < 2 ^ fuel := by
        rw [pow_succ] at hf
        omega
      obtain ⟨hl, hlo, hhi⟩ := ih (n / 2) h2 hlt
      refine ⟨by omega, ?_, ?_⟩
      · have e : Float64.bitLen fuel (n / 2) + 1 - 1 = (Float64.bitLen fuel (n / 2) - 1) + 1 := by
          omega
        rw [e, pow_succ]
        omega
      · rw [pow_succ]
        omega



theorem Float64.fields_of_bits (s E F : Nat) (hs : s = 0 ∨ s = 1) (hE : E < 2048)
    (hF : F < 2 ^ 52) :
    (Float64.mk (s * 2 ^ 63 + E * 2 ^ 52 + F)).expo = E
    ∧ (Float64.mk (s * 2 ^ 63 + E * 2 ^ 52 + F)).frac = F
    ∧ ((Float64.mk (s * 2 ^ 63 + E * 2 ^ 52 + F)).neg = true ↔ s = 1) := by
  simp only [Float64.expo, Float64.frac, Float64.neg, decide_eq_true_eq]
  norm_num at hF ⊢
  refine ⟨by omega, by omega, by omega⟩

/-- The conversion of an integer of magnitude below 2^53 is exact. -/
theorem Float64.toRat_ofInt_small (n : Int) (h0 : n.natAbs ≠ 0) (h : n.natAbs < 2 ^ 53) :
    (Float64.ofInt n).toRat = some (n : ℚ) := by
  obtain ⟨hl1, hlo, hhi⟩ := Float64.bitLen_spec (n.natAbs + 1) n.natAbs h0
    (lt_trans (Nat.lt_succ_self _) (Nat.lt_two_pow _))
  set a := n.natAbs with ha
  set len := Float64.bitLen (a + 1) a with hlen
  have hlen53 : len ≤ 53 := by
    by_contra hc
    have : 2 ^ 53 ≤ 2 ^ (len - 1) := Nat.pow_le_pow_right (by norm_num) (by omega)
    omega
  -- the significand
  have hM : a * 2 ^ (53 - len) = a * 2 ^ (53 - len) := rfl
  have hMlo : 2 ^ 52 ≤ a * 2 ^ (53 - len) := by
    calc 2 ^ 52 = 2 ^ (len - 1) * 2 ^ (53 - len) := by
          rw [← pow_add]; congr 1; omega
      _ ≤ a * 2 ^ (53 - len) := Nat.mul_le_mul_right _ hlo
  have hMhi : a * 2 ^ (53 - len) < 2 ^ 53 := by
    calc a * 2 ^ (53 - len) < 2 ^ len * 2 ^ (53 - len) :=
          Nat.mul_lt_mul_of_pos_right hhi (by positivity)
      _ = 2 ^ 53 := by rw [← pow_add]; congr 1; omega
  set M := a * 2 ^ (53 - len) with hMdef
  have hbits : Float64.ofInt n
      = ⟨(if n < 0 then 1 else 0) * 2 ^ 63 + (len + 1022) * 2 ^ 52 + (M - 2 ^ 52)⟩ := by
    unfold Float64.ofInt
    simp only [← ha, h0, if_false, ← hlen, hlen53, if_true, ← hMdef]
    have e1 : len - 1 + 1023 = len + 1022 := by omega
    have e2 : (if n < 0 then 2 ^ 63 else 0 : Nat) = (if n < 0 then 1 else 0) * 2 ^ 63 := by
      split <;> simp
    rw [e1, e2]
  obtain ⟨hexpo, hfrac, hneg⟩ := Float64.fields_of_bits (if n < 0 then 1 else 0) (len + 1022)
    (M - 2 ^ 52) (by split <;> simp) (by omega) (by omega)
  rw [hbits]
  unfold Float64.toRat
  have hnan : (Float64.mk ((if n < 0 then 1 else 0) * 2 ^ 63 + (len + 1022) * 2 ^ 52
      + (M - 2 ^ 52))).isNaNOrInf = false := by
    simp only [Float64.isNaNOrInf, hexpo, decide_eq_false_iff_not]
    omega
  have he0 : len + 1022 ≠ 0 := by omega
  simp only [hnan, Bool.false_eq_true, if_false, hexpo, hfrac, he0]
  have hsum : 2 ^ 52 + (M - 2 ^ 52) = M := by omega
  rw [hsum]
  have hz : ((len + 1022 : Nat) : Int) - 1075 = -((53 - len : Nat) : Int) := by omega
  have hmag : ((M : Nat) : ℚ) * 2 ^ (((len + 1022 : Nat) : Int) - 1075) = (a : ℚ) := by
    rw [hz, zpow_neg, zpow_natCast, hMdef]
    push_cast
    field_simp
  rw [hmag]
  refine congrArg some ?_
  by_cases hn : n < 0
  · have hs : (Float64.mk ((if n < 0 then 1 else 0) * 2 ^ 63 + (len + 1022) * 2 ^ 52
        + (M - 2 ^ 52))).neg = true := hneg.2 (by simp [hn])
    rw [if_pos hs]
    have : (n : ℚ) = -((a : Nat) : ℚ) := by
      have : n = -(a : Int) := by omega
      rw [this]; push_cast; ring
    rw [this]
  · have hs : ¬ (Float64.mk ((if n < 0 then 1 else 0) * 2 ^ 63 + (len + 1022) * 2 ^ 52
        + (M - 2 ^ 52))).neg = true := fun hx => by
      have := hneg.1 hx
      simp [hn] at this
    rw [if_neg hs]
    have : n = (a : Int) := by omega
    rw [this]; push_cast; rfl



/-- The conversion `float64(n)` is exact for every integer of magnitude at most 2^53. -/
theorem Float64.toRat_ofInt (n : Int) (h : n.natAbs ≤ 2 ^ 53) :
    (Float64.ofInt n).toRat = some (n : ℚ) := by
  by_cases h0 : n.natAbs = 0
  · have hn : n = 0 := Int.natAbs_eq_zero.mp h0
    subst hn
    have hn : (Float64.mk 0).isNaNOrInf = false := by decide
    have he : (Float64.mk 0).expo = 0 := by decide
    have hf : (Float64.mk 0).frac = 0 := by decide
    have hs : (Float64.mk 0).neg = false := by decide
    have hz : Float64.ofInt 0 = ⟨0⟩ := by decide
    simp only [hz, Float64.toRat, hn, he, hf, hs]
    norm_num
  · by_cases hlt : n.natAbs < 2 ^ 53
    · exact Float64.toRat_ofInt_small n h0 hlt
    · have ha : n.natAbs = 2 ^ 53 := by omega
      rcases Int.natAbs_eq n with hn | hn
      · rw [ha] at hn
        have hb : Float64.ofInt n = ⟨4845873199050653696⟩ := by rw [hn]; decide
        have hn1 : (Float64.mk 4845873199050653696).isNaNOrInf = false := by decide
        have he : (Float64.mk 4845873199050653696).expo = 1076 := by decide
        have hf : (Float64.mk 4845873199050653696).frac = 0 := by decide
        have hs : (Float64.mk 4845873199050653696).neg = false := by decide
        simp only [hb, Float64.toRat, hn1, he, hf, hs]
        rw [hn]
        norm_num
      · rw [ha] at hn
        have hb : Float64.ofInt n = ⟨14069245235905429504⟩ := by rw [hn]; decide
        have hn1 : (Float64.mk 14069245235905429504).isNaNOrInf = false := by decide
        have he : (Float64.mk 14069245235905429504).expo = 1076 := by decide
        have hf : (Float64.mk 14069245235905429504).frac = 0 := by decide
        have hs : (Float64.mk 14069245235905429504).neg = true := by decide
        simp only [hb, Float64.toRat, hn1, he, hf, hs]
        rw [hn]
        norm_num

/-- The conversion of an integer whose magnitude is a 53-bit significand times a
power of two is exact. -/
theorem Float64.toRat_ofInt_large (n : Int) (M e : Nat) (hM1 : 2 ^ 52 ≤ M) (hM2 : M < 2 ^ 53)
    (he : 1 ≤ e) (he2 : e + 1075 < 2047) (hn : n.natAbs = M * 2 ^ e) :
    (Float64.ofInt n).toRat = some (n : ℚ) := by
  have hpos : 0 < 2 ^ e := by positivity
  have h0 : n.natAbs ≠ 0 := by
    rw [hn]
    have : 0 < M * 2 ^ e := Nat.mul_pos (by omega) hpos
    omega
  obtain ⟨hl1, hlo, hhi⟩ := Float64.bitLen_spec (n.natAbs + 1) n.natAbs h0
    (lt_trans (Nat.lt_succ_self _) (Nat.lt_two_pow _))
  set a := n.natAbs with ha
  set len := Float64.bitLen (a + 1) a with hlen
  have halo : 2 ^ (52 + e) ≤ a := by
    rw [hn, pow_add]; exact Nat.mul_le_mul_right _ hM1
  have hahi : a < 2 ^ (53 + e) := by
    rw [hn, pow_add]; exact Nat.mul_lt_mul_of_pos_right hM2 hpos
  have hlen53 : len = 53 + e := by
    by_contra hc
    rcases Nat.lt_or_gt_of_ne hc with h | h
    · have : 2 ^ len ≤ 2 ^ (52 + e) := Nat.pow_le_pow_right (by norm_num) (by omega)
      omega
    · have : 2 ^ (53 + e) ≤ 2 ^ (len - 1) := Nat.pow_le_pow_right (by norm_num) (by omega)
      omega
  have hq : a / 2 ^ e = M := by rw [hn]; exact Nat.mul_div_cancel _ hpos
  have hr : a % 2 ^ e = 0 := by rw [hn]; exact Nat.mul_mod_left _ _
  have hhalf : 0 < 2 ^ (e - 1) := by positivity
  have hbits : Float64.ofInt n
      = ⟨(if n < 0 then 1 else 0) * 2 ^ 63 + (e + 1075) * 2 ^ 52 + (M - 2 ^ 52)⟩ := by
    unfold Float64.ofInt
    have hnle : ¬ (53 + e ≤ 53) := by omega
    have hsh : 53 + e - 53 = e := by omega
    have hq1 : ¬ (0 > 2 ^ (e - 1) ∨ 0 = 2 ^ (e - 1) ∧ M % 2 = 1) := by omega
    simp only [← ha, h0, if_false, ← hlen, hlen53, hnle, hsh, hq, hr, hq1]
    have e1 : 53 + e - 1 + 1023 = e + 1075 := by omega
    have e2 : (if n < 0 then 2 ^ 63 else 0 : Nat) = (if n < 0 then 1 else 0) * 2 ^ 63 := by
      split <;> simp
    rw [e1, e2]
  obtain ⟨hexpo, hfrac, hneg⟩ := Float64.fields_of_bits (if n < 0 then 1 else 0) (e + 1075)
    (M - 2 ^ 52) (by split <;> simp) (by omega) (by omega)
  rw [hbits]
  unfold Float64.toRat
  have hnan : (Float64.mk ((if n < 0 then 1 else 0) * 2 ^ 63 + (e + 1075) * 2 ^ 52
      + (M - 2 ^ 52))).isNaNOrInf = false := by
    simp only [Float64.isNaNOrInf, hexpo, decide_eq_false_iff_not]
    omega
  have he0 : e + 1075 ≠ 0 := by omega
  simp only [hnan, Bool.false_eq_true, if_false, hexpo, hfrac, he0]
  have hsum : 2 ^ 52 + (M - 2 ^ 52) = M := by omega
  rw [hsum]
  have hz : ((e + 1075 : Nat) : Int) - 1075 = ((e : Nat) : Int) := by omega
  have hmag : ((M : Nat) : ℚ) * 2 ^ (((e + 1075 : Nat) : Int) - 1075) = (a : ℚ) := by
    rw [hz, zpow_natCast, hn]
    push_cast
    ring
  rw [hmag]
  refine congrArg some ?_
  by_cases hn0 : n < 0
  · have hs : (Float64.mk ((if n < 0 then 1 else 0) * 2 ^ 63 + (e + 1075) * 2 ^ 52
        + (M - 2 ^ 52))).neg = true := hneg.2 (by simp [hn0])
    rw [if_pos hs]
    have : (n : ℚ) = -((a : Nat) : ℚ) := by
      have : n = -(a : Int) := by omega
      rw [this]; push_cast; ring
    rw [this]
  · have hs : ¬ (Float64.mk ((if n < 0 then 1 else 0) * 2 ^ 63 + (e + 1075) * 2 ^ 52
        + (M - 2 ^ 52))).neg = true := fun hx => by
      have := hneg.1 hx
      simp [hn0] at this
    rw [if_neg hs]
    have : n = (a : Int) := by omega
    rw [this]; push_cast; rfl

/-- The conversion `float64(n)` is exact for every integer that is the value of some
float64. -/
theorem Float64.toRat_ofInt_of_exact (n : Int) (f : Float64) (hf : f.toRat = some (n : ℚ)) :
    (Float64.ofInt n).toRat = some (n : ℚ) := by
  by_cases hsmall : n.natAbs ≤ 2 ^ 53
  · exact Float64.toRat_ofInt n hsmall
  · have hbig : 2 ^ 53 < n.natAbs := by omega
    have hfrac : f.frac < 2 ^ 52 := Nat.mod_lt _ (by positivity)
    have hexpo : f.expo < 2048 := Nat.mod_lt _ (by norm_num)
    unfold Float64.toRat at hf
    by_cases hnan : f.isNaNOrInf = true
    · simp [hnan] at hf
    · have hne : f.expo ≠ 2047 := by
        simpa [Float64.isNaNOrInf] using hnan
      simp only [hnan, Bool.false_eq_true, if_false, Option.some.injEq] at hf
      -- the magnitude of the value is the magnitude of n
      have habs : (if f.expo = 0 then (f.frac : ℚ) / 2 ^ 1074
          else ((2 ^ 52 + f.frac : Nat) : ℚ) * 2 ^ ((f.expo : Int) - 1075))
          = ((n.natAbs : Nat) : ℚ) := by
        have hnonneg : (0 : ℚ) ≤ (if f.expo = 0 then (f.frac : ℚ) / 2 ^ 1074
            else ((2 ^ 52 + f.frac : Nat) : ℚ) * 2 ^ ((f.expo : Int) - 1075)) := by
          split <;> positivity
        have hcast : ((n.natAbs : Nat) : ℚ) = |(n : ℚ)| := by
          rw [Nat.cast_natAbs, Int.cast_abs]
        rw [hcast, ← hf]
        generalize (if f.expo = 0 then (f.frac : ℚ) / 2 ^ 1074
            else ((2 ^ 52 + f.frac : Nat) : ℚ) * 2 ^ ((f.expo : Int) - 1075)) = mag at hnonneg ⊢
        by_cases hs : f.neg = true
        · rw [if_pos hs, abs_neg, abs_of_nonneg hnonneg]
        · rw [if_neg hs, abs_of_nonneg hnonneg]
      by_cases he0 : f.expo = 0
      · exfalso
        rw [if_pos he0] at habs
        have h1 : (f.frac : ℚ) / 2 ^ 1074 < 1 := by
          rw [div_lt_one (by positivity)]
          have : (f.frac : ℚ) < 2 ^ 52 := by exact_mod_cast hfrac
          have h2 : (2 : ℚ) ^ 52 ≤ 2 ^ 1074 := pow_le_pow_right₀ (by norm_num) (by norm_num)
          linarith
        have h2 : (1 : ℚ) ≤ ((n.natAbs : Nat) : ℚ) := by
          have : 1 ≤ n.natAbs := by omega
          exact_mod_cast this
        linarith
      · rw [if_neg he0] at habs
        by_cases hle : f.expo ≤ 1075
        · exfalso
          have h1 : ((2 ^ 52 + f.frac : Nat) : ℚ) * 2 ^ ((f.expo : Int) - 1075)
              ≤ ((2 ^ 52 + f.frac : Nat) : ℚ) := by
            have : (2 : ℚ) ^ ((f.expo : Int) - 1075) ≤ 1 :=
              zpow_le_one_of_nonpos₀ (by norm_num) (by omega)
            have hp : (0 : ℚ) ≤ ((2 ^ 52 + f.frac : Nat) : ℚ) := by positivity
            nlinarith
          have h2 : ((2 ^ 52 + f.frac : Nat) : ℚ) < 2 ^ 53 := by
            have : 2 ^ 52 + f.frac < 2 ^ 53 := by omega
            exact_mod_cast this
          have h3 : ((2 ^ 53 : Nat) : ℚ) < ((n.natAbs : Nat) : ℚ) := by exact_mod_cast hbig
          rw [habs] at h1
          push_cast at h3
          linarith
        · obtain ⟨e, he⟩ : ∃ e, f.expo = e + 1075 := ⟨f.expo - 1075, by omega⟩
          have hz : ((f.expo : Nat) : Int) - 1075 = ((e : Nat) : Int) := by omega
          rw [hz, zpow_natCast] at habs
          have hnat : n.natAbs = (2 ^ 52 + f.frac) * 2 ^ e := by
            have : (((2 ^ 52 + f.frac) * 2 ^ e : Nat) : ℚ) = ((n.natAbs : Nat) : ℚ) := by
              push_cast
              push_cast at habs
              exact habs
            exact_mod_cast this.symm
          exact Float64.toRat_ofInt_large n (2 ^ 52 + f.frac) e (by omega) (by omega)
            (by omega) (by omega) hnat

/-! ## Strings written and read back -/

theorem hexVal_hexDigit : ∀ d, d < 16 → hexVal (hexDigit d) = some d := by decide

theorem quoteChar_length_pos (c : Char) : 1 ≤ (quoteChar c).length := by
  unfold quoteChar
  simp only
  split_ifs <;> simp

theorem getu4_escape (a b c d : Nat) (ha : a < 16) (hb : b < 16) (hc : c < 16) (hd : d < 16)
    (rest : List Char) :
    getu4 (Char.ofNat 92 :: 'u' :: hexDigit a :: hexDigit b :: hexDigit c :: hexDigit d :: rest)
      = some (((a * 16 + b) * 16 + c) * 16 + d) := by
  have hbs : (Char.ofNat 92).toNat = 92 := by decide
  simp only [getu4, hbs, true_and, if_true, hexVal_hexDigit a ha, hexVal_hexDigit b hb,
    hexVal_hexDigit c hc, hexVal_hexDigit d hd]

theorem unquoteLoop_escape (fuel : Nat) (a b c d : Nat) (ha : a < 16) (hb : b < 16)
    (hc : c < 16) (hd : d < 16) (rest acc : List Char)
    (hs : ¬ (55296 ≤ ((a * 16 + b) * 16 + c) * 16 + d
      ∧ ((a * 16 + b) * 16 + c) * 16 + d < 57344)) :
    unquoteLoop (fuel + 1)
        (Char.ofNat 92 :: 'u' :: hexDigit a :: hexDigit b :: hexDigit c :: hexDigit d :: rest) acc
      = unquoteLoop fuel rest (Char.ofNat (((a * 16 + b) * 16 + c) * 16 + d) :: acc) := by
  have hbs : (Char.ofNat 92).toNat = 92 := by decide
  have g1 : ¬ (('u' : Char).toNat = 34 ∨ ('u' : Char).toNat = 92 ∨ 'u' = '/') := by decide
  have g2 : ¬ ('u' = 'b') := by decide
  have g3 : ¬ ('u' = 'f') := by decide
  have g4 : ¬ ('u' = 'n') := by decide
  have g5 : ¬ ('u' = 'r') := by decide
  have g6 : ¬ ('u' = 't') := by decide
  rw [unquoteLoop]
  simp only [hbs, if_true, g1, g2, g3, g4, g5, g6, if_false, getu4_escape a b c d ha hb hc hd,
    hs, List.drop_succ_cons, List.drop_zero]

theorem unquoteLoop_letter (fuel : Nat) (e : Char) (rest acc : List Char) :
    (e = 'b' → unquoteLoop (fuel + 1) (Char.ofNat 92 :: e :: rest) acc
        = unquoteLoop fuel rest (Char.ofNat 8 :: acc))
    ∧ (e = 'f' → unquoteLoop (fuel + 1) (Char.ofNat 92 :: e :: rest) acc
        = unquoteLoop fuel rest (Char.ofNat 12 :: acc))
    ∧ (e = 'n' → unquoteLoop (fuel + 1) (Char.ofNat 92 :: e :: rest) acc
        = unquoteLoop fuel rest (Char.ofNat 10 :: acc))
    ∧ (e = 'r' → unquoteLoop (fuel + 1) (Char.ofNat 92 :: e :: rest) acc
        = unquoteLoop fuel rest (Char.ofNat 13 :: acc))
    ∧ (e = 't' → unquoteLoop (fuel + 1) (Char.ofNat 92 :: e :: rest) acc
        = unquoteLoop fuel rest (Char.ofNat 9 :: acc)) := by
  have hbs : (Char.ofNat 92).toNat = 92 := by decide
  refine ⟨?_, ?_, ?_, ?_, ?_⟩ <;> intro he <;> subst he <;> rw [unquoteLoop]
  · have g1 : ¬ (('b' : Char).toNat = 34 ∨ ('b' : Char).toNat = 92 ∨ 'b' = '/') := by decide
    simp only [hbs, if_true, g1, if_false]
  · have g1 : ¬ (('f' : Char).toNat = 34 ∨ ('f' : Char).toNat = 92 ∨ 'f' = '/') := by decide
    have g2 : ¬ ('f' = 'b') := by decide
    simp only [hbs, if_true, g1, g2, if_false]
  · have g1 : ¬ (('n' : Char).toNat = 34 ∨ ('n' : Char).toNat = 92 ∨ 'n' = '/') := by decide
    have g2 : ¬ ('n' = 'b') := by decide
    have g3 : ¬ ('n' = 'f') := by decide
    simp only [hbs, if_true, g1, g2, g3, if_false]
  · have g1 : ¬ (('r' : Char).toNat = 34 ∨ ('r' : Char).toNat = 92 ∨ 'r' = '/') := by decide
    have g2 : ¬ ('r' = 'b') := by decide
    have g3 : ¬ ('r' = 'f') := by decide
    have g4 : ¬ ('r' = 'n') := by decide
    simp only [hbs, if_true, g1, g2, g3, g4, if_false]
  · have g1 : ¬ (('t' : Char).toNat = 34 ∨ ('t' : Char).toNat = 92 ∨ 't' = '/') := by decide
    have g2 : ¬ ('t' = 'b') := by decide
    have g3 : ¬ ('t' = 'f') := by decide
    have g4 : ¬ ('t' = 'n') := by decide
    have g5 : ¬ ('t' = 'r') := by decide
    simp only [hbs, if_true, g1, g2, g3, g4, g5, if_false]

/-- One step of the decoder reads what the encoder writes for one character. -/
theorem unquoteLoop_quoteChar (c : Char) (rest acc : List Char) (fuel : Nat) :
    unquoteLoop (fuel + 1) (quoteChar c ++ rest) acc = unquoteLoop fuel rest (c :: acc) := by
  have hc : Char.ofNat c.toNat = c := Char.ofNat_toNat c
  have hbs : (Char.ofNat 92).toNat = 92 := by decide
  unfold quoteChar
  simp only
  by_cases h1 : c.toNat = 92 ∨ c.toNat = 34
  · rw [if_pos h1]
    have h1a : c.toNat = 34 ∨ c.toNat = 92 ∨ c = '/' := by tauto
    show unquoteLoop (fuel + 1) (Char.ofNat 92 :: c :: rest) acc = _
    rw [unquoteLoop]
    simp only [hbs, if_true, h1a]
  rw [if_neg h1]
  by_cases h2 : c.toNat = 8
  · rw [if_pos h2]
    show unquoteLoop (fuel + 1) (Char.ofNat 92 :: 'b' :: rest) acc = _
    rw [(unquoteLoop_letter fuel 'b' rest acc).1 rfl, ← hc, h2]
  rw [if_neg h2]
  by_cases h3 : c.toNat = 12
  · rw [if_pos h3]
    show unquoteLoop (fuel + 1) (Char.ofNat 92 :: 'f' :: rest) acc = _
    rw [(unquoteLoop_letter fuel 'f' rest acc).2.1 rfl, ← hc, h3]
  rw [if_neg h3]
  by_cases h4 : c.toNat = 10
  · rw [if_pos h4]
    show unquoteLoop (fuel + 1) (Char.ofNat 92 :: 'n' :: rest) acc = _
    rw [(unquoteLoop_letter fuel 'n' rest acc).2.2.1 rfl, ← hc, h4]
  rw [if_neg h4]
  by_cases h5 : c.toNat = 13
  · rw [if_pos h5]
    show unquoteLoop (fuel + 1) (Char.ofNat 92 :: 'r' :: rest) acc = _
    rw [(unquoteLoop_letter fuel 'r' rest acc).2.2.2.1 rfl, ← hc, h5]
  rw [if_neg h5]
  by_cases h6 : c.toNat = 9
  · rw [if_pos h6]
    show unquoteLoop (fuel + 1) (Char.ofNat 92 :: 't' :: rest) acc = _
    rw [(unquoteLoop_letter fuel 't' rest acc).2.2.2.2 rfl, ← hc, h6]
  rw [if_neg h6]
  by_cases h7 : c.toNat < 32 ∨ c.toNat = 60 ∨ c.toNat = 62 ∨ c.toNat = 38
  · rw [if_pos h7]
    have hz : hexDigit 0 = '0' := by decide
    show unquoteLoop (fuel + 1) (Char.ofNat 92 :: 'u' :: '0' :: '0'
      :: hexDigit (c.toNat / 16) :: hexDigit (c.toNat % 16) :: rest) acc = _
    rw [← hz, unquoteLoop_escape fuel 0 0 (c.toNat / 16) (c.toNat % 16)
      (by omega) (by omega) (by omega) (by omega) rest acc (by omega)]
    have hv : ((0 * 16 + 0) * 16 + c.toNat / 16) * 16 + c.toNat % 16 = c.toNat := by omega
    rw [hv, hc]
  rw [if_neg h7]
  by_cases h8 : c.toNat = 8232 ∨ c.toNat = 8233
  · rw [if_pos h8]
    have hz : hexDigit 0 = '0' := by decide
    have ht : hexDigit 2 = '2' := by decide
    show unquoteLoop (fuel + 1) (Char.ofNat 92 :: 'u' :: '2' :: '0'
      :: '2' :: hexDigit (c.toNat % 16) :: rest) acc = _
    rw [← hz, ← ht, unquoteLoop_escape fuel 2 0 2 (c.toNat % 16)
      (by omega) (by omega) (by omega) (by omega) rest acc (by omega)]
    have hv : ((2 * 16 + 0) * 16 + 2) * 16 + c.toNat % 16 = c.toNat := by omega
    rw [hv, hc]
  rw [if_neg h8]
  show unquoteLoop (fuel + 1) (c :: rest) acc = _
  have h9 : ¬ c.toNat = 92 := fun h => h1 (Or.inl h)
  have h10 : ¬ (c.toNat = 34 ∨ c.toNat < 32) := by
    rintro (h | h)
    · exact h1 (Or.inr h)
    · exact h7 (Or.inl h)
  simp only [unquoteLoop, h9, if_false, h10]

/-- The decoder reads the characters back from what the encoder writes for them. -/
theorem unquoteLoop_quote (cs : List Char) :
    ∀ (fuel : Nat) (acc : List Char), (cs.flatMap quoteChar).length < fuel →
      unquoteLoop fuel (cs.flatMap quoteChar) acc = some (acc.reverse ++ cs) := by
  induction cs with
  | nil =>
    intro fuel acc h
    cases fuel with
    | zero => simp at h
    | succ fuel => simp [unquoteLoop]
  | cons c rest ih =>
    intro fuel acc h
    cases fuel with
    | zero => simp at h
    | succ fuel =>
      have hl := quoteChar_length_pos c
      rw [List.flatMap_cons] at h ⊢
      rw [unquoteLoop_quoteChar, ih fuel (c :: acc) (by rw [List.length_append] at h; omega)]
      simp

/-- A string is read back unchanged from what the encoder writes for it. -/
theorem readBack_eq (s : String) : readBack s = some s := by
  unfold readBack unquoteString quoteString
  rw [unquoteLoop_quote s.toList _ [] (Nat.lt_succ_self _)]
  simp

/-! ## MarshalJSON and UnmarshalJSON -/


theorem insertMember_perm (k : String) (j : JSON) (l : List (String × JSON)) :
    (insertMember k j l).Perm ((k, j) :: l) := by
  induction l with
  | nil => exact List.Perm.refl _
  | cons e rest ih =>
    obtain ⟨k0, j0⟩ := e
    unfold insertMember
    split
    · exact (List.Perm.cons _ ih).trans (List.Perm.swap _ _ _)
    · exact List.Perm.refl _

theorem sortMembers_perm (l : List (String × JSON)) : (sortMembers l).Perm l := by
  induction l with
  | nil => exact List.Perm.refl _
  | cons e rest ih =>
    obtain ⟨k, j⟩ := e
    unfold sortMembers
    exact (insertMember_perm k j _).trans (List.Perm.cons _ ih)

theorem objMember_eq_none_iff (ms : List (String × JSON)) (k : String) :
    objMember ms k = none ↔ k ∉ ms.map Prod.fst := by
  induction ms with
  | nil => simp [objMember]
  | cons e rest ih =>
    obtain ⟨k0, j0⟩ := e
    unfold objMember
    cases hr : objMember rest k with
    | some j =>
      have : k ∈ rest.map Prod.fst := by
        by_contra hc
        rw [ih.2 hc] at hr
        cases hr
      simp [this]
    | none =>
      have hnot := ih.1 hr
      by_cases h0 : k0 = k
      · simp [h0]
      · simp only [h0, if_false, List.map_cons, List.mem_cons, true_iff]
        rintro (h | h)
        · exact h0 h.symm
        · exact hnot h

theorem objMember_of_mem (ms : List (String × JSON)) (hnd : (ms.map Prod.fst).Nodup)
    (k : String) (j : JSON) (hmem : (k, j) ∈ ms) : objMember ms k = some j := by
  induction ms with
  | nil => cases hmem
  | cons e rest ih =>
    obtain ⟨k0, j0⟩ := e
    simp only [List.map_cons, List.nodup_cons] at hnd
    unfold objMember
    rcases List.mem_cons.1 hmem with h | h
    · injection h with h1 h2
      subst h1 h2
      have : objMember rest k = none := (objMember_eq_none_iff rest k).2 hnd.1
      simp [this]
    · rw [ih hnd.2 h]

theorem Entries.mem_of_find (es : Entries) (k : String) (v : Value)
    (h : es.find k = some v) : (k, v) ∈ es := by
  induction es with
  | nil => simp [Entries.find] at h
  | cons e rest ih =>
    obtain ⟨k0, v0⟩ := e
    by_cases h0 : k0 = k
    · simp only [Entries.find, h0, if_true, Option.some.injEq] at h
      subst h0 h
      exact List.mem_cons_self _ _
    · simp only [Entries.find, h0, if_false] at h
      exact List.mem_cons_of_mem _ (ih h)

theorem Entries.isSome_find_iff (es : Entries) (k : String) :
    (es.find k).isSome = true ↔ k ∈ es.map Prod.fst := by
  have h := Entries.find_eq_none_iff es k
  cases hf : es.find k with
  | none => simp [h.1 hf]
  | some v =>
    simp only [Option.isSome_some, true_iff]
    by_contra hc
    rw [h.2 hc] at hf
    cases hf

/-- The entries of a map whose values all have an encoding that reads back as a
related value are encoded, key by key, into members that read back as related
values. -/
theorem encodeEntries_related (L : Lib) (es : List (String × Value))
    (h : ∀ k v, (k, v) ∈ es → ∃ j, encodeValue L v = some j ∧ JSONEquiv v (decodeValue j)) :
    ∃ ms, encodeEntries L es = some ms
      ∧ ms.map Prod.fst = es.map Prod.fst
      ∧ ∀ k v, (k, v) ∈ es → ∃ j, (k, j) ∈ ms ∧ JSONEquiv v (decodeValue j) := by
  induction es with
  | nil => exact ⟨[], by simp [encodeEntries], rfl, fun k v hm => by cases hm⟩
  | cons e rest ih =>
    obtain ⟨k0, v0⟩ := e
    obtain ⟨ms, hms, hkeys, hrel⟩ := ih (fun k v hm => h k v (List.mem_cons_of_mem _ hm))
    obtain ⟨j0, hj0, hr0⟩ := h k0 v0 (List.mem_cons_self _ _)
    refine ⟨(k0, j0) :: ms, ?_, ?_, ?_⟩
    · simp [encodeEntries, hj0, hms, readBack_eq]
    · simp [hkeys]
    · intro k v hm
      rcases List.mem_cons.1 hm with hx | hx
      · injection hx with h1 h2
        subst h1 h2
        exact ⟨j0, List.mem_cons_self _ _, hr0⟩
      · obtain ⟨j, hj, hr⟩ := hrel k v hx
        exact ⟨j, List.mem_cons_of_mem _ hj, hr⟩

/-- Every representable value has an encoding, and the encoding reads back as a value
equal to it up to the JSON representation. -/
theorem encode_decode_related (L : Lib) (v : Value) (h : Representable v) :
    ∃ j, encodeValue L v = some j ∧ JSONEquiv v (decodeValue j) := by
  induction h with
  | nil =>
    exact ⟨.null, by simp [encodeValue], by simpa [decodeValue] using JSONEquiv.nil⟩
  | bool b =>
    exact ⟨.bool b, by simp [encodeValue], by simpa [decodeValue] using JSONEquiv.bool b⟩
  | int n hn =>
    obtain ⟨f, hf⟩ := hn
    exact ⟨.num (Float64.ofInt n), by simp [encodeValue], by
      simpa [decodeValue] using JSONEquiv.int n _ (Float64.toRat_ofInt_of_exact n f hf)⟩
  | int64 n hn =>
    obtain ⟨f, hf⟩ := hn
    exact ⟨.num (Float64.ofInt n), by simp [encodeValue], by
      simpa [decodeValue] using JSONEquiv.int64 n _ (Float64.toRat_ofInt_of_exact n f hf)⟩
  | float64 f hf =>
    exact ⟨.num f, by simp [encodeValue, hf], by
      simpa [decodeValue] using JSONEquiv.float64 f⟩
  | string s =>
    exact ⟨.str s, by simp [encodeValue, readBack_eq], by
      simpa [decodeValue] using JSONEquiv.string s⟩
  | nilMapping =>
    exact ⟨.null, by simp [encodeValue], by simpa [decodeValue] using JSONEquiv.nilMapping⟩
  | mapping es hv _ ih =>
    obtain ⟨ms, hms, hkeys, hrel⟩ := encodeEntries_related L es ih
    have hperm := sortMembers_perm ms
    have hnd : (ms.map Prod.fst).Nodup := by rw [hkeys]; exact hv
    have hnds : ((sortMembers ms).map Prod.fst).Nodup :=
      (List.Perm.nodup_iff (List.Perm.map Prod.fst hperm)).2 hnd
    have hfind : ∀ k, (decodeMembers (sortMembers ms) []).find k
        = (match objMember (sortMembers ms) k with
           | some j => some (decodeValue j)
           | none => none) := by
      intro k
      rw [decodeMembers_find]
      rfl
    refine ⟨.obj (sortMembers ms), by simp [encodeValue, hms], ?_⟩
    have hdec : decodeValue (.obj (sortMembers ms))
        = .mapping (some (decodeMembers (sortMembers ms) [])) := by simp [decodeValue]
    rw [hdec]
    refine JSONEquiv.mapping es _ ?_ ?_
    · intro k
      by_cases hk : k ∈ es.map Prod.fst
      · have h1 : (Entries.find es k).isSome = true := (Entries.isSome_find_iff es k).2 hk
        have hk2 : k ∈ (sortMembers ms).map Prod.fst := by
          rw [(List.Perm.map Prod.fst hperm).mem_iff, hkeys]; exact hk
        have hne : objMember (sortMembers ms) k ≠ none := fun hx =>
          (objMember_eq_none_iff _ k).1 hx hk2
        rw [h1, hfind k]
        cases ho : objMember (sortMembers ms) k with
        | none => exact absurd ho hne
        | some j => rfl
      · have h1 : Entries.find es k = none := (Entries.find_eq_none_iff es k).2 hk
        have hk2 : k ∉ (sortMembers ms).map Prod.fst := by
          rw [(List.Perm.map Prod.fst hperm).mem_iff, hkeys]; exact hk
        rw [h1, hfind k, (objMember_eq_none_iff _ k).2 hk2]
    · intro k v v1 hf hf1
      obtain ⟨j, hj, hr⟩ := hrel k v (Entries.mem_of_find es k v hf)
      have hjs : (k, j) ∈ sortMembers ms := hperm.mem_iff.2 hj
      have ho := objMember_of_mem _ hnds k j hjs
      rw [hfind k, ho] at hf1
      injection hf1 with hf1
      rw [← hf1]
      exact hr

/-- The integers that come back with their value include 2^60, beyond 2^53. -/
theorem Representable_two_pow_60 : Representable (Value.int64 1152921504606846976) := by
  refine Representable.int64 _ ⟨⟨0x43B0000000000000⟩, ?_⟩
  have hn1 : (Float64.mk 0x43B0000000000000).isNaNOrInf = false := by decide
  have he : (Float64.mk 0x43B0000000000000).expo = 1083 := by decide
  have hf : (Float64.mk 0x43B0000000000000).frac = 0 := by decide
  have hs : (Float64.mk 0x43B0000000000000).neg = false := by decide
  simp only [Float64.toRat, hn1, he, hf, hs]
  norm_num

/-- C18, as stated, fails for large integers: the map holding int64 9007199254740993
(2^53 + 1) under "n" encodes, and decoding the output into a new map succeeds, but
"n" then holds the float64 with bits 0x4340000000000000, whose value is
9007199254740992: not the same numeric value. -/
theorem roundtrip_int64_changes_value :
    (∀ L : Lib, (Map.mk (some [("n", Value.int64 9007199254740993)])).MarshalJSON L
        = some (JSON.obj [("n", JSON.num ⟨0x4340000000000000⟩)]))
    ∧ (New.UnmarshalJSON (some (JSON.obj [("n", JSON.num ⟨0x4340000000000000⟩)]))).2 = none
    ∧ (New.UnmarshalJSON (some (JSON.obj [("n", JSON.num ⟨0x4340000000000000⟩)]))).1.Get "n"
        = Value.float64 ⟨0x4340000000000000⟩
    ∧ (Float64.mk 0x4340000000000000).toRat = some 9007199254740992
    ∧ ¬ JSONEquiv (Value.int64 9007199254740993) (Value.float64 ⟨0x4340000000000000⟩) := by
  have hrat : (Float64.mk 0x4340000000000000).toRat = some 9007199254740992 := by
    have hn1 : (Float64.mk 0x4340000000000000).isNaNOrInf = false := by decide
    have he : (Float64.mk 0x4340000000000000).expo = 1076 := by decide
    have hf : (Float64.mk 0x4340000000000000).frac = 0 := by decide
    have hs : (Float64.mk 0x4340000000000000).neg = false := by decide
    simp only [Float64.toRat, hn1, he, hf, hs]
    norm_num
  refine ⟨fun _ => rfl, rfl, rfl, hrat, ?_⟩
  intro h
  cases h with
  | int64 n f hq =>
    rw [hrat] at hq
    norm_num at hq

/-- C18, amended: for every map whose values are nil, bools, integers that a float64
holds exactly (every integer of magnitude up to 2^53, and for instance 2^60), finite
float64 values, strings (valid UTF-8) and nested mappings of the same, `MarshalJSON`
succeeds, `UnmarshalJSON` of its output into a new map succeeds, and the new map has
exactly the same keys, each holding a value equal to the original up to the JSON
representation (an integer comes back as the float64 of the same numeric value, a nil
nested mapping as nil). -/
theorem Marshal_Unmarshal_roundtrip (L : Lib) (m : Map)
    (hrep : ∀ es, m.data = some es → Representable (Value.mapping (some es))) :
    ∃ j, m.MarshalJSON L = some j
      ∧ (New.UnmarshalJSON (some j)).2 = none
      ∧ (∀ k, (m.data.find k).isSome = ((New.UnmarshalJSON (some j)).1.data.find k).isSome)
      ∧ (∀ k v v1, m.data.find k = some v →
            (New.UnmarshalJSON (some j)).1.data.find k = some v1 → JSONEquiv v v1) := by
  obtain ⟨data⟩ := m
  cases data with
  | none =>
    refine ⟨JSON.null, rfl, rfl, fun k => rfl, fun k v v1 h => ?_⟩
    simp [GoMap.find] at h
  | some es =>
    obtain ⟨j, hj, hr⟩ := encode_decode_related L _ (hrep es rfl)
    refine ⟨j, hj, ?_⟩
    simp only [encodeValue] at hj
    cases hms : encodeEntries L es with
    | none => simp [hms] at hj
    | some ms =>
      simp only [hms, Option.some.injEq] at hj
      subst hj
      have hdec : decodeValue (JSON.obj (sortMembers ms))
          = Value.mapping (some (decodeMembers (sortMembers ms) [])) := by simp [decodeValue]
      rw [hdec] at hr
      have hun : New.UnmarshalJSON (some (JSON.obj (sortMembers ms)))
          = (⟨some (decodeMembers (sortMembers ms) [])⟩, none) := rfl
      rw [hun]
      cases hr with
      | mapping _ _ hkeys hvals =>
        exact ⟨rfl, fun k => hkeys k, fun k v v1 h h1 => hvals k v v1 h h1⟩

theorem Marshal_Unmarshal_roundtrip_witness :
    (∀ es, (Map.mk (some [("a", Value.int 12345), ("s", Value.string "<x>"),
          ("big", Value.int64 1152921504606846976), ("sub", Value.mapping none)])).data
            = some es →
        Representable (Value.mapping (some es)))
    ∧ ∀ L : Lib, ∃ j, (Map.mk (some [("a", Value.int 12345), ("s", Value.string "<x>"),
          ("big", Value.int64 1152921504606846976), ("sub", Value.mapping none)])).MarshalJSON L
            = some j
      ∧ (New.UnmarshalJSON (some j)).2 = none
      ∧ (∀ k, ((Map.mk (some [("a", Value.int 12345), ("s", Value.string "<x>"),
            ("big", Value.int64 1152921504606846976), ("sub", Value.mapping none)])).data.find
              k).isSome
            = ((New.UnmarshalJSON (some j)).1.data.find k).isSome)
      ∧ (∀ k v v1,
            (Map.mk (some [("a", Value.int 12345), ("s", Value.string "<x>"),
              ("big", Value.int64 1152921504606846976), ("sub", Value.mapping none)])).data.find
                k = some v →
            (New.UnmarshalJSON (some j)).1.data.find k = some v1 → JSONEquiv v v1) :=
  have hrep : ∀ es, (Map.mk (some [("a", Value.int 12345), ("s", Value.string "<x>"),
      ("big", Value.int64 1152921504606846976), ("sub", Value.mapping none)])).data = some es →
      Representable (Value.mapping (some es)) := by
    intro es h
    cases h
    refine Representable.mapping _ (by decide) ?_
    intro k v hm
    simp only [List.mem_cons, Prod.mk.injEq, List.mem_nil_iff, or_false] at hm
    rcases hm with ⟨_, rfl⟩ | ⟨_, rfl⟩ | ⟨_, rfl⟩ | ⟨_, rfl⟩
    · exact Representable.int 12345 ⟨Float64.ofInt 12345, Float64.toRat_ofInt 12345 (by decide)⟩
    · exact Representable.string "<x>"
    · exact Representable_two_pow_60
    · exact Representable.nilMapping
  ⟨hrep, fun L => Marshal_Unmarshal_roundtrip L _ hrep⟩

end maps
